import Mathlib

/-! Speakmin `Core::run_loop`: a shallow embedding.

The simulator core of `src/Core.cpp` is embedded as pure functions on an explicit
state record.  Conventions of the embedding:

* `uint32_t` tick values are natural numbers; every `uint32_t` addition of the source
  (`T_sim + 1`, `T_now + t_delay`, `T_now + t_delay + n + 1`) is reduced modulo `2 ^ 32`.
  `size_t` and `int` values (indices, `N_out_times`, `N_training_times`, `N_training_slide`,
  `class_label`, counters) are natural numbers; their arithmetic does not overflow for operands
  that fit in 32 bits.
* `double` weights are exact rationals.
* `std::priority_queue` is a list together with `top` (an entry of least time, the
  earliest pushed among equals), `pop` (remove that entry) and `push` (append).
* The `Neuron` class is declared outside `Core.cpp`; its member functions are a
  parameter (`NeuronOps`) and every theorem holds for every choice of them.
* An index outside a vector is undefined behaviour in C++; the embedding reads a default
  value there and skips the write.
* OpenMP pragmas are read as in a build without OpenMP: loops run in index order and
  the three `sections` run in the order they are written.
* The `REFRACTORY` variant is embedded: it is the one whose braces balance.
* `run_loop` takes the number of loop iterations it may run as an extra argument; a run cut
  off by it ends in the outcome `running`.
-/

namespace Speakmin

/-! ## Records -/

/-- Spike record: a tick and the identity `(index, layer tag)` of the neuron. -/
structure Spike where
  time : Nat
  id : Nat × Char
  deriving DecidableEq, Repr

/-- Credit event `Event_unit(time, spk_id, neu_id, sign)`. -/
structure Event_unit where
  time : Nat
  spk_id : Nat × Char
  neu_id : Nat × Char
  sign : Bool
  deriving DecidableEq, Repr

/-- Member functions of the `Neuron` class used by `Core.cpp`; `inp` is `Neuron::in`. -/
structure NeuronOps (N : Type) where
  leak : Nat → N → N
  inp : ℚ → N → N
  is_firing : N → Bool
  get_SG : N → Bool
  reset : N → N
  is_ref : Nat → N → Bool
  is_SG_ref : Nat → N → Bool

/-- Fields of `Core` read or written by `run_loop`, `reset` and `load_spike_train`. -/
structure Core (N : Type) where
  W_in : List (List ℚ)
  W_res : List (List ℚ)
  W_out : List (List ℚ)
  W_fb : List (List Bool)
  W_bias : List (List ℚ)
  t_delay : Nat
  Neu_res : List N
  Neu_out : List N
  Neu_acc : List Nat
  external_S_queue : List Spike
  internal_S_queue : List Spike
  S_vec_now : List Spike
  Event_queue_delay : List Event_unit
  Event_queue : List Event_unit
  Event_vec_now : List Event_unit
  S_vec_trace : List Spike
  S_vec_trace_now : List Spike
  S_vec_trace_delay_now : List Spike
  N_out_times : Nat
  N_training_times : Nat
  N_training_slide : Nat
  train_index : Nat
  enabling_train : Bool
  class_label : Nat
  lr : ℚ

/-- Reduction of a `uint32_t` result. -/
def u32 (n : Nat) : Nat := n % 2 ^ 32

/-! ## Priority queues -/

/-- Modelled from the spec: the comparison of `Spike` and `Event_unit` is declared outside
`Core.cpp`; the spec orders both by `time` ascending.  `top` is an entry of least key, the
first such entry of the list. -/
def top {α : Type} (key : α → Nat) : List α → Option α
  | [] => none
  | x :: xs =>
    match top key xs with
    | none => some x
    | some y => if key x ≤ key y then some x else some y

/-- Removal of the entry that `top` returns. -/
def pop {α : Type} (key : α → Nat) : List α → List α
  | [] => []
  | x :: xs =>
    match top key xs with
    | none => []
    | some y => if key x ≤ key y then xs else x :: pop key xs

/-- Insertion `q.push(x)`. -/
def push {α : Type} (q : List α) (x : α) : List α := q ++ [x]

/-- Loop `while (!q.empty() && q.top().time <= T) { v.push_back(q.top()); q.pop(); }`;
the first argument bounds the number of iterations. -/
def drainLoop {α : Type} (key : α → Nat) (T : Nat) : Nat → List α → List α → List α × List α
  | 0, q, v => (q, v)
  | fuel + 1, q, v =>
    match top key q with
    | none => (q, v)
    | some x => if key x ≤ T then drainLoop key T fuel (pop key q) (v ++ [x]) else (q, v)

/-- Drain up to time `T`: every iteration pops one entry, so `q.length` iterations suffice. -/
def drain {α : Type} (key : α → Nat) (T : Nat) (q v : List α) : List α × List α :=
  drainLoop key T q.length q v

/-- Loop `while (!q.empty()) { v.push_back(q.top()); q.pop(); }`. -/
def drainAllLoop {α : Type} (key : α → Nat) : Nat → List α → List α → List α × List α
  | 0, q, v => (q, v)
  | fuel + 1, q, v =>
    match top key q with
    | none => (q, v)
    | some x => drainAllLoop key fuel (pop key q) (v ++ [x])

/-- Drain of the whole queue. -/
def drainAll {α : Type} (key : α → Nat) (q v : List α) : List α × List α :=
  drainAllLoop key q.length q v

/-! ## Matrices -/

/-- Read of `W[i][j]`; an index outside the matrix reads the default. -/
def entry {β : Type} (d : β) (W : List (List β)) (i j : Nat) : β :=
  (W.getD i []).getD j d

/-- In-place update of position `n` of a vector. -/
def modifyAt {β : Type} (f : β → β) : Nat → List β → List β
  | _, [] => []
  | 0, x :: xs => f x :: xs
  | n + 1, x :: xs => x :: modifyAt f n xs

/-- In-place update of `W[i][j]`. -/
def modifyEntry {β : Type} (f : β → β) (i j : Nat) (W : List (List β)) : List (List β) :=
  modifyAt (modifyAt f j) i W

/-! ## Phases of one iteration of the tick loop -/

section Phases

variable {N : Type}

/-- MergeSpikes (lines 258-266): both spike queues are drained up to `T_now` into
`S_vec_now`, the external queue first. -/
def mergeSpikes (T_now : Nat) (s : Core N) : Core N :=
  let r1 := drain Spike.time T_now s.external_S_queue s.S_vec_now
  let r2 := drain Spike.time T_now s.internal_S_queue r1.2
  { s with external_S_queue := r1.1, internal_S_queue := r2.1, S_vec_now := r2.2 }

/-- Value of `train_signal` (line 279), in `size_t` arithmetic. -/
def train_signal (T_now N_training_slide N_training_times : Nat) : Nat :=
  ((T_now + 4 * N_training_slide) / 4) % N_training_times

/-- Leak of every reservoir and every output neuron (lines 283-294). -/
def leakAll (ops : NeuronOps N) (T_now : Nat) (s : Core N) : Core N :=
  { s with Neu_res := s.Neu_res.map (ops.leak T_now), Neu_out := s.Neu_out.map (ops.leak T_now) }

/-- Loop `for j: Neu[j].in(W[id_now][j])` over the neurons from index `j` on. -/
def injectRow (ops : NeuronOps N) (W : List (List ℚ)) (id_now : Nat) : Nat → List N → List N
  | _, [] => []
  | j, n :: ns => ops.inp (entry 0 W id_now j) n :: injectRow ops W id_now (j + 1) ns

/-- Propagation of one spike of `S_vec_now` (lines 299-314). -/
def propagateSpike (ops : NeuronOps N) (s : Core N) (S_now : Spike) : Core N :=
  if S_now.id.2 = 'r' then
    { s with Neu_res := injectRow ops s.W_res S_now.id.1 0 s.Neu_res,
             Neu_out := injectRow ops s.W_out S_now.id.1 0 s.Neu_out }
  else if S_now.id.2 = 'i' then
    { s with Neu_res := injectRow ops s.W_in S_now.id.1 0 s.Neu_res }
  else s

/-- Spike propagation over the whole working set (lines 297-315). -/
def propagate (ops : NeuronOps N) (s : Core N) : Core N :=
  s.S_vec_now.foldl (propagateSpike ops) s

/-- DrainDelayed (lines 317-331). -/
def drainDelayed (T_now : Nat) (s : Core N) : Core N :=
  let r1 := drain Event_unit.time T_now s.Event_queue_delay s.Event_vec_now
  let r2 := drain Spike.time T_now s.S_vec_trace s.S_vec_trace_now
  { s with Event_queue_delay := r1.1, Event_vec_now := r1.2,
           S_vec_trace := r2.1, S_vec_trace_now := r2.2 }

/-- Events pushed by a loop `for (S_now : vec) if (layer == 'r') push(Event_unit(t, (id_now,'r'),
neu_id, sign))`. -/
def spikeEvents (t : Nat) (neu_id : Nat × Char) (sign : Bool) (vec : List Spike) :
    List Event_unit :=
  (vec.filter (fun S_now => S_now.id.2 = 'r')).map
    (fun S_now => Event_unit.mk t (S_now.id.1, 'r') neu_id sign)

/-- Events pushed by the loop over `Event_vec_now` (lines 413-421 with `want = false`,
lines 471-479 with `want = true`): the sign is `want == W_fb[neu_id_now][n]`. -/
def feedbackEvents (T_now : Nat) (W_fb : List (List Bool)) (want : Bool) (n : Nat)
    (vec : List Event_unit) : List Event_unit :=
  vec.map (fun E_now =>
    Event_unit.mk T_now E_now.spk_id E_now.neu_id (want == entry false W_fb E_now.neu_id.1 n))

/-- The 20 trace spikes of lines 361-363. -/
def traceSpikes (T_now t_delay i : Nat) : List Spike :=
  (List.range (4 * 5)).map (fun n => Spike.mk (u32 (T_now + t_delay + n + 1)) (i, 'r'))

/-- Body of the reservoir loop for index `i` (lines 341-371). -/
def reservoirStep (ops : NeuronOps N) (T_now : Nat) (s : Core N) (i : Nat) : Core N :=
  match s.Neu_res[i]? with
  | none => s
  | some nu =>
    if ops.is_firing nu then
      let s1 :=
        if s.enabling_train then
          let s0 :=
            if ops.get_SG nu then
              { s with Event_queue_delay := s.Event_queue_delay ++
                  spikeEvents (u32 (T_now + s.t_delay)) (i, 'r') true s.S_vec_now }
            else s
          { s0 with S_vec_trace := s0.S_vec_trace ++ traceSpikes T_now s0.t_delay i }
        else s
      { s1 with internal_S_queue := push s1.internal_S_queue
                  (Spike.mk (u32 (T_now + s1.t_delay)) (i, 'r')),
                Neu_res := s1.Neu_res.set i (ops.reset nu) }
    else s

/-- First section (lines 337-373). -/
def reservoirSection (ops : NeuronOps N) (T_now : Nat) (s : Core N) : Core N :=
  (List.range s.Neu_res.length).foldl (reservoirStep ops T_now) s

/-- Body of the output loop for index `i` (lines 379-427). -/
def outputStep (ops : NeuronOps N) (T_now sig : Nat) (s : Core N) (i : Nat) : Core N :=
  match s.Neu_out[i]? with
  | none => s
  | some nu =>
    if ops.is_firing nu then
      let s1 :=
        if s.enabling_train ∧ sig = 0 ∧ i / s.N_out_times ≠ s.class_label
            ∧ i % s.N_out_times = s.train_index then
          let s0 :=
            if ops.get_SG nu then
              { s with Event_queue := s.Event_queue
                  ++ spikeEvents T_now (i, 'o') false s.S_vec_now
                  ++ spikeEvents T_now (i, 'o') false s.S_vec_trace_now }
            else s
          { s0 with Event_queue := s0.Event_queue
              ++ feedbackEvents T_now s0.W_fb false i s0.Event_vec_now }
        else s
      { s1 with Neu_out := s1.Neu_out.set i (ops.reset nu),
                Neu_acc := modifyAt (· + 1) (i / s1.N_out_times) s1.Neu_acc }
    else s

/-- Second section (lines 375-429). -/
def outputSection (ops : NeuronOps N) (T_now sig : Nat) (s : Core N) : Core N :=
  (List.range s.Neu_out.length).foldl (outputStep ops T_now sig) s

/-- Body of the target-class loop for replica `k` (lines 436-481). -/
def targetStep (ops : NeuronOps N) (T_now : Nat) (s : Core N) (k : Nat) : Core N :=
  let n := s.class_label * s.N_out_times + k
  match s.Neu_out[n]? with
  | none => s
  | some nu =>
    if ops.is_firing nu = false ∧ ops.is_ref T_now nu = false ∧ k = s.train_index
        ∧ ops.is_SG_ref T_now nu = false then
      let s0 :=
        if ops.get_SG nu then
          { s with Event_queue := s.Event_queue
              ++ spikeEvents T_now (n, 'o') true s.S_vec_now
              ++ spikeEvents T_now (n, 'o') true s.S_vec_trace_now }
        else s
      { s0 with Event_queue := s0.Event_queue
          ++ feedbackEvents T_now s0.W_fb true n s0.Event_vec_now }
    else s

/-- Third section (lines 431-483). -/
def targetSection (ops : NeuronOps N) (T_now sig : Nat) (s : Core N) : Core N :=
  if s.enabling_train ∧ sig = 0 then
    (List.range s.N_out_times).foldl (targetStep ops T_now) s
  else s

/-- Update of one cell followed by its one-sided clamp: `W += d; if (W > hi) W = hi`. -/
def addClamp (d hi : ℚ) (w : ℚ) : ℚ := if w + d > hi then hi else w + d

/-- Update of one cell followed by its one-sided clamp: `W -= d; if (W < lo) W = lo`. -/
def subClamp (d lo : ℚ) (w : ℚ) : ℚ := if w - d < lo then lo else w - d

/-- Body of the plasticity loop for one event (lines 500-528). -/
def applyEvent (s : Core N) (E_now : Event_unit) : Core N :=
  let spk_id_now := E_now.spk_id.1
  let neu_id_now := E_now.neu_id.1
  if E_now.spk_id.2 = 'r' ∧ E_now.neu_id.2 = 'o' then
    if E_now.sign then
      { s with W_out := modifyEntry (addClamp s.lr 1) spk_id_now neu_id_now s.W_out }
    else
      { s with W_out := modifyEntry (subClamp s.lr (-1)) spk_id_now neu_id_now s.W_out }
  else if E_now.spk_id.2 = 'r' ∧ E_now.neu_id.2 = 'r' then
    if E_now.sign then
      { s with W_res :=
          modifyEntry (addClamp (s.lr * (1 / 10)) (1 / 10)) spk_id_now neu_id_now s.W_res }
    else
      { s with W_res :=
          modifyEntry (subClamp (s.lr * (1 / 10)) (-(1 / 10))) spk_id_now neu_id_now s.W_res }
  else s

/-- ApplyPlasticity (lines 488-531). -/
def applyPlasticity (sig : Nat) (s : Core N) : Core N :=
  if s.enabling_train ∧ sig = 0 then
    let r := drainAll Event_unit.time s.Event_queue []
    r.2.foldl applyEvent { s with Event_queue := r.1 }
  else s

/-- ClearTransient (lines 533-536). -/
def clearTransient (s : Core N) : Core N :=
  { s with S_vec_now := [], S_vec_trace_now := [], S_vec_trace_delay_now := [],
           Event_vec_now := [] }

/-- Lines 272-331: slot index, leak, spike propagation and DrainDelayed; the state in which
the three firing sections start. -/
def preFire (ops : NeuronOps N) (T_now : Nat) (s : Core N) : Core N :=
  drainDelayed T_now
    (propagate ops (leakAll ops T_now { s with train_index := T_now % s.N_out_times }))

/-- Lines 335-484: the three sections, in the order they are written. -/
def fireAndCredit (ops : NeuronOps N) (T_now sig : Nat) (s : Core N) : Core N :=
  targetSection ops T_now sig (outputSection ops T_now sig (reservoirSection ops T_now s))

/-- Lines 272-536: the part of an iteration after the configuration check. -/
def tickBody (ops : NeuronOps N) (T_now : Nat) (s : Core N) : Core N :=
  let sig := train_signal T_now s.N_training_slide s.N_training_times
  clearTransient (applyPlasticity sig (fireAndCredit ops T_now sig (preFire ops T_now s)))

end Phases

/-! ## The tick loop and `run_loop` -/

/-- Result of one iteration of `while (T_now <= T_sim)`. -/
inductive Step (N : Type) where
  | next (T_now : Nat) (s : Core N)
  | exit (s : Core N)
  | raised (s : Core N)

/-- Head time of a spike queue, `T_sim + 1` (as `uint32_t`) when it is empty
(lines 250-251). -/
def headTime (T_sim : Nat) (q : List Spike) : Nat :=
  match top Spike.time q with
  | none => u32 (T_sim + 1)
  | some S => S.time

/-- Tick computed by AdvanceClock (line 252). -/
def nextTick {N : Type} (T_sim : Nat) (s : Core N) : Nat :=
  min (headTime T_sim s.external_S_queue) (headTime T_sim s.internal_S_queue)

/-- One iteration of the loop body (lines 250-536). -/
def loopBody {N : Type} (ops : NeuronOps N) (T_sim : Nat) (s : Core N) : Step N :=
  let T_now := nextTick T_sim s
  if T_now > T_sim then .exit s
  else
    let s1 := mergeSpikes T_now s
    if s1.N_out_times = 0 ∨ s1.N_training_times = 0 then .raised s1
    else if s1.N_training_times = 0 then .raised s1
    else .next T_now (tickBody ops T_now s1)

/-- How `run_loop` ends: it returns `is_correct`, it throws
`"N_out_times or N_training_times cannot be zero"`, it evaluates
`(N_training_slide + 1) % N_training_times` with a zero divisor (line 539, undefined in C++),
or the iteration bound of the embedding is used up with the loop still running. -/
inductive Outcome (N : Type) where
  | returned (is_correct : Bool) (s : Core N)
  | config_error (s : Core N)
  | modulo_by_zero (s : Core N)
  | running (T_now : Nat) (s : Core N)

/-- The loop `while (T_now <= T_sim) { ... }` run for at most `fuel` iterations;
`Sum.inl` carries the state at loop exit. -/
def whileLoop {N : Type} (ops : NeuronOps N) (T_sim : Nat) :
    Nat → Nat → Core N → Core N ⊕ Outcome N
  | 0, T_now, s => .inr (.running T_now s)
  | fuel + 1, T_now, s =>
    if T_now ≤ T_sim then
      match loopBody ops T_sim s with
      | .next T s1 => whileLoop ops T_sim fuel T s1
      | .exit s1 => .inl s1
      | .raised s1 => .inr (.config_error s1)
    else .inl s

/-- Index returned by `std::max_element` over the elements from position `i` on, given the
best position `best` and its value `bv` so far: a later element wins only if strictly
larger. -/
def maxElementFrom (best bv : Nat) : Nat → List Nat → Nat
  | _, [] => best
  | i, x :: xs => if bv < x then maxElementFrom i x (i + 1) xs else maxElementFrom best bv (i + 1) xs

/-- Value of `std::distance(v.begin(), std::max_element(v.begin(), v.end()))`. -/
def max_element (v : List Nat) : Nat :=
  match v with
  | [] => 0
  | x :: xs => maxElementFrom 0 x 1 xs

/-- Score (lines 542-544): `max_index` is a `uint8_t`. -/
def score (Neu_acc : List Nat) (class_now : Nat) : Bool :=
  decide (max_element Neu_acc % 2 ^ 8 = class_now)

/-- Embedding of `Core::run_loop(T_sim)` with at most `fuel` loop iterations. -/
def run_loop {N : Type} (ops : NeuronOps N) (fuel T_sim : Nat) (s : Core N) : Outcome N :=
  match whileLoop ops T_sim fuel 0 s with
  | .inr o => o
  | .inl s1 =>
    if s1.N_training_times = 0 then .modulo_by_zero s1
    else
      let s2 := { s1 with N_training_slide := (s1.N_training_slide + 1) % s1.N_training_times }
      .returned (score s2.Neu_acc s.class_label) s2

/-- Embedding of `Core::run`. -/
def run {N : Type} (ops : NeuronOps N) (fuel input_T_sim : Nat) (s : Core N) : Outcome N :=
  run_loop ops fuel input_T_sim s

/-! ## Predicates used in the statements -/

/-- Fields that no phase of a tick writes, and the sizes of the two neuron arrays. -/
structure Frame {N : Type} (s s1 : Core N) : Prop where
  W_in : s1.W_in = s.W_in
  W_fb : s1.W_fb = s.W_fb
  W_bias : s1.W_bias = s.W_bias
  t_delay : s1.t_delay = s.t_delay
  N_out_times : s1.N_out_times = s.N_out_times
  N_training_times : s1.N_training_times = s.N_training_times
  N_training_slide : s1.N_training_slide = s.N_training_slide
  enabling_train : s1.enabling_train = s.enabling_train
  class_label : s1.class_label = s.class_label
  lr : s1.lr = s.lr
  res_size : s1.Neu_res.length = s.Neu_res.length
  out_size : s1.Neu_out.length = s.Neu_out.length

/-- Every entry of the matrix lies in `[lo, hi]`. -/
def EntriesIn (lo hi : ℚ) (W : List (List ℚ)) : Prop :=
  ∀ row ∈ W, ∀ w ∈ row, lo ≤ w ∧ w ≤ hi

/-- Clamping bounds of the two trainable matrices. -/
def WeightsClamped {N : Type} (s : Core N) : Prop :=
  EntriesIn (-1) 1 s.W_out ∧ EntriesIn (-(1 / 10)) (1 / 10) s.W_res

/-- State carried by an outcome. -/
def Outcome.state {N : Type} : Outcome N → Core N
  | .returned _ s => s
  | .config_error s => s
  | .modulo_by_zero s => s
  | .running _ s => s

/-- The two trainable matrices are the same in both states. -/
structure SameWeights {N : Type} (s s1 : Core N) : Prop where
  W_res : s1.W_res = s.W_res
  W_out : s1.W_out = s.W_out

/-! ## Concrete neurons and states for the runs evaluated below -/

/-- Neuron whose whole state is its firing flag, which no member function changes: a neuron
with the flag set is found firing at every tick, one without it never fires.  The
surrogate-gradient gate is always open and the neuron is never refractory. -/
def flagOps : NeuronOps Bool where
  leak := fun _ n => n
  inp := fun _ n => n
  is_firing := fun n => n
  get_SG := fun _ => true
  reset := fun n => n
  is_ref := fun _ _ => false
  is_SG_ref := fun _ _ => false

/-- State after construction and `reset` for one reservoir neuron and ten output neurons, none
of them firing, with all weights zero and training disabled. -/
def idleCore : Core Bool where
  W_in := [[0]]
  W_res := [[0]]
  W_out := [[0, 0, 0, 0, 0, 0, 0, 0, 0, 0]]
  W_fb := []
  W_bias := []
  t_delay := 1
  Neu_res := [false]
  Neu_out := [false, false, false, false, false, false, false, false, false, false]
  Neu_acc := [0, 0, 0, 0, 0, 0, 0, 0, 0, 0]
  external_S_queue := []
  internal_S_queue := []
  S_vec_now := []
  Event_queue_delay := []
  Event_queue := []
  Event_vec_now := []
  S_vec_trace := []
  S_vec_trace_now := []
  S_vec_trace_delay_now := []
  N_out_times := 1
  N_training_times := 1
  N_training_slide := 0
  train_index := 0
  enabling_train := false
  class_label := 0
  lr := 1 / 100

/-- Idle state whose `W_out` holds an entry outside `[-1, 1]`. -/
def wideCore : Core Bool :=
  { idleCore with W_out := [[5, 0, 0, 0, 0, 0, 0, 0, 0, 0]] }

/-- Training state with a negative learning rate and one reservoir spike due at tick 0. -/
def negLrCore : Core Bool :=
  { idleCore with enabling_train := true, lr := -5,
                  internal_S_queue := [Spike.mk 0 (0, 'r')] }

/-- Training state with a learning rate above the width of the clamping interval and one
reservoir spike due at tick 0. -/
def bigLrCore : Core Bool :=
  { idleCore with enabling_train := true, lr := 3,
                  internal_S_queue := [Spike.mk 0 (0, 'r')] }

/-! ## Observation of output firings -/

/-- Whether output neuron `i` of state `s` has its firing flag set. -/
def outputFires {N : Type} (ops : NeuronOps N) (s : Core N) (i : Nat) : Bool :=
  match s.Neu_out[i]? with
  | some nu => ops.is_firing nu
  | none => false

/-- Indices of the output neurons whose firing flag is set in `s`, in index order. -/
def firingOutputs {N : Type} (ops : NeuronOps N) (s : Core N) : List Nat :=
  (List.range s.Neu_out.length).filter (outputFires ops s)

/-- State in which the output section of the tick `T_now` starts, given the state `s` at the
top of the iteration. -/
def atOutputSection {N : Type} (ops : NeuronOps N) (T_now : Nat) (s : Core N) : Core N :=
  reservoirSection ops T_now (preFire ops T_now (mergeSpikes T_now s))

/-- The (tick, output neuron) pairs for which the output section finds the neuron firing,
over the iterations that `whileLoop` runs with the same arguments. -/
def firingEvents {N : Type} (ops : NeuronOps N) (T_sim : Nat) :
    Nat → Nat → Core N → List (Nat × Nat)
  | 0, _, _ => []
  | fuel + 1, T_now, s =>
    if T_now ≤ T_sim then
      match loopBody ops T_sim s with
      | .next T s1 =>
        (firingOutputs ops (atOutputSection ops T s)).map (fun i => (T, i))
          ++ firingEvents ops T_sim fuel T s1
      | .exit _ => []
      | .raised _ => []
    else []

/-- State in which the loop stops or is cut off. -/
def loopState {N : Type} : Core N ⊕ Outcome N → Core N
  | .inl s => s
  | .inr o => o.state

/-- Idle state in which the output neurons 3 and 7 have their firing flag set and the stimulus
holds one input spike at tick 0 and one at tick 1. -/
def firingCore : Core Bool :=
  { idleCore with
      Neu_out := [false, false, false, true, false, false, false, true, false, false],
      external_S_queue := [Spike.mk 0 (0, 'i'), Spike.mk 1 (0, 'i')] }

/-- Idle state with `N_training_times = 0` and an empty stimulus. -/
def zeroTrainCore : Core Bool :=
  { idleCore with N_training_times := 0 }

/-- Idle state with `N_out_times = 0` whose only stimulus spike is later than the `T_sim = 3`
it is run with. -/
def zeroOutCore : Core Bool :=
  { idleCore with N_out_times := 0, external_S_queue := [Spike.mk 5 (0, 'i')] }

/-- Idle state with `N_out_times = 0` and one input spike due at tick 0. -/
def zeroOutDueCore : Core Bool :=
  { idleCore with N_out_times := 0, external_S_queue := [Spike.mk 0 (0, 'i')] }

/-- Index `i` is the smallest index at which `v` attains its maximum. -/
def IsFirstMax (v : List Nat) (i : Nat) : Prop :=
  i < v.length ∧ (∀ j < v.length, v.getD j 0 ≤ v.getD i 0) ∧ ∀ j < i, v.getD j 0 < v.getD i 0

/-- Idle state whose accumulator holds a tie between classes 2 and 6, with target class 2. -/
def tiedCore : Core Bool :=
  { idleCore with Neu_acc := [0, 1, 4, 0, 3, 0, 4, 0, 0, 2], class_label := 2 }

/-- State `a` shows no effect of training relative to `s`: training is disabled in `a`, the
five matrices are those of `s`, the immediate credit-event queue is that of `s`, and the
delayed credit-event queue and the trace-spike queue of `a` are what is left of those of `s`
after removing entries. -/
structure Untrained {N : Type} (s a : Core N) : Prop where
  enabling_train : a.enabling_train = false
  W_in : a.W_in = s.W_in
  W_res : a.W_res = s.W_res
  W_out : a.W_out = s.W_out
  W_fb : a.W_fb = s.W_fb
  W_bias : a.W_bias = s.W_bias
  Event_queue : a.Event_queue = s.Event_queue
  Event_queue_delay : a.Event_queue_delay.Sublist s.Event_queue_delay
  S_vec_trace : a.S_vec_trace.Sublist s.S_vec_trace

/-- State with training disabled in which the reservoir neuron and output neuron 4 fire at
every tick, with pending entries in the delayed credit-event queue and the trace-spike queue
and one reservoir spike due at tick 0. -/
def untrainedCore : Core Bool :=
  { idleCore with
      Neu_res := [true],
      Neu_out := [false, false, false, false, true, false, false, false, false, false],
      internal_S_queue := [Spike.mk 0 (0, 'r')],
      Event_queue_delay := [Event_unit.mk 0 (0, 'r') (0, 'r') true,
                            Event_unit.mk 9 (0, 'r') (0, 'r') true],
      S_vec_trace := [Spike.mk 1 (0, 'r'), Spike.mk 7 (0, 'r')] }

/-- State of `firingCore` with three training slots and the slot offset at its last value. -/
def slideCore : Core Bool :=
  { firingCore with N_training_times := 3, N_training_slide := 2 }

/-- Every spike waiting in the external or the internal spike queue is due at tick `L` or
later. -/
def SpikesAfter {N : Type} (L : Nat) (s : Core N) : Prop :=
  (∀ S ∈ s.external_S_queue, L ≤ S.time) ∧ (∀ S ∈ s.internal_S_queue, L ≤ S.time)

/-- Whether the outcome is that of a loop cut off by the iteration bound. -/
def Outcome.isRunning {N : Type} : Outcome N → Bool
  | .running _ _ => true
  | _ => false

/-- State with `t_delay = 0`, a reservoir neuron that fires at every tick and one input
spike due at tick 0. -/
def zeroDelayCore : Core Bool :=
  { idleCore with t_delay := 0, Neu_res := [true],
                  external_S_queue := [Spike.mk 0 (0, 'i')] }

/-- State of `zeroDelayCore` after its first iteration, which every later iteration
reproduces: the spike the reservoir neuron has sent to itself is due at tick 0 again. -/
def zeroDelayLoop : Core Bool :=
  { idleCore with t_delay := 0, Neu_res := [true],
                  internal_S_queue := [Spike.mk 0 (0, 'r')] }

/-- Largest value of a `uint32_t`. -/
def UINT32_MAX : Nat := 2 ^ 32 - 1

/-- The two spike queues together with the propagation delay. -/
def spikeQueues {N : Type} (s : Core N) : List Spike × List Spike × Nat :=
  (s.external_S_queue, s.internal_S_queue, s.t_delay)

/-- State whose four queues hold entries on both sides of tick 1, not in time order. -/
def drainCore : Core Bool :=
  { idleCore with
      external_S_queue := [Spike.mk 2 (1, 'i'), Spike.mk 0 (0, 'i'), Spike.mk 1 (3, 'i')],
      internal_S_queue := [Spike.mk 4 (0, 'r'), Spike.mk 1 (0, 'r')],
      Event_queue_delay := [Event_unit.mk 3 (0, 'r') (0, 'r') true,
                            Event_unit.mk 1 (0, 'r') (0, 'r') true],
      S_vec_trace := [Spike.mk 1 (0, 'r'), Spike.mk 7 (0, 'r'), Spike.mk 0 (0, 'r')] }

/-! ## `load_spike_train` and `reset` -/

/-- Loop `while (!q.empty()) q.pop();`; the first argument bounds the number of iterations. -/
def popAllLoop {α : Type} (key : α → Nat) : Nat → List α → List α
  | 0, q => q
  | fuel + 1, q =>
    match q with
    | [] => []
    | _ :: _ => popAllLoop key fuel (pop key q)

/-- Emptying of a queue: every iteration pops one entry, so `q.length` iterations suffice. -/
def popAll {α : Type} (key : α → Nat) (q : List α) : List α :=
  popAllLoop key q.length q

/-- Spike pushed by `load_spike_train` for one stimulus entry (lines 551-552). -/
def stimulusSpike (time neuron_index : Nat) : Spike :=
  if neuron_index < 144 then Spike.mk time (neuron_index, 'i')
  else Spike.mk time (neuron_index - 144, 'b')

/-- Embedding of `Core::load_spike_train` (lines 548-554). -/
def load_spike_train {N : Type} (spike_times neuron_indices : List Nat) (s : Core N) : Core N :=
  (List.range spike_times.length).foldl
    (fun a i =>
      let S := stimulusSpike (spike_times.getD i 0) (neuron_indices.getD i 0)
      { a with external_S_queue := push a.external_S_queue S })
    { s with external_S_queue := popAll Spike.time s.external_S_queue }

/-- Embedding of `Core::reset` (lines 193-220); `rebuild` is the re-construction of a neuron
from its own parameters by the `Neuron` constructor, which is declared outside `Core.cpp`. -/
def reset {N : Type} (rebuild : N → N) (s : Core N) : Core N :=
  { s with Neu_res := s.Neu_res.map rebuild,
           Neu_out := s.Neu_out.map rebuild,
           external_S_queue := popAll Spike.time s.external_S_queue,
           internal_S_queue := popAll Spike.time s.internal_S_queue,
           S_vec_now := [],
           Neu_acc := List.replicate 10 0 }

/-- State with a stimulus left over from an earlier load. -/
def loadedCore : Core Bool :=
  { idleCore with external_S_queue := [Spike.mk 9 (7, 'i'), Spike.mk 3 (1, 'b')] }

/-! ## Cells of a matrix and the two-sided clamp -/

/-- Position `(i, j)` lies inside the matrix `W`. -/
def HasCell {β : Type} (W : List (List β)) (i j : Nat) : Prop :=
  i < W.length ∧ j < (W.getD i []).length

/-- Two-sided clamp `clamp(w, lo, hi)` of the spec. -/
def clampTo (lo hi w : ℚ) : ℚ := max lo (min hi w)

/-- Idle state whose `W_out[0][0]` is -5, below the clamping interval, with learning rate 1. -/
def lowCore : Core Bool :=
  { idleCore with W_out := [[-5, 0, 0, 0, 0, 0, 0, 0, 0, 0]], lr := 1 }

/-! ## The two trainable matrices under a list of events -/

/-- Matrix `W_out` after the plasticity step of one event, for learning rate `lr`. -/
def outAfter (lr : ℚ) (E : Event_unit) (W : List (List ℚ)) : List (List ℚ) :=
  if E.spk_id.2 = 'r' ∧ E.neu_id.2 = 'o' then
    if E.sign then modifyEntry (addClamp lr 1) E.spk_id.1 E.neu_id.1 W
    else modifyEntry (subClamp lr (-1)) E.spk_id.1 E.neu_id.1 W
  else W

/-- Matrix `W_res` after the plasticity step of one event, for learning rate `lr`. -/
def resAfter (lr : ℚ) (E : Event_unit) (W : List (List ℚ)) : List (List ℚ) :=
  if E.spk_id.2 = 'r' ∧ E.neu_id.2 = 'o' then W
  else if E.spk_id.2 = 'r' ∧ E.neu_id.2 = 'r' then
    if E.sign then modifyEntry (addClamp (lr * (1 / 10)) (1 / 10)) E.spk_id.1 E.neu_id.1 W
    else modifyEntry (subClamp (lr * (1 / 10)) (-(1 / 10))) E.spk_id.1 E.neu_id.1 W
  else W

/-- Training state with `W_res[0][0] = 9/100`, `W_out[0][0] = 9/10` and learning rate `1/5`. -/
def edgeCore : Core Bool :=
  { idleCore with W_res := [[9 / 100]], W_out := [[9 / 10, 0, 0, 0, 0, 0, 0, 0, 0, 0]],
                  lr := 1 / 5, enabling_train := true }

/-! ## Observation of the applied credit events -/

/-- Events that ApplyPlasticity applies, in the order of application, in the tick `T_now` that
follows MergeSpikes in state `s`. -/
def tickEvents {N : Type} (ops : NeuronOps N) (T_now : Nat) (s : Core N) : List Event_unit :=
  if (fireAndCredit ops T_now (train_signal T_now s.N_training_slide s.N_training_times)
        (preFire ops T_now s)).enabling_train
      ∧ train_signal T_now s.N_training_slide s.N_training_times = 0 then
    (drainAll Event_unit.time
      (fireAndCredit ops T_now (train_signal T_now s.N_training_slide s.N_training_times)
        (preFire ops T_now s)).Event_queue []).2
  else []

/-- Events applied by ApplyPlasticity over the iterations that `whileLoop` runs with the same
arguments, in the order of application. -/
def appliedEvents {N : Type} (ops : NeuronOps N) (T_sim : Nat) :
    Nat → Nat → Core N → List Event_unit
  | 0, _, _ => []
  | fuel + 1, T_now, s =>
    if T_now ≤ T_sim then
      match loopBody ops T_sim s with
      | .next T s1 => tickEvents ops T (mergeSpikes T s) ++ appliedEvents ops T_sim fuel T s1
      | .exit _ => []
      | .raised _ => []
    else []

/-- Arguments of `Neuron::in` that reservoir neuron `j` receives during spike propagation over
`vec`, in order. -/
def resCurrents (W_in W_res : List (List ℚ)) (j : Nat) (vec : List Spike) : List ℚ :=
  vec.filterMap (fun S_now =>
    if S_now.id.2 = 'r' then some (entry 0 W_res S_now.id.1 j)
    else if S_now.id.2 = 'i' then some (entry 0 W_in S_now.id.1 j)
    else none)

/-- Arguments of `Neuron::in` that output neuron `k` receives during spike propagation over
`vec`, in order. -/
def outCurrents (W_out : List (List ℚ)) (k : Nat) (vec : List Spike) : List ℚ :=
  vec.filterMap (fun S_now =>
    if S_now.id.2 = 'r' then some (entry 0 W_out S_now.id.1 k) else none)

/-- Neuron that records the arguments of `Neuron::in` in the order received. -/
def recordOps : NeuronOps (List ℚ) where
  leak := fun _ n => n
  inp := fun w n => n ++ [w]
  is_firing := fun _ => false
  get_SG := fun _ => false
  reset := fun n => n
  is_ref := fun _ _ => false
  is_SG_ref := fun _ _ => false

/-- State with two recording reservoir neurons and one recording output neuron, and a working
spike set with an input spike, two reservoir spikes and a bias spike. -/
def recordCore : Core (List ℚ) where
  W_in := [[1 / 2, 1 / 3]]
  W_res := [[1 / 5, 1 / 7], [1 / 11, 1 / 13]]
  W_out := [[2], [3]]
  W_fb := []
  W_bias := []
  t_delay := 1
  Neu_res := [[], []]
  Neu_out := [[]]
  Neu_acc := [0, 0, 0, 0, 0, 0, 0, 0, 0, 0]
  external_S_queue := []
  internal_S_queue := []
  S_vec_now := [Spike.mk 0 (0, 'i'), Spike.mk 0 (1, 'r'), Spike.mk 0 (0, 'b'),
                Spike.mk 0 (0, 'r')]
  Event_queue_delay := []
  Event_queue := []
  Event_vec_now := []
  S_vec_trace := []
  S_vec_trace_now := []
  S_vec_trace_delay_now := []
  N_out_times := 1
  N_training_times := 1
  N_training_slide := 0
  train_index := 0
  enabling_train := false
  class_label := 0
  lr := 1 / 100

/-! ## Observation of the reservoir section -/

/-- Concatenation of the lists `f x` for `x` in the list, in order. -/
def appendAll {α β : Type} (f : α → List β) : List α → List β
  | [] => []
  | x :: xs => f x ++ appendAll f xs

/-- Whether reservoir neuron `i` of state `s` has its firing flag set. -/
def reservoirFires {N : Type} (ops : NeuronOps N) (s : Core N) (i : Nat) : Bool :=
  match s.Neu_res[i]? with
  | some nu => ops.is_firing nu
  | none => false

/-- Whether the surrogate-gradient gate of reservoir neuron `i` of state `s` is true. -/
def reservoirSG {N : Type} (ops : NeuronOps N) (s : Core N) (i : Nat) : Bool :=
  match s.Neu_res[i]? with
  | some nu => ops.get_SG nu
  | none => false

/-- Indices of the reservoir neurons whose firing flag is set in `s`, in index order. -/
def firingReservoir {N : Type} (ops : NeuronOps N) (s : Core N) : List Nat :=
  (List.range s.Neu_res.length).filter (reservoirFires ops s)

/-- Trace spikes that the firing reservoir neuron `i` adds at tick `T_now` in state `s`. -/
def resTrace {N : Type} (T_now : Nat) (s : Core N) (i : Nat) : List Spike :=
  if s.enabling_train then traceSpikes T_now s.t_delay i else []

/-- Delayed credit events that the firing reservoir neuron `i` adds at tick `T_now` in
state `s`. -/
def resDelayed {N : Type} (ops : NeuronOps N) (T_now : Nat) (s : Core N) (i : Nat) :
    List Event_unit :=
  if s.enabling_train ∧ reservoirSG ops s i then
    spikeEvents (u32 (T_now + s.t_delay)) (i, 'r') true s.S_vec_now
  else []

/-- Training state with delay 2 in which reservoir neuron 1 of three fires, with two reservoir
spikes and an input spike in the working set. -/
def reservoirCore : Core Bool :=
  { idleCore with t_delay := 2, enabling_train := true,
                  W_res := [[0, 0, 0], [0, 0, 0], [0, 0, 0]],
                  Neu_res := [false, true, false],
                  S_vec_now := [Spike.mk 5 (2, 'r'), Spike.mk 5 (0, 'i'), Spike.mk 5 (0, 'r')] }

/-! ## Observation of the output and target sections -/

/-- Whether the surrogate-gradient gate of output neuron `i` of state `s` is true. -/
def outputSG {N : Type} (ops : NeuronOps N) (s : Core N) (i : Nat) : Bool :=
  match s.Neu_out[i]? with
  | some nu => ops.get_SG nu
  | none => false

/-- Condition of line 380 for output neuron `i` at phase value `sig`. -/
def NonTargetSlot {N : Type} (sig : Nat) (s : Core N) (i : Nat) : Prop :=
  s.enabling_train = true ∧ sig = 0 ∧ i / s.N_out_times ≠ s.class_label
    ∧ i % s.N_out_times = s.train_index

/-- Events that the firing output neuron `i` pushes to the immediate queue at tick `T_now` in
state `s` (lines 380-423). -/
def outputEvents {N : Type} (ops : NeuronOps N) (T_now sig : Nat) (s : Core N) (i : Nat) :
    List Event_unit :=
  if s.enabling_train ∧ sig = 0 ∧ i / s.N_out_times ≠ s.class_label
      ∧ i % s.N_out_times = s.train_index then
    (if outputSG ops s i then
      spikeEvents T_now (i, 'o') false s.S_vec_now
        ++ spikeEvents T_now (i, 'o') false s.S_vec_trace_now
    else [])
    ++ feedbackEvents T_now s.W_fb false i s.Event_vec_now
  else []

/-- Parts of the state that the output and target loops read and do not write. -/
def creditInputs {N : Type} (s : Core N) :
    Bool × Nat × Nat × Nat × List Spike × List Spike × List Event_unit × List (List Bool) :=
  (s.enabling_train, s.N_out_times, s.class_label, s.train_index, s.S_vec_now,
    s.S_vec_trace_now, s.Event_vec_now, s.W_fb)

/-- Neuron as `flagOps` but with the surrogate-gradient gate always false. -/
def noGateOps : NeuronOps Bool where
  leak := fun _ n => n
  inp := fun _ n => n
  is_firing := fun n => n
  get_SG := fun _ => false
  reset := fun n => n
  is_ref := fun _ _ => false
  is_SG_ref := fun _ _ => false

/-- Training state at the start of the firing sections of tick 0 with target class 0: output
neuron 3 fires, the working set holds a reservoir spike, the drained trace list a reservoir
identity and the drained delayed list one credit event. -/
def creditCore : Core Bool :=
  { idleCore with
      enabling_train := true,
      W_fb := [[true, false, false, true, false, false, false, false, false, false]],
      Neu_out := [false, false, false, true, false, false, false, false, false, false],
      S_vec_now := [Spike.mk 0 (0, 'r'), Spike.mk 0 (0, 'i')],
      S_vec_trace_now := [Spike.mk 0 (0, 'r')],
      Event_vec_now := [Event_unit.mk 0 (0, 'r') (0, 'r') true] }

/-- Condition of line 438 for replica `k` of the target class at tick `T_now`: the neuron
`class_label * N_out_times + k` is not firing, not refractory, `k` is the training slot, and
the neuron is not surrogate-gradient-refractory. -/
def targetOpen {N : Type} (ops : NeuronOps N) (T_now : Nat) (s : Core N) (k : Nat) : Bool :=
  match s.Neu_out[s.class_label * s.N_out_times + k]? with
  | some nu =>
    !ops.is_firing nu && !ops.is_ref T_now nu && decide (k = s.train_index)
      && !ops.is_SG_ref T_now nu
  | none => false

/-- Whether the surrogate-gradient gate of replica `k` of the target class is true. -/
def targetSG {N : Type} (ops : NeuronOps N) (s : Core N) (k : Nat) : Bool :=
  match s.Neu_out[s.class_label * s.N_out_times + k]? with
  | some nu => ops.get_SG nu
  | none => false

/-- Events that replica `k` of the target class pushes to the immediate queue at tick `T_now`
in state `s` (lines 438-480). -/
def targetEvents {N : Type} (ops : NeuronOps N) (T_now : Nat) (s : Core N) (k : Nat) :
    List Event_unit :=
  if targetOpen ops T_now s k then
    (if targetSG ops s k then
      spikeEvents T_now (s.class_label * s.N_out_times + k, 'o') true s.S_vec_now
        ++ spikeEvents T_now (s.class_label * s.N_out_times + k, 'o') true s.S_vec_trace_now
    else [])
    ++ feedbackEvents T_now s.W_fb true (s.class_label * s.N_out_times + k) s.Event_vec_now
  else []

/-- Events that the target-class section pushes at tick `T_now` and phase value `sig`
(lines 432-482): those of the replica whose index is the training slot, when the loop over
`k < N_out_times` reaches it. -/
def reinforcementEvents {N : Type} (ops : NeuronOps N) (T_now sig : Nat) (s : Core N) :
    List Event_unit :=
  if s.enabling_train = true ∧ sig = 0 ∧ s.train_index < s.N_out_times then
    targetEvents ops T_now s s.train_index
  else []

/-- State in which the target-class section of the tick `T_now` starts, given the state `s`
at the top of the iteration. -/
def atTargetSection {N : Type} (ops : NeuronOps N) (T_now : Nat) (s : Core N) : Core N :=
  outputSection ops T_now (train_signal T_now s.N_training_slide s.N_training_times)
    (atOutputSection ops T_now s)

/-- State of `creditCore` with two training phases and the slot offset 1, so that the phase
value of tick 0 is 1 and the gate is closed. -/
def gatedCore : Core Bool :=
  { creditCore with N_training_times := 2, N_training_slide := 1 }

/-- Tick values `T_now` whose tick body is run by the iterations that `whileLoop` makes with
the same arguments, in the order of the iterations. -/
def processedTicks {N : Type} (ops : NeuronOps N) (T_sim : Nat) :
    Nat → Nat → Core N → List Nat
  | 0, _, _ => []
  | fuel + 1, T_now, s =>
    if T_now ≤ T_sim then
      match loopBody ops T_sim s with
      | .next T s1 => T :: processedTicks ops T_sim fuel T s1
      | .exit _ => []
      | .raised _ => []
    else []

/-! ## Construction -/

/-- Fields of `Config` read by the constructors of `Core`, apart from the neuron parameters. -/
structure Config where
  W_in : List (List ℚ)
  W_res : List (List ℚ)
  W_out : List (List ℚ)
  W_fb : List (List Bool)
  W_bias : List (List ℚ)
  t_delay : Nat
  N_res : Nat
  N_out : Nat

/-- Embedding of `Core::Core(const Config&)` (lines 102-129): `neuron` is the neuron that the
two loops emplace, and `other` supplies the members that the constructor does not set, whose
initial values are declared outside `Core.cpp`. -/
def construct {N : Type} (neuron : N) (config : Config) (other : Core N) : Core N :=
  { other with W_in := config.W_in, W_res := config.W_res, W_out := config.W_out,
               W_fb := config.W_fb, W_bias := config.W_bias, t_delay := config.t_delay,
               Neu_res := List.replicate config.N_res neuron,
               Neu_out := List.replicate config.N_out neuron,
               Neu_acc := List.replicate 10 0,
               N_out_times := config.N_out / 10 }

/-- Configuration with `N_out` output neurons, one reservoir neuron and zero weights. -/
def outConfig (N_out : Nat) : Config where
  W_in := [[0]]
  W_res := [[0]]
  W_out := [List.replicate N_out 0]
  W_fb := []
  W_bias := []
  t_delay := 1
  N_res := 1
  N_out := N_out

/-- Every delayed credit event, waiting or drained, targets a reservoir neuron. -/
def DelayedToReservoir {N : Type} (s : Core N) : Prop :=
  (∀ E ∈ s.Event_queue_delay, E.neu_id.2 = 'r') ∧ (∀ E ∈ s.Event_vec_now, E.neu_id.2 = 'r')

/-! ## The plasticity arithmetic in `double` -/

/-- Properties of the rounding of `double` arithmetic that the proofs use: `fl x` is the
`double` that an operation with exact result `x` returns.  Rounding is monotone, returns a
`double` unchanged, commutes with negation, and 1 is a `double`. -/
structure Rounding (fl : ℚ → ℚ) : Prop where
  mono : ∀ x y, x ≤ y → fl x ≤ fl y
  idem : ∀ x, fl (fl x) = fl x
  neg : ∀ x, fl (-x) = -fl x
  one : fl 1 = 1

/-- Update `W += d; if (W > hi) W = hi` of one cell in `double`. -/
def addClampFl (fl : ℚ → ℚ) (d hi : ℚ) (w : ℚ) : ℚ :=
  if fl (w + d) > hi then hi else fl (w + d)

/-- Update `W -= d; if (W < lo) W = lo` of one cell in `double`. -/
def subClampFl (fl : ℚ → ℚ) (d lo : ℚ) (w : ℚ) : ℚ :=
  if fl (w - d) < lo then lo else fl (w - d)

/-- Body of the plasticity loop for one event (lines 500-528) in `double`: the literal `0.1` is
the `double` `hi = fl (1 / 10)` and `lr*0.1` is the `double` `d = fl (lr * fl (1 / 10))`. -/
def applyEventFl {N : Type} (fl : ℚ → ℚ) (s : Core N) (E_now : Event_unit) : Core N :=
  let spk_id_now := E_now.spk_id.1
  let neu_id_now := E_now.neu_id.1
  let d := fl (s.lr * fl (1 / 10))
  let hi := fl (1 / 10)
  if E_now.spk_id.2 = 'r' ∧ E_now.neu_id.2 = 'o' then
    if E_now.sign then
      { s with W_out := modifyEntry (addClampFl fl s.lr 1) spk_id_now neu_id_now s.W_out }
    else
      { s with W_out := modifyEntry (subClampFl fl s.lr (-1)) spk_id_now neu_id_now s.W_out }
  else if E_now.spk_id.2 = 'r' ∧ E_now.neu_id.2 = 'r' then
    if E_now.sign then
      { s with W_res := modifyEntry (addClampFl fl d hi) spk_id_now neu_id_now s.W_res }
    else
      { s with W_res := modifyEntry (subClampFl fl d (-hi)) spk_id_now neu_id_now s.W_res }
  else s

/-- ApplyPlasticity (lines 488-531) in `double`. -/
def applyPlasticityFl {N : Type} (fl : ℚ → ℚ) (sig : Nat) (s : Core N) : Core N :=
  if s.enabling_train ∧ sig = 0 then
    let r := drainAll Event_unit.time s.Event_queue []
    r.2.foldl (applyEventFl fl) { s with Event_queue := r.1 }
  else s

/-- Lines 272-536 with the plasticity arithmetic in `double`. -/
def tickBodyFl {N : Type} (fl : ℚ → ℚ) (ops : NeuronOps N) (T_now : Nat) (s : Core N) :
    Core N :=
  let sig := train_signal T_now s.N_training_slide s.N_training_times
  clearTransient (applyPlasticityFl fl sig (fireAndCredit ops T_now sig (preFire ops T_now s)))

/-- One iteration of the loop body (lines 250-536) with the plasticity arithmetic in
`double`. -/
def loopBodyFl {N : Type} (fl : ℚ → ℚ) (ops : NeuronOps N) (T_sim : Nat) (s : Core N) :
    Step N :=
  let T_now := nextTick T_sim s
  if T_now > T_sim then .exit s
  else
    let s1 := mergeSpikes T_now s
    if s1.N_out_times = 0 ∨ s1.N_training_times = 0 then .raised s1
    else if s1.N_training_times = 0 then .raised s1
    else .next T_now (tickBodyFl fl ops T_now s1)

/-- The loop `while (T_now <= T_sim) { ... }` with the plasticity arithmetic in `double`, run
for at most `fuel` iterations. -/
def whileLoopFl {N : Type} (fl : ℚ → ℚ) (ops : NeuronOps N) (T_sim : Nat) :
    Nat → Nat → Core N → Core N ⊕ Outcome N
  | 0, T_now, s => .inr (.running T_now s)
  | fuel + 1, T_now, s =>
    if T_now ≤ T_sim then
      match loopBodyFl fl ops T_sim s with
      | .next T s1 => whileLoopFl fl ops T_sim fuel T s1
      | .exit s1 => .inl s1
      | .raised s1 => .inr (.config_error s1)
    else .inl s

/-- Embedding of `Core::run_loop(T_sim)` with the plasticity arithmetic in `double` and at
most `fuel` loop iterations; with exact arithmetic (`fl` the identity) it is `run_loop`. -/
def run_loopFl {N : Type} (fl : ℚ → ℚ) (ops : NeuronOps N) (fuel T_sim : Nat) (s : Core N) :
    Outcome N :=
  match whileLoopFl fl ops T_sim fuel 0 s with
  | .inr o => o
  | .inl s1 =>
    if s1.N_training_times = 0 then .modulo_by_zero s1
    else
      let s2 := { s1 with N_training_slide := (s1.N_training_slide + 1) % s1.N_training_times }
      .returned (score s2.Neu_acc s.class_label) s2

/-- Events applied by ApplyPlasticity over the iterations that `whileLoopFl` runs with the same
arguments, in the order of application. -/
def appliedEventsFl {N : Type} (fl : ℚ → ℚ) (ops : NeuronOps N) (T_sim : Nat) :
    Nat → Nat → Core N → List Event_unit
  | 0, _, _ => []
  | fuel + 1, T_now, s =>
    if T_now ≤ T_sim then
      match loopBodyFl fl ops T_sim s with
      | .next T s1 =>
        tickEvents ops T (mergeSpikes T s) ++ appliedEventsFl fl ops T_sim fuel T s1
      | .exit _ => []
      | .raised _ => []
    else []

/-- Cell function of an event of sign `b` on `W_out` in `double`. -/
def outCellFl (fl : ℚ → ℚ) (lr : ℚ) (b : Bool) : ℚ → ℚ :=
  if b then addClampFl fl lr 1 else subClampFl fl lr (-1)

/-- A coarse rounding, to the integer next to `x` in the direction of zero. -/
def truncFl (x : ℚ) : ℚ :=
  if 0 ≤ x then ((⌊x⌋ : ℤ) : ℚ) else -((⌊-x⌋ : ℤ) : ℚ)

/-! # Theorems -/

section QueueLemmas
variable {α : Type} (key : α → Nat)

theorem top_eq_none_iff (q : List α) : top key q = none ↔ q = [] := by
  cases q with
  | nil => simp [top]
  | cons x xs =>
    simp only [top]
    cases h : top key xs with
    | none => simp
    | some y => by_cases hxy : key x ≤ key y <;> simp [hxy]

theorem top_mem {q : List α} {x : α} (h : top key q = some x) : x ∈ q := by
  induction q generalizing x with
  | nil => simp [top] at h
  | cons a as ih =>
    simp only [top] at h
    cases ht : top key as with
    | none => simp [ht] at h; simp [h]
    | some y =>
      rw [ht] at h
      by_cases hay : key a ≤ key y
      · simp [hay] at h; simp [h]
      · simp [hay] at h; subst h; exact List.mem_cons_of_mem _ (ih ht)

theorem top_le {q : List α} {x : α} (h : top key q = some x) : ∀ y ∈ q, key x ≤ key y := by
  induction q generalizing x with
  | nil => simp
  | cons a as ih =>
    intro y hy
    simp only [top] at h
    cases ht : top key as with
    | none =>
      have : as = [] := (top_eq_none_iff key as).1 ht
      subst this
      simp [ht] at h; subst h
      simp at hy; subst hy; exact le_rfl
    | some z =>
      rw [ht] at h
      have hz := ih ht
      by_cases haz : key a ≤ key z
      · simp [haz] at h; subst h
        rcases List.mem_cons.1 hy with rfl | hy
        · exact le_rfl
        · exact le_trans haz (hz y hy)
      · simp [haz] at h; subst h
        rcases List.mem_cons.1 hy with rfl | hy
        · omega
        · exact hz y hy

theorem pop_perm {q : List α} {x : α} (h : top key q = some x) : q.Perm (x :: pop key q) := by
  induction q generalizing x with
  | nil => simp [top] at h
  | cons a as ih =>
    simp only [top] at h
    simp only [pop]
    cases ht : top key as with
    | none =>
      have : as = [] := (top_eq_none_iff key as).1 ht
      subst this
      simp [ht] at h; subst h; simp
    | some z =>
      rw [ht] at h
      by_cases haz : key a ≤ key z
      · simp [haz] at h; subst h; simp [haz]
      · simp [haz] at h; subst h
        simp only [haz, if_false]
        exact ((ih ht).cons a).trans (List.Perm.swap _ _ _)

theorem pop_length {q : List α} {x : α} (h : top key q = some x) :
    (pop key q).length + 1 = q.length := by
  simpa using (pop_perm key h).length_eq.symm

theorem pop_sublist (q : List α) : (pop key q).Sublist q := by
  induction q with
  | nil => simp [pop]
  | cons a as ih =>
    simp only [pop]
    cases ht : top key as with
    | none => simp
    | some z =>
      by_cases haz : key a ≤ key z
      · simp [haz]
      · simp only [haz, if_false]; exact ih.cons₂ a

theorem filter_pop (p : α → Bool) {q : List α} {x : α} (h : top key q = some x)
    (hp : p x = false) : (pop key q).filter p = q.filter p := by
  induction q generalizing x with
  | nil => simp [top] at h
  | cons a as ih =>
    simp only [top] at h
    simp only [pop]
    cases ht : top key as with
    | none =>
      have : as = [] := (top_eq_none_iff key as).1 ht
      subst this
      simp [ht] at h; subst h; simp [hp]
    | some z =>
      rw [ht] at h
      by_cases haz : key a ≤ key z
      · simp [haz] at h; subst h; simp [haz, hp]
      · simp [haz] at h; subst h
        simp only [haz, if_false, List.filter_cons]
        rw [ih ht hp]

theorem drainLoop_spec (T : Nat) : ∀ (fuel : Nat) (q v : List α), q.length ≤ fuel →
    (drainLoop key T fuel q v).1 = q.filter (fun x => decide (T < key x)) ∧
    (drainLoop key T fuel q v).2.Perm (v ++ q.filter (fun x => decide (key x ≤ T))) := by
  intro fuel
  induction fuel with
  | zero =>
    intro q v hq
    have : q = [] := List.length_eq_zero.1 (Nat.le_zero.1 hq)
    subst this
    simp [drainLoop]
  | succ n ih =>
    intro q v hq
    simp only [drainLoop]
    cases ht : top key q with
    | none =>
      have : q = [] := (top_eq_none_iff key q).1 ht
      subst this
      simp
    | some x =>
      by_cases hx : key x ≤ T
      · simp only [hx, if_true]
        have hlen := pop_length key ht
        obtain ⟨h1, h2⟩ := ih (pop key q) (v ++ [x]) (by omega)
        refine ⟨?_, ?_⟩
        · rw [h1]; exact filter_pop key _ ht (by simp [hx])
        · refine h2.trans ?_
          have hp := (pop_perm key ht).filter (fun x => decide (key x ≤ T))
          have : (x :: pop key q).filter (fun x => decide (key x ≤ T))
              = x :: (pop key q).filter (fun x => decide (key x ≤ T)) := by
            simp [List.filter_cons, hx]
          rw [this] at hp
          rw [List.append_assoc]
          exact (List.Perm.append_left v hp.symm)
      · simp only [hx, if_false]
        have hall := top_le key ht
        refine ⟨?_, ?_⟩
        · symm; rw [List.filter_eq_self]; intro y hy; have := hall y hy; simp; omega
        · have : q.filter (fun x => decide (key x ≤ T)) = [] := by
            rw [List.filter_eq_nil_iff]; intro y hy; have := hall y hy; simp; omega
          rw [this]; simp

theorem drain_fst (T : Nat) (q v : List α) :
    (drain key T q v).1 = q.filter (fun x => decide (T < key x)) :=
  (drainLoop_spec key T q.length q v le_rfl).1

theorem drain_snd (T : Nat) (q v : List α) :
    (drain key T q v).2.Perm (v ++ q.filter (fun x => decide (key x ≤ T))) :=
  (drainLoop_spec key T q.length q v le_rfl).2

end QueueLemmas

section FrameLemmas
variable {N : Type}

theorem Frame.frameRefl (s : Core N) : Frame s s :=
  ⟨rfl, rfl, rfl, rfl, rfl, rfl, rfl, rfl, rfl, rfl, rfl, rfl⟩

theorem Frame.frameTrans {s s1 s2 : Core N} (h : Frame s s1) (h1 : Frame s1 s2) : Frame s s2 :=
  ⟨h1.W_in.trans h.W_in, h1.W_fb.trans h.W_fb, h1.W_bias.trans h.W_bias,
   h1.t_delay.trans h.t_delay, h1.N_out_times.trans h.N_out_times,
   h1.N_training_times.trans h.N_training_times, h1.N_training_slide.trans h.N_training_slide,
   h1.enabling_train.trans h.enabling_train, h1.class_label.trans h.class_label,
   h1.lr.trans h.lr, h1.res_size.trans h.res_size, h1.out_size.trans h.out_size⟩

/-- A left fold of steps that are each related to their input by a preorder is so related. -/
theorem foldl_rel {σ ι : Type} (R : σ → σ → Prop) (hrefl : ∀ a, R a a)
    (htrans : ∀ a b c, R a b → R b c → R a c) (f : σ → ι → σ) (hf : ∀ a i, R a (f a i))
    (l : List ι) (a : σ) : R a (l.foldl f a) := by
  induction l generalizing a with
  | nil => exact hrefl a
  | cons i is ih => exact htrans _ _ _ (hf a i) (ih (f a i))

theorem foldl_frame {ι : Type} (f : Core N → ι → Core N) (hf : ∀ a i, Frame a (f a i))
    (l : List ι) (s : Core N) : Frame s (l.foldl f s) :=
  foldl_rel Frame Frame.frameRefl (fun _ _ _ => Frame.frameTrans) f hf l s

theorem injectRow_length (ops : NeuronOps N) (W : List (List ℚ)) (id_now : Nat) (j : Nat)
    (ns : List N) : (injectRow ops W id_now j ns).length = ns.length := by
  induction ns generalizing j with
  | nil => rfl
  | cons n ns ih => simp [injectRow, ih]

theorem mergeSpikes_frame (T_now : Nat) (s : Core N) : Frame s (mergeSpikes T_now s) :=
  ⟨rfl, rfl, rfl, rfl, rfl, rfl, rfl, rfl, rfl, rfl, rfl, rfl⟩

theorem leakAll_frame (ops : NeuronOps N) (T_now : Nat) (s : Core N) :
    Frame s (leakAll ops T_now s) := by
  constructor <;> simp [leakAll]

theorem propagateSpike_frame (ops : NeuronOps N) (s : Core N) (S_now : Spike) :
    Frame s (propagateSpike ops s S_now) := by
  unfold propagateSpike
  split_ifs <;> constructor <;> simp [injectRow_length]

theorem propagate_frame (ops : NeuronOps N) (s : Core N) : Frame s (propagate ops s) :=
  foldl_frame _ (propagateSpike_frame ops) _ _

theorem drainDelayed_frame (T_now : Nat) (s : Core N) : Frame s (drainDelayed T_now s) :=
  ⟨rfl, rfl, rfl, rfl, rfl, rfl, rfl, rfl, rfl, rfl, rfl, rfl⟩

theorem reservoirStep_frame (ops : NeuronOps N) (T_now : Nat) (s : Core N) (i : Nat) :
    Frame s (reservoirStep ops T_now s i) := by
  unfold reservoirStep
  split
  · exact Frame.frameRefl s
  · split_ifs <;> constructor <;> simp

theorem reservoirSection_frame (ops : NeuronOps N) (T_now : Nat) (s : Core N) :
    Frame s (reservoirSection ops T_now s) :=
  foldl_frame _ (reservoirStep_frame ops T_now) _ _

theorem outputStep_frame (ops : NeuronOps N) (T_now sig : Nat) (s : Core N) (i : Nat) :
    Frame s (outputStep ops T_now sig s i) := by
  unfold outputStep
  split
  · exact Frame.frameRefl s
  · split_ifs <;> constructor <;> simp

theorem outputSection_frame (ops : NeuronOps N) (T_now sig : Nat) (s : Core N) :
    Frame s (outputSection ops T_now sig s) :=
  foldl_frame _ (outputStep_frame ops T_now sig) _ _

theorem targetStep_frame (ops : NeuronOps N) (T_now : Nat) (s : Core N) (k : Nat) :
    Frame s (targetStep ops T_now s k) := by
  unfold targetStep
  dsimp only
  split
  · exact Frame.frameRefl s
  · split_ifs <;> constructor <;> simp

theorem targetSection_frame (ops : NeuronOps N) (T_now sig : Nat) (s : Core N) :
    Frame s (targetSection ops T_now sig s) := by
  unfold targetSection
  split_ifs
  · exact foldl_frame _ (targetStep_frame ops T_now) _ _
  · exact Frame.frameRefl s

theorem applyEvent_frame (s : Core N) (E_now : Event_unit) : Frame s (applyEvent s E_now) := by
  unfold applyEvent
  split_ifs <;> constructor <;> simp

theorem applyPlasticity_frame (sig : Nat) (s : Core N) : Frame s (applyPlasticity sig s) := by
  unfold applyPlasticity
  split_ifs
  · have h : Frame s { s with Event_queue := (drainAll Event_unit.time s.Event_queue []).1 } :=
      ⟨rfl, rfl, rfl, rfl, rfl, rfl, rfl, rfl, rfl, rfl, rfl, rfl⟩
    exact h.frameTrans (foldl_frame _ applyEvent_frame _ _)
  · exact Frame.frameRefl s

theorem clearTransient_frame (s : Core N) : Frame s (clearTransient s) :=
  ⟨rfl, rfl, rfl, rfl, rfl, rfl, rfl, rfl, rfl, rfl, rfl, rfl⟩

theorem preFire_frame (ops : NeuronOps N) (T_now : Nat) (s : Core N) :
    Frame s (preFire ops T_now s) := by
  unfold preFire
  refine Frame.frameTrans ?_ (drainDelayed_frame _ _)
  refine Frame.frameTrans ?_ (propagate_frame _ _)
  refine Frame.frameTrans ?_ (leakAll_frame _ _ _)
  exact ⟨rfl, rfl, rfl, rfl, rfl, rfl, rfl, rfl, rfl, rfl, rfl, rfl⟩

theorem fireAndCredit_frame (ops : NeuronOps N) (T_now sig : Nat) (s : Core N) :
    Frame s (fireAndCredit ops T_now sig s) :=
  ((reservoirSection_frame ops T_now s).frameTrans (outputSection_frame ops T_now sig _)).frameTrans
    (targetSection_frame ops T_now sig _)

theorem tickBody_frame (ops : NeuronOps N) (T_now : Nat) (s : Core N) :
    Frame s (tickBody ops T_now s) := by
  unfold tickBody
  exact (((preFire_frame ops T_now s).frameTrans (fireAndCredit_frame ops T_now _ _)).frameTrans
    (applyPlasticity_frame _ _)).frameTrans (clearTransient_frame _)

end FrameLemmas

section LoopLemmas
variable {N : Type}

theorem loopBody_next {ops : NeuronOps N} {T_sim T : Nat} {s s1 : Core N}
    (h : loopBody ops T_sim s = .next T s1) :
    T = nextTick T_sim s ∧ T ≤ T_sim ∧ s.N_out_times ≠ 0 ∧ s.N_training_times ≠ 0 ∧
      s1 = tickBody ops T (mergeSpikes T s) := by
  unfold loopBody at h
  dsimp only at h
  split_ifs at h with h1 h2 h3
  injection h with hT hs
  have hc : (mergeSpikes (nextTick T_sim s) s).N_out_times = s.N_out_times := rfl
  have hd : (mergeSpikes (nextTick T_sim s) s).N_training_times = s.N_training_times := rfl
  rw [hc, hd] at h2
  subst hT
  exact ⟨rfl, by omega, fun h0 => h2 (Or.inl h0), fun h0 => h2 (Or.inr h0), hs.symm⟩

theorem loopBody_exit {ops : NeuronOps N} {T_sim : Nat} {s s1 : Core N}
    (h : loopBody ops T_sim s = .exit s1) : s1 = s ∧ T_sim < nextTick T_sim s := by
  unfold loopBody at h
  dsimp only at h
  split_ifs at h with h1 h2 h3
  injection h with hs
  exact ⟨hs.symm, h1⟩

theorem loopBody_raised {ops : NeuronOps N} {T_sim : Nat} {s s1 : Core N}
    (h : loopBody ops T_sim s = .raised s1) :
    s1 = mergeSpikes (nextTick T_sim s) s ∧ nextTick T_sim s ≤ T_sim ∧
      (s.N_out_times = 0 ∨ s.N_training_times = 0) := by
  unfold loopBody at h
  dsimp only at h
  have hc : (mergeSpikes (nextTick T_sim s) s).N_out_times = s.N_out_times := rfl
  have hd : (mergeSpikes (nextTick T_sim s) s).N_training_times = s.N_training_times := rfl
  split_ifs at h with h1 h2 h3
  · injection h with hs
    rw [hc, hd] at h2
    exact ⟨hs.symm, by omega, h2⟩
  · injection h with hs
    rw [hd] at h3
    exact ⟨hs.symm, by omega, Or.inr h3⟩

/-- Every state that the loop hands on, at exit or in an outcome, keeps the frame. -/
theorem whileLoop_frame (ops : NeuronOps N) (T_sim : Nat) :
    ∀ (fuel T_now : Nat) (s : Core N),
      match whileLoop ops T_sim fuel T_now s with
      | .inl s1 => Frame s s1
      | .inr o => Frame s o.state := by
  intro fuel
  induction fuel with
  | zero => intro T_now s; exact Frame.frameRefl s
  | succ n ih =>
    intro T_now s
    simp only [whileLoop]
    split_ifs with hT
    · cases hb : loopBody ops T_sim s with
      | next T s1 =>
        obtain ⟨-, -, -, -, hs1⟩ := loopBody_next hb
        have hf : Frame s s1 := by
          rw [hs1]; exact (mergeSpikes_frame T s).frameTrans (tickBody_frame ops T _)
        have := ih T s1
        dsimp only
        cases hw : whileLoop ops T_sim n T s1 with
        | inl s2 => rw [hw] at this; exact hf.frameTrans this
        | inr o => rw [hw] at this; exact hf.frameTrans this
      | exit s1 =>
        obtain ⟨hs1, -⟩ := loopBody_exit hb
        subst hs1; exact Frame.frameRefl _
      | raised s1 =>
        obtain ⟨hs1, -, -⟩ := loopBody_raised hb
        subst hs1; exact mergeSpikes_frame _ _
    · exact Frame.frameRefl s

end LoopLemmas

section Invariants
variable {N : Type}

theorem foldl_pres {σ ι : Type} (P : σ → Prop) (f : σ → ι → σ) (hf : ∀ a i, P a → P (f a i))
    (l : List ι) (a : σ) (ha : P a) : P (l.foldl f a) := by
  induction l generalizing a with
  | nil => exact ha
  | cons i is ih => exact ih (f a i) (hf a i ha)

/-- A property kept by MergeSpikes and by the rest of an iteration holds of every state the
loop hands on. -/
theorem whileLoop_inv (ops : NeuronOps N) (T_sim : Nat) (P : Core N → Prop)
    (hmerge : ∀ T s, P s → P (mergeSpikes T s))
    (htick : ∀ T s, P s → P (tickBody ops T s)) :
    ∀ (fuel T_now : Nat) (s : Core N), P s →
      match whileLoop ops T_sim fuel T_now s with
      | .inl s1 => P s1
      | .inr o => P o.state := by
  intro fuel
  induction fuel with
  | zero => intro T_now s hs; exact hs
  | succ n ih =>
    intro T_now s hs
    simp only [whileLoop]
    split_ifs with hT
    · cases hb : loopBody ops T_sim s with
      | next T s1 =>
        obtain ⟨-, -, -, -, hs1⟩ := loopBody_next hb
        subst hs1
        exact ih T _ (htick T _ (hmerge T s hs))
      | exit s1 =>
        obtain ⟨hs1, -⟩ := loopBody_exit hb
        subst hs1; exact hs
      | raised s1 =>
        obtain ⟨hs1, -, -⟩ := loopBody_raised hb
        subst hs1; exact hmerge _ _ hs
    · exact hs

/-- The same for `run_loop`, for a property that does not read `N_training_slide`. -/
theorem run_loop_inv (ops : NeuronOps N) (T_sim : Nat) (P : Core N → Prop)
    (hmerge : ∀ T s, P s → P (mergeSpikes T s))
    (htick : ∀ T s, P s → P (tickBody ops T s))
    (hslide : ∀ s k, P s → P { s with N_training_slide := k })
    (fuel : Nat) (s : Core N) (hs : P s) : P (run_loop ops fuel T_sim s).state := by
  have h := whileLoop_inv ops T_sim P hmerge htick fuel 0 s hs
  unfold run_loop
  cases hw : whileLoop ops T_sim fuel 0 s with
  | inl s1 =>
    rw [hw] at h
    dsimp only
    split_ifs
    · exact h
    · exact hslide _ _ h
  | inr o => rw [hw] at h; exact h

end Invariants

section Clamping
variable {N : Type}

theorem modifyAt_forall {β : Type} (P : β → Prop) (f : β → β) (hf : ∀ x, P x → P (f x)) :
    ∀ (n : Nat) (l : List β), (∀ x ∈ l, P x) → ∀ x ∈ modifyAt f n l, P x := by
  intro n l
  induction l generalizing n with
  | nil => intro _ x hx; simp [modifyAt] at hx
  | cons a as ih =>
    intro h x hx
    cases n with
    | zero =>
      simp only [modifyAt, List.mem_cons] at hx
      rcases hx with rfl | hx
      · exact hf a (h a (List.mem_cons_self _ _))
      · exact h x (List.mem_cons_of_mem _ hx)
    | succ m =>
      simp only [modifyAt, List.mem_cons] at hx
      rcases hx with rfl | hx
      · exact h _ (List.mem_cons_self _ _)
      · exact ih m (fun y hy => h y (List.mem_cons_of_mem _ hy)) x hx

theorem modifyEntry_entriesIn (lo hi : ℚ) (f : ℚ → ℚ)
    (hf : ∀ w, lo ≤ w ∧ w ≤ hi → lo ≤ f w ∧ f w ≤ hi) (i j : Nat) (W : List (List ℚ))
    (hW : EntriesIn lo hi W) : EntriesIn lo hi (modifyEntry f i j W) := by
  unfold modifyEntry
  exact modifyAt_forall (fun row => ∀ w ∈ row, lo ≤ w ∧ w ≤ hi) _
    (fun row hrow => modifyAt_forall (fun w => lo ≤ w ∧ w ≤ hi) f hf j row hrow) i W hW

theorem addClamp_mem (d lo hi : ℚ) (hd : 0 ≤ d) (w : ℚ) (hw : lo ≤ w ∧ w ≤ hi) :
    lo ≤ addClamp d hi w ∧ addClamp d hi w ≤ hi := by
  unfold addClamp
  split_ifs with h
  · exact ⟨le_trans hw.1 hw.2, le_rfl⟩
  · exact ⟨by linarith, not_lt.1 h⟩

theorem subClamp_mem (d lo hi : ℚ) (hd : 0 ≤ d) (w : ℚ) (hw : lo ≤ w ∧ w ≤ hi) :
    lo ≤ subClamp d lo w ∧ subClamp d lo w ≤ hi := by
  unfold subClamp
  split_ifs with h
  · exact ⟨le_rfl, le_trans hw.1 hw.2⟩
  · exact ⟨not_lt.1 h, by linarith⟩

/-- Weight matrices within their clamping bounds together with a learning rate that is not
negative. -/
theorem applyEvent_clamped (s : Core N) (E_now : Event_unit)
    (h : 0 ≤ s.lr ∧ WeightsClamped s) :
    0 ≤ (applyEvent s E_now).lr ∧ WeightsClamped (applyEvent s E_now) := by
  obtain ⟨hlr, hout, hres⟩ := h
  have hlr10 : 0 ≤ s.lr * (1 / 10) := by positivity
  unfold applyEvent
  dsimp only
  split_ifs
  · exact ⟨hlr, modifyEntry_entriesIn _ _ _ (addClamp_mem _ _ _ hlr) _ _ _ hout, hres⟩
  · exact ⟨hlr, modifyEntry_entriesIn _ _ _ (subClamp_mem _ _ _ hlr) _ _ _ hout, hres⟩
  · exact ⟨hlr, hout, modifyEntry_entriesIn _ _ _ (addClamp_mem _ _ _ hlr10) _ _ _ hres⟩
  · exact ⟨hlr, hout, modifyEntry_entriesIn _ _ _ (subClamp_mem _ _ _ hlr10) _ _ _ hres⟩
  · exact ⟨hlr, hout, hres⟩

end Clamping

section WeightFrame
variable {N : Type}

theorem SameWeights.weightsRefl (s : Core N) : SameWeights s s := ⟨rfl, rfl⟩

theorem SameWeights.weightsTrans {s s1 s2 : Core N} (h : SameWeights s s1) (h1 : SameWeights s1 s2) :
    SameWeights s s2 :=
  ⟨h1.W_res.trans h.W_res, h1.W_out.trans h.W_out⟩

theorem foldl_sameWeights {ι : Type} (f : Core N → ι → Core N)
    (hf : ∀ a i, SameWeights a (f a i)) (l : List ι) (s : Core N) :
    SameWeights s (l.foldl f s) :=
  foldl_rel SameWeights SameWeights.weightsRefl (fun _ _ _ => SameWeights.weightsTrans) f hf l s

theorem mergeSpikes_sameWeights (T_now : Nat) (s : Core N) :
    SameWeights s (mergeSpikes T_now s) := ⟨rfl, rfl⟩

theorem propagateSpike_sameWeights (ops : NeuronOps N) (s : Core N) (S_now : Spike) :
    SameWeights s (propagateSpike ops s S_now) := by
  unfold propagateSpike
  split_ifs <;> exact ⟨rfl, rfl⟩

theorem preFire_sameWeights (ops : NeuronOps N) (T_now : Nat) (s : Core N) :
    SameWeights s (preFire ops T_now s) := by
  unfold preFire
  have h1 : SameWeights s (leakAll ops T_now { s with train_index := T_now % s.N_out_times }) :=
    ⟨rfl, rfl⟩
  have h2 := foldl_sameWeights _ (propagateSpike_sameWeights ops)
    (leakAll ops T_now { s with train_index := T_now % s.N_out_times }).S_vec_now
    (leakAll ops T_now { s with train_index := T_now % s.N_out_times })
  exact (h1.weightsTrans h2).weightsTrans ⟨rfl, rfl⟩

theorem reservoirStep_sameWeights (ops : NeuronOps N) (T_now : Nat) (s : Core N) (i : Nat) :
    SameWeights s (reservoirStep ops T_now s i) := by
  unfold reservoirStep
  split
  · exact SameWeights.weightsRefl s
  · split_ifs <;> exact ⟨rfl, rfl⟩

theorem outputStep_sameWeights (ops : NeuronOps N) (T_now sig : Nat) (s : Core N) (i : Nat) :
    SameWeights s (outputStep ops T_now sig s i) := by
  unfold outputStep
  split
  · exact SameWeights.weightsRefl s
  · split_ifs <;> exact ⟨rfl, rfl⟩

theorem targetStep_sameWeights (ops : NeuronOps N) (T_now : Nat) (s : Core N) (k : Nat) :
    SameWeights s (targetStep ops T_now s k) := by
  unfold targetStep
  dsimp only
  split
  · exact SameWeights.weightsRefl s
  · split_ifs <;> exact ⟨rfl, rfl⟩

theorem fireAndCredit_sameWeights (ops : NeuronOps N) (T_now sig : Nat) (s : Core N) :
    SameWeights s (fireAndCredit ops T_now sig s) := by
  unfold fireAndCredit
  have h1 : SameWeights s (reservoirSection ops T_now s) :=
    foldl_sameWeights _ (reservoirStep_sameWeights ops T_now) _ _
  have h2 : SameWeights (reservoirSection ops T_now s)
      (outputSection ops T_now sig (reservoirSection ops T_now s)) :=
    foldl_sameWeights _ (outputStep_sameWeights ops T_now sig) _ _
  refine (h1.weightsTrans h2).weightsTrans ?_
  unfold targetSection
  split_ifs
  · exact foldl_sameWeights _ (targetStep_sameWeights ops T_now) _ _
  · exact SameWeights.weightsRefl _

theorem applyPlasticity_clamped (sig : Nat) (s : Core N) (h : 0 ≤ s.lr ∧ WeightsClamped s) :
    0 ≤ (applyPlasticity sig s).lr ∧ WeightsClamped (applyPlasticity sig s) := by
  unfold applyPlasticity
  split_ifs
  · exact foldl_pres (fun a : Core N => 0 ≤ a.lr ∧ WeightsClamped a) applyEvent
      applyEvent_clamped _ _ h
  · exact h

theorem tickBody_clamped (ops : NeuronOps N) (T_now : Nat) (s : Core N)
    (h : 0 ≤ s.lr ∧ WeightsClamped s) :
    0 ≤ (tickBody ops T_now s).lr ∧ WeightsClamped (tickBody ops T_now s) := by
  unfold tickBody
  dsimp only
  have hw := (preFire_sameWeights ops T_now s).weightsTrans
    (fireAndCredit_sameWeights ops T_now
      (train_signal T_now s.N_training_slide s.N_training_times) (preFire ops T_now s))
  have hf := (preFire_frame ops T_now s).frameTrans
    (fireAndCredit_frame ops T_now
      (train_signal T_now s.N_training_slide s.N_training_times) (preFire ops T_now s))
  have h4 : 0 ≤ (fireAndCredit ops T_now
      (train_signal T_now s.N_training_slide s.N_training_times) (preFire ops T_now s)).lr ∧
      WeightsClamped (fireAndCredit ops T_now
      (train_signal T_now s.N_training_slide s.N_training_times) (preFire ops T_now s)) := by
    refine ⟨by rw [hf.lr]; exact h.1, ?_⟩
    unfold WeightsClamped
    rw [hw.W_out, hw.W_res]
    exact h.2
  exact applyPlasticity_clamped _ _ h4

end WeightFrame

/-- C1 (amended): if the learning rate is not negative and every entry of `W_out` lies in
`[-1, 1]` and every entry of `W_res` in `[-0.1, 0.1]` when `run_loop` starts, then the same
holds of the state after any number of loop iterations, whether the run returns, raises the
configuration error or is still running. -/
theorem weights_stay_clamped {N : Type} (ops : NeuronOps N) (fuel T_sim : Nat) (s : Core N)
    (hlr : 0 ≤ s.lr) (hW : WeightsClamped s) :
    WeightsClamped (run_loop ops fuel T_sim s).state :=
  (run_loop_inv ops T_sim (fun a : Core N => 0 ≤ a.lr ∧ WeightsClamped a)
    (fun _ _ h => h) (fun T a h => tickBody_clamped ops T a h) (fun _ _ h => h)
    fuel s ⟨hlr, hW⟩).2

theorem idleCore_clamped : WeightsClamped idleCore := by
  unfold WeightsClamped EntriesIn
  simp [idleCore]

/-- C1 (amended), at a concrete run: training with learning rate 3 drives `W_out[0][0]` from 0
to the bound 1, and the matrices stay within their bounds. -/
theorem weights_stay_clamped_witness :
    (0 ≤ bigLrCore.lr ∧ WeightsClamped bigLrCore) ∧
      (run_loop flagOps 2 0 bigLrCore).state.W_out
        = [[addClamp 3 1 0, 0, 0, 0, 0, 0, 0, 0, 0, 0]] ∧
      WeightsClamped (run_loop flagOps 2 0 bigLrCore).state :=
  ⟨⟨by norm_num [bigLrCore], idleCore_clamped⟩, rfl,
    weights_stay_clamped flagOps 2 0 bigLrCore (by norm_num [bigLrCore]) idleCore_clamped⟩

/-- C1 as stated fails: an entry 5 of the initial `W_out` is still there after a run, and with
learning rate -5 a run that starts within the bounds ends with `W_out[0][0] = -5`. -/
theorem weights_clamped_counterexample :
    ¬ WeightsClamped (run_loop flagOps 1 0 wideCore).state ∧
    (WeightsClamped negLrCore ∧ ¬ WeightsClamped (run_loop flagOps 2 0 negLrCore).state) := by
  refine ⟨?_, ?_, ?_⟩
  · intro h
    have h1 : (run_loop flagOps 1 0 wideCore).state.W_out = [[5, 0, 0, 0, 0, 0, 0, 0, 0, 0]] := rfl
    have := h.1 [5, 0, 0, 0, 0, 0, 0, 0, 0, 0] (by rw [h1]; simp) 5 (by simp)
    norm_num at this
  · exact idleCore_clamped
  · intro h
    have h1 : (run_loop flagOps 2 0 negLrCore).state.W_out
        = [[addClamp (-5) 1 0, 0, 0, 0, 0, 0, 0, 0, 0, 0]] := rfl
    have := h.1 [addClamp (-5) 1 0, 0, 0, 0, 0, 0, 0, 0, 0, 0] (by rw [h1]; simp)
      (addClamp (-5) 1 0) (by simp)
    norm_num [addClamp] at this

section Accumulator
variable {N : Type}

theorem modifyAt_length {β : Type} (f : β → β) : ∀ (n : Nat) (l : List β),
    (modifyAt f n l).length = l.length := by
  intro n l
  induction l generalizing n with
  | nil => cases n <;> simp [modifyAt]
  | cons a as ih => cases n <;> simp [modifyAt, ih]

theorem modifyAt_sum_succ : ∀ (n : Nat) (l : List Nat), n < l.length →
    (modifyAt (· + 1) n l).sum = l.sum + 1 := by
  intro n l
  induction l generalizing n with
  | nil => intro h; simp at h
  | cons a as ih =>
    intro h
    cases n with
    | zero => simp [modifyAt]; omega
    | succ m =>
      have := ih m (by simpa using h)
      simp [modifyAt, this]; omega

theorem modifyAt_getD_succ : ∀ (n c : Nat) (l : List Nat), n < l.length →
    (modifyAt (· + 1) n l).getD c 0 = l.getD c 0 + (if n = c then 1 else 0) := by
  intro n c l
  induction l generalizing n c with
  | nil => intro h; simp at h
  | cons a as ih =>
    intro h
    cases n with
    | zero => cases c <;> simp [modifyAt]
    | succ m =>
      cases c with
      | zero => simp [modifyAt]
      | succ d =>
        have := ih m d (by simpa using h)
        simpa [modifyAt] using this

/-- Effect on the accumulator of bumping the classes `g i` for `i` in `l`. -/
theorem foldl_bump (g : Nat → Nat) : ∀ (l : List Nat) (acc : List Nat),
    (∀ i ∈ l, g i < acc.length) →
    (l.foldl (fun a i => modifyAt (· + 1) (g i) a) acc).length = acc.length ∧
    (l.foldl (fun a i => modifyAt (· + 1) (g i) a) acc).sum = acc.sum + l.length ∧
    ∀ c, (l.foldl (fun a i => modifyAt (· + 1) (g i) a) acc).getD c 0
      = acc.getD c 0 + (l.filter (fun i => decide (g i = c))).length := by
  intro l
  induction l with
  | nil => intro acc _; simp
  | cons i is ih =>
    intro acc h
    have hi : g i < acc.length := h i (List.mem_cons_self _ _)
    have hlen := modifyAt_length (· + 1) (g i) acc
    obtain ⟨h1, h2, h3⟩ := ih (modifyAt (· + 1) (g i) acc)
      (fun j hj => by rw [hlen]; exact h j (List.mem_cons_of_mem _ hj))
    simp only [List.foldl_cons]
    refine ⟨h1.trans hlen, ?_, ?_⟩
    · rw [h2, modifyAt_sum_succ _ _ hi]; simp; omega
    · intro c
      rw [h3 c, modifyAt_getD_succ _ _ _ hi, List.filter_cons]
      by_cases hc : g i = c <;> simp [hc]; omega

end Accumulator

section Accumulator2
variable {N : Type}

theorem outputStep_acc (ops : NeuronOps N) (T_now sig : Nat) (s : Core N) (i : Nat) :
    (outputStep ops T_now sig s i).Neu_acc =
      if outputFires ops s i then modifyAt (· + 1) (i / s.N_out_times) s.Neu_acc
      else s.Neu_acc := by
  unfold outputStep outputFires
  cases h : s.Neu_out[i]? with
  | none => simp
  | some nu =>
    dsimp only
    by_cases hf : ops.is_firing nu = true
    · simp only [hf, if_true]
      split_ifs <;> rfl
    · simp [hf]

theorem outputStep_out_ne (ops : NeuronOps N) (T_now sig : Nat) (s : Core N) (i j : Nat)
    (hij : i ≠ j) : (outputStep ops T_now sig s i).Neu_out[j]? = s.Neu_out[j]? := by
  unfold outputStep
  cases h : s.Neu_out[i]? with
  | none => rfl
  | some nu =>
    dsimp only
    by_cases hf : ops.is_firing nu = true
    · simp only [hf, if_true]
      split_ifs <;> simp [List.getElem?_set_ne hij]
    · simp [hf]

theorem foldl_outputStep_acc (ops : NeuronOps N) (T_now sig : Nat) (s0 : Core N) :
    ∀ (l : List Nat) (s : Core N), l.Nodup → (∀ i ∈ l, s.Neu_out[i]? = s0.Neu_out[i]?) →
      s.N_out_times = s0.N_out_times →
      (l.foldl (outputStep ops T_now sig) s).Neu_acc =
        (l.filter (outputFires ops s0)).foldl
          (fun a i => modifyAt (· + 1) (i / s0.N_out_times) a) s.Neu_acc := by
  intro l
  induction l with
  | nil => intro s _ _ _; rfl
  | cons i is ih =>
    intro s hnd hout hn
    obtain ⟨hi, hnd1⟩ := List.nodup_cons.1 hnd
    have hfire : outputFires ops s i = outputFires ops s0 i := by
      unfold outputFires; rw [hout i (List.mem_cons_self _ _)]
    have hstep := ih (outputStep ops T_now sig s i) hnd1
      (fun j hj => by
        rw [outputStep_out_ne ops T_now sig s i j (fun h => hi (h ▸ hj))]
        exact hout j (List.mem_cons_of_mem _ hj))
      ((outputStep_frame ops T_now sig s i).N_out_times.trans hn)
    simp only [List.foldl_cons]
    rw [hstep, outputStep_acc, hfire, List.filter_cons]
    by_cases hf : outputFires ops s0 i = true
    · simp [hf, hn]
    · simp [hf]

theorem outputSection_acc (ops : NeuronOps N) (T_now sig : Nat) (s : Core N) :
    (outputSection ops T_now sig s).Neu_acc =
      (firingOutputs ops s).foldl (fun a i => modifyAt (· + 1) (i / s.N_out_times) a)
        s.Neu_acc :=
  foldl_outputStep_acc ops T_now sig s _ s (List.nodup_range _) (fun _ _ => rfl) rfl

end Accumulator2

section Accumulator3
variable {N : Type}

/-- A left fold of steps that each keep a projection keeps it. -/
theorem foldl_keep {σ ι β : Type} (π : σ → β) (f : σ → ι → σ) (hf : ∀ a i, π (f a i) = π a)
    (l : List ι) (a : σ) : π (l.foldl f a) = π a := by
  induction l generalizing a with
  | nil => rfl
  | cons i is ih => exact (ih (f a i)).trans (hf a i)

theorem propagateSpike_acc (ops : NeuronOps N) (s : Core N) (S_now : Spike) :
    (propagateSpike ops s S_now).Neu_acc = s.Neu_acc := by
  unfold propagateSpike
  split_ifs <;> rfl

theorem preFire_acc (ops : NeuronOps N) (T_now : Nat) (s : Core N) :
    (preFire ops T_now s).Neu_acc = s.Neu_acc := by
  unfold preFire
  show (propagate ops _).Neu_acc = _
  unfold propagate
  rw [foldl_keep Core.Neu_acc _ (propagateSpike_acc ops)]
  rfl

theorem reservoirStep_acc (ops : NeuronOps N) (T_now : Nat) (s : Core N) (i : Nat) :
    (reservoirStep ops T_now s i).Neu_acc = s.Neu_acc := by
  unfold reservoirStep
  split
  · rfl
  · split_ifs <;> rfl

theorem reservoirSection_acc (ops : NeuronOps N) (T_now : Nat) (s : Core N) :
    (reservoirSection ops T_now s).Neu_acc = s.Neu_acc :=
  foldl_keep Core.Neu_acc _ (reservoirStep_acc ops T_now) _ _

theorem targetStep_acc (ops : NeuronOps N) (T_now : Nat) (s : Core N) (k : Nat) :
    (targetStep ops T_now s k).Neu_acc = s.Neu_acc := by
  unfold targetStep
  dsimp only
  split
  · rfl
  · split_ifs <;> rfl

theorem targetSection_acc (ops : NeuronOps N) (T_now sig : Nat) (s : Core N) :
    (targetSection ops T_now sig s).Neu_acc = s.Neu_acc := by
  unfold targetSection
  split_ifs
  · exact foldl_keep Core.Neu_acc _ (targetStep_acc ops T_now) _ _
  · rfl

theorem applyEvent_acc (s : Core N) (E_now : Event_unit) :
    (applyEvent s E_now).Neu_acc = s.Neu_acc := by
  unfold applyEvent
  dsimp only
  split_ifs <;> rfl

theorem applyPlasticity_acc (sig : Nat) (s : Core N) :
    (applyPlasticity sig s).Neu_acc = s.Neu_acc := by
  unfold applyPlasticity
  split_ifs
  · exact foldl_keep Core.Neu_acc _ applyEvent_acc _ _
  · rfl

/-- Accumulator after the tick `T_now`: one increment of the class counter for every output
neuron found firing by the output section. -/
theorem tickBody_acc (ops : NeuronOps N) (T_now : Nat) (s : Core N) :
    (tickBody ops T_now (mergeSpikes T_now s)).Neu_acc =
      (firingOutputs ops (atOutputSection ops T_now s)).foldl
        (fun a i => modifyAt (· + 1) (i / s.N_out_times) a) s.Neu_acc := by
  have h1 : ∀ a : Core N, (clearTransient a).Neu_acc = a.Neu_acc := fun _ => rfl
  have h2 : (mergeSpikes T_now s).Neu_acc = s.Neu_acc := rfl
  have hf : (reservoirSection ops T_now (preFire ops T_now (mergeSpikes T_now s))).N_out_times
      = s.N_out_times :=
    (((mergeSpikes_frame T_now s).frameTrans (preFire_frame ops T_now _)).frameTrans
      (reservoirSection_frame ops T_now _)).N_out_times
  simp only [tickBody, fireAndCredit, atOutputSection, h1, applyPlasticity_acc,
    targetSection_acc, outputSection_acc, reservoirSection_acc, preFire_acc, h2, hf]

theorem atOutputSection_frame (ops : NeuronOps N) (T_now : Nat) (s : Core N) :
    Frame s (atOutputSection ops T_now s) :=
  ((mergeSpikes_frame T_now s).frameTrans (preFire_frame ops T_now _)).frameTrans
    (reservoirSection_frame ops T_now _)

theorem whileLoop_acc (ops : NeuronOps N) (T_sim : Nat) :
    ∀ (fuel T_now : Nat) (s : Core N),
      (∀ i < s.Neu_out.length, i / s.N_out_times < s.Neu_acc.length) →
      (loopState (whileLoop ops T_sim fuel T_now s)).Neu_acc.length = s.Neu_acc.length ∧
      (loopState (whileLoop ops T_sim fuel T_now s)).Neu_acc.sum
        = s.Neu_acc.sum + (firingEvents ops T_sim fuel T_now s).length ∧
      ∀ c, (loopState (whileLoop ops T_sim fuel T_now s)).Neu_acc.getD c 0
        = s.Neu_acc.getD c 0 + ((firingEvents ops T_sim fuel T_now s).filter
            (fun p => decide (p.2 / s.N_out_times = c))).length := by
  intro fuel
  induction fuel with
  | zero => intro T_now s _; simp [whileLoop, firingEvents, loopState, Outcome.state]
  | succ n ih =>
    intro T_now s hcls
    simp only [whileLoop, firingEvents]
    split_ifs with hT
    · cases hb : loopBody ops T_sim s with
      | next T s1 =>
        obtain ⟨-, -, -, -, hs1⟩ := loopBody_next hb
        dsimp only
        have hfr : Frame s s1 := by
          rw [hs1]; exact (mergeSpikes_frame T s).frameTrans (tickBody_frame ops T _)
        have hacc : s1.Neu_acc = (firingOutputs ops (atOutputSection ops T s)).foldl
            (fun a i => modifyAt (· + 1) (i / s.N_out_times) a) s.Neu_acc := by
          rw [hs1]; exact tickBody_acc ops T s
        have hmem : ∀ i ∈ firingOutputs ops (atOutputSection ops T s),
            i / s.N_out_times < s.Neu_acc.length := by
          intro i hi
          unfold firingOutputs at hi
          have hi1 := (List.mem_filter.1 hi).1
          rw [List.mem_range, (atOutputSection_frame ops T s).out_size] at hi1
          exact hcls i hi1
        obtain ⟨b1, b2, b3⟩ := foldl_bump (fun i => i / s.N_out_times) _ s.Neu_acc hmem
        rw [← hacc] at b1 b2 b3
        obtain ⟨i1, i2, i3⟩ := ih T s1 (by
          rw [hfr.out_size, hfr.N_out_times, b1]; exact hcls)
        refine ⟨i1.trans b1, ?_, ?_⟩
        · rw [i2, b2]; simp; omega
        · intro c
          rw [i3 c, b3 c, hfr.N_out_times]
          simp [List.filter_map, Function.comp_def]
          omega
      | exit s1 =>
        obtain ⟨hs1, -⟩ := loopBody_exit hb
        subst hs1; simp [loopState]
      | raised s1 =>
        obtain ⟨hs1, -, -⟩ := loopBody_raised hb
        subst hs1
        have hm : (mergeSpikes (nextTick T_sim s) s).Neu_acc = s.Neu_acc := rfl
        simp [loopState, Outcome.state, hm]
    · simp [loopState]

end Accumulator3

theorem run_loop_state_acc {N : Type} (ops : NeuronOps N) (fuel T_sim : Nat) (s : Core N) :
    (run_loop ops fuel T_sim s).state.Neu_acc
      = (loopState (whileLoop ops T_sim fuel 0 s)).Neu_acc := by
  unfold run_loop
  cases hw : whileLoop ops T_sim fuel 0 s with
  | inl s1 =>
    dsimp only
    split_ifs <;> rfl
  | inr o => rfl

/-- C2: a run of `run_loop` that starts with the all-zero accumulator left by `reset`, all
class indices `i / N_out_times` of output neurons below 10, ends (or is cut off) with
an accumulator of 10 counters whose sum is the number of (tick, output neuron) pairs found
firing, and whose counter `c` is the number of those pairs with `i / N_out_times = c`. -/
theorem accumulator_conservation {N : Type} (ops : NeuronOps N) (fuel T_sim : Nat) (s : Core N)
    (hreset : s.Neu_acc = List.replicate 10 0)
    (hcls : ∀ i < s.Neu_out.length, i / s.N_out_times < 10) :
    (run_loop ops fuel T_sim s).state.Neu_acc.length = 10 ∧
    (run_loop ops fuel T_sim s).state.Neu_acc.sum = (firingEvents ops T_sim fuel 0 s).length ∧
    ∀ c < 10, (run_loop ops fuel T_sim s).state.Neu_acc.getD c 0
      = ((firingEvents ops T_sim fuel 0 s).filter
          (fun p => decide (p.2 / s.N_out_times = c))).length := by
  have hlen : s.Neu_acc.length = 10 := by rw [hreset]; simp
  obtain ⟨h1, h2, h3⟩ := whileLoop_acc ops T_sim fuel 0 s (by rw [hlen]; exact hcls)
  rw [run_loop_state_acc]
  refine ⟨h1.trans hlen, ?_, ?_⟩
  · rw [h2, hreset]; simp
  · intro c hc
    have h0 : (List.replicate 10 0 : List Nat).getD c 0 = 0 := by
      interval_cases c <;> rfl
    rw [h3 c, hreset, h0, Nat.zero_add]


/-- C2 at a concrete run: two ticks with output neurons 3 and 7 firing in both give the
counters 2 for classes 3 and 7 and the sum 4. -/
theorem accumulator_conservation_witness :
    (run_loop flagOps 3 1 firingCore).state.Neu_acc = [0, 0, 0, 2, 0, 0, 0, 2, 0, 0] ∧
    firingEvents flagOps 1 3 0 firingCore = [(0, 3), (0, 7), (1, 3), (1, 7)] ∧
    (run_loop flagOps 3 1 firingCore).state.Neu_acc.sum
      = (firingEvents flagOps 1 3 0 firingCore).length :=
  ⟨rfl, rfl,
    (accumulator_conservation flagOps 3 1 firingCore rfl (by decide)).2.1⟩

/-- C3, what the code does: when the first computed tick exceeds `T_sim` (an empty stimulus,
or one whose first spike is later than `T_sim`), `run_loop` never reaches its configuration
check: with `N_training_times = 0` it evaluates `(N_training_slide + 1) % 0`, and with only
`N_out_times = 0` it returns a correctness result. -/
theorem config_check_skipped {N : Type} (ops : NeuronOps N) (fuel T_sim : Nat) (s : Core N)
    (hnext : T_sim < nextTick T_sim s) :
    run_loop ops (fuel + 1) T_sim s =
      if s.N_training_times = 0 then .modulo_by_zero s
      else .returned (score s.Neu_acc s.class_label)
        { s with N_training_slide := (s.N_training_slide + 1) % s.N_training_times } := by
  have hb : loopBody ops T_sim s = .exit s := by
    unfold loopBody
    dsimp only
    rw [if_pos hnext]
  have hw : whileLoop ops T_sim (fuel + 1) 0 s = .inl s := by
    simp only [whileLoop, Nat.zero_le, if_true, hb]
  unfold run_loop
  rw [hw]

/-- C3 at the failing inputs: an empty stimulus with `N_training_times = 0` ends in the modulo
by zero, and `N_out_times = 0` with a first spike at tick 5 and `T_sim = 3` returns `true`. -/
theorem config_check_skipped_witness :
    run_loop flagOps 1 0 zeroTrainCore = .modulo_by_zero zeroTrainCore ∧
    run_loop flagOps 1 3 zeroOutCore
      = .returned true { zeroOutCore with N_training_slide := 0 } :=
  ⟨config_check_skipped flagOps 0 0 zeroTrainCore (by decide),
   config_check_skipped flagOps 0 3 zeroOutCore (by decide)⟩

/-- With both configuration values non-zero the loop never raises the configuration error. -/
theorem whileLoop_no_config_error {N : Type} (ops : NeuronOps N) (T_sim : Nat) :
    ∀ (fuel T_now : Nat) (s s1 : Core N), s.N_out_times ≠ 0 → s.N_training_times ≠ 0 →
      whileLoop ops T_sim fuel T_now s ≠ .inr (.config_error s1) := by
  intro fuel
  induction fuel with
  | zero => intro T_now s s1 _ _ h; simp [whileLoop] at h
  | succ n ih =>
    intro T_now s s1 ho ht h
    simp only [whileLoop] at h
    split_ifs at h with hT
    cases hb : loopBody ops T_sim s with
    | next T s2 =>
      rw [hb] at h
      obtain ⟨-, -, -, -, hs2⟩ := loopBody_next hb
      have hfr : Frame s s2 := by
        rw [hs2]; exact (mergeSpikes_frame T s).frameTrans (tickBody_frame ops T _)
      exact ih T s2 s1 (by rw [hfr.N_out_times]; exact ho)
        (by rw [hfr.N_training_times]; exact ht) h
    | exit s2 => rw [hb] at h; simp at h
    | raised s2 =>
      obtain ⟨-, -, hz⟩ := loopBody_raised hb
      rcases hz with hz | hz
      · exact ho hz
      · exact ht hz

/-- C4 (amended): when `run_loop` raises the configuration error it does so in its first
iteration, after MergeSpikes: the state at the throw is the initial state with the spikes
due at the first tick moved from the two spike queues into `S_vec_now`.  Neurons, weights,
accumulator, `N_training_slide` and the credit and trace queues are those before the call. -/
theorem config_error_state {N : Type} (ops : NeuronOps N) (fuel T_sim : Nat) (s s1 : Core N)
    (h : run_loop ops fuel T_sim s = .config_error s1) :
    (s.N_out_times = 0 ∨ s.N_training_times = 0) ∧ nextTick T_sim s ≤ T_sim ∧
    s1 = mergeSpikes (nextTick T_sim s) s ∧
    (s1.Neu_res = s.Neu_res ∧ s1.Neu_out = s.Neu_out ∧ s1.Neu_acc = s.Neu_acc ∧
      s1.W_in = s.W_in ∧ s1.W_res = s.W_res ∧ s1.W_out = s.W_out ∧
      s1.N_training_slide = s.N_training_slide ∧
      s1.Event_queue_delay = s.Event_queue_delay ∧ s1.Event_queue = s.Event_queue ∧
      s1.S_vec_trace = s.S_vec_trace) ∧
    s1.external_S_queue
      = s.external_S_queue.filter (fun S => decide (nextTick T_sim s < S.time)) ∧
    s1.internal_S_queue
      = s.internal_S_queue.filter (fun S => decide (nextTick T_sim s < S.time)) ∧
    s1.S_vec_now.Perm (s.S_vec_now
      ++ s.external_S_queue.filter (fun S => decide (S.time ≤ nextTick T_sim s))
      ++ s.internal_S_queue.filter (fun S => decide (S.time ≤ nextTick T_sim s))) := by
  have hw : whileLoop ops T_sim fuel 0 s = .inr (.config_error s1) := by
    unfold run_loop at h
    cases hw : whileLoop ops T_sim fuel 0 s with
    | inl s2 =>
      rw [hw] at h
      dsimp only at h
      split_ifs at h
    | inr o => rw [hw] at h; dsimp only at h; rw [h]
  cases fuel with
  | zero => simp [whileLoop] at hw
  | succ n =>
    simp only [whileLoop, Nat.zero_le, if_true] at hw
    cases hb : loopBody ops T_sim s with
    | next T s2 =>
      rw [hb] at hw
      obtain ⟨-, -, ho, ht, hs2⟩ := loopBody_next hb
      have hfr : Frame s s2 := by
        rw [hs2]; exact (mergeSpikes_frame T s).frameTrans (tickBody_frame ops T _)
      exact absurd hw (whileLoop_no_config_error ops T_sim n T s2 s1
        (by rw [hfr.N_out_times]; exact ho) (by rw [hfr.N_training_times]; exact ht))
    | exit s2 => rw [hb] at hw; simp at hw
    | raised s2 =>
      rw [hb] at hw
      obtain ⟨hs2, hle, hz⟩ := loopBody_raised hb
      have hs1 : s1 = s2 := by
        simp only [Sum.inr.injEq, Outcome.config_error.injEq] at hw; exact hw.symm
      subst hs1
      subst hs2
      refine ⟨hz, hle, rfl, ⟨rfl, rfl, rfl, rfl, rfl, rfl, rfl, rfl, rfl, rfl⟩, ?_, ?_, ?_⟩
      · exact drain_fst Spike.time _ _ _
      · exact drain_fst Spike.time _ _ _
      · show (drain Spike.time _ s.internal_S_queue
          (drain Spike.time _ s.external_S_queue s.S_vec_now).2).2.Perm _
        refine (drain_snd Spike.time _ _ _).trans ?_
        exact List.Perm.append_right _ (drain_snd Spike.time _ _ _)

/-- C4 (amended) at a concrete run: `N_out_times = 0` with an input spike due at tick 0. -/
theorem config_error_state_witness :
    run_loop flagOps 1 0 zeroOutDueCore
      = .config_error { zeroOutDueCore with external_S_queue := [],
                                            S_vec_now := [Spike.mk 0 (0, 'i')] } ∧
    ({ zeroOutDueCore with external_S_queue := [], S_vec_now := [Spike.mk 0 (0, 'i')] }
      : Core Bool) = mergeSpikes (nextTick 0 zeroOutDueCore) zeroOutDueCore :=
  ⟨rfl, (config_error_state flagOps 1 0 zeroOutDueCore _ rfl).2.2.1⟩

/-- C4 as stated fails: with `N_out_times = 0` and an input spike due at tick 0 the error is
raised with the external queue emptied and the spike in `S_vec_now`. -/
theorem config_error_not_atomic :
    ∃ s1, run_loop flagOps 1 0 zeroOutDueCore = .config_error s1 ∧
      s1.external_S_queue ≠ zeroOutDueCore.external_S_queue ∧
      s1.S_vec_now ≠ zeroOutDueCore.S_vec_now :=
  ⟨{ zeroOutDueCore with external_S_queue := [], S_vec_now := [Spike.mk 0 (0, 'i')] },
    rfl, by decide, by decide⟩

theorem IsFirstMax.unique {v : List Nat} {i j : Nat} (hi : IsFirstMax v i)
    (hj : IsFirstMax v j) : i = j := by
  rcases Nat.lt_trichotomy i j with h | h | h
  · have h1 := hj.2.2 i h
    have h2 := hi.2.1 j hj.1
    omega
  · exact h
  · have h1 := hi.2.2 j h
    have h2 := hj.2.1 i hi.1
    omega

theorem isFirstMax_snoc_gt {p : List Nat} {best x : Nat} (hp : IsFirstMax p best)
    (hx : p.getD best 0 < x) : IsFirstMax (p ++ [x]) p.length := by
  have hlast : (p ++ [x]).getD p.length 0 = x := by
    rw [List.getD_append_right _ _ _ _ le_rfl]; simp
  refine ⟨by simp, ?_, ?_⟩
  · intro j hj
    rw [hlast]
    by_cases hjp : j < p.length
    · rw [List.getD_append _ _ _ _ hjp]
      exact le_of_lt (lt_of_le_of_lt (hp.2.1 j hjp) hx)
    · have : j = p.length := by simp at hj; omega
      rw [this, hlast]
  · intro j hj
    rw [hlast, List.getD_append _ _ _ _ hj]
    exact lt_of_le_of_lt (hp.2.1 j hj) hx

theorem isFirstMax_snoc_le {p : List Nat} {best x : Nat} (hp : IsFirstMax p best)
    (hx : ¬ p.getD best 0 < x) : IsFirstMax (p ++ [x]) best := by
  have hb : (p ++ [x]).getD best 0 = p.getD best 0 := List.getD_append _ _ _ _ hp.1
  refine ⟨by simp; have := hp.1; omega, ?_, ?_⟩
  · intro j hj
    rw [hb]
    by_cases hjp : j < p.length
    · rw [List.getD_append _ _ _ _ hjp]; exact hp.2.1 j hjp
    · have : j = p.length := by simp at hj; omega
      rw [this, List.getD_append_right _ _ _ _ le_rfl]
      simp only [Nat.sub_self, List.getD_cons_zero]; omega
  · intro j hj
    rw [hb, List.getD_append _ _ _ _ (lt_trans hj hp.1)]
    exact hp.2.2 j hj

theorem maxElementFrom_spec : ∀ (xs p : List Nat) (best : Nat), IsFirstMax p best →
    IsFirstMax (p ++ xs) (maxElementFrom best (p.getD best 0) p.length xs) := by
  intro xs
  induction xs with
  | nil => intro p best hp; simpa [maxElementFrom] using hp
  | cons x xs ih =>
    intro p best hp
    have happ : p ++ x :: xs = (p ++ [x]) ++ xs := by simp
    have hlen : (p ++ [x]).length = p.length + 1 := by simp
    simp only [maxElementFrom]
    split_ifs with hx
    · have h1 := ih (p ++ [x]) p.length (isFirstMax_snoc_gt hp hx)
      have hlast : (p ++ [x]).getD p.length 0 = x := by
        rw [List.getD_append_right _ _ _ _ le_rfl]; simp
      rw [hlast, hlen] at h1
      rw [happ]; exact h1
    · have h1 := ih (p ++ [x]) best (isFirstMax_snoc_le hp hx)
      have hb : (p ++ [x]).getD best 0 = p.getD best 0 := List.getD_append _ _ _ _ hp.1
      rw [hb, hlen] at h1
      rw [happ]; exact h1

/-- On a non-empty vector `std::max_element` returns the first maximum. -/
theorem max_element_spec (v : List Nat) (hv : v ≠ []) : IsFirstMax v (max_element v) := by
  cases v with
  | nil => exact absurd rfl hv
  | cons x xs =>
    have h0 : IsFirstMax [x] 0 := ⟨by simp, by intro j hj; simp at hj; subst hj; exact le_rfl,
      by intro j hj; omega⟩
    exact maxElementFrom_spec xs [x] 0 h0

theorem score_iff (v : List Nat) (c : Nat) (hv : v ≠ []) (hlen : v.length ≤ 256) :
    score v c = true ↔ IsFirstMax v c := by
  have hm := max_element_spec v hv
  have hlt : max_element v % 2 ^ 8 = max_element v := Nat.mod_eq_of_lt (by have := hm.1; omega)
  unfold score
  rw [hlt, decide_eq_true_iff]
  constructor
  · intro h; rw [← h]; exact hm
  · intro h; exact hm.unique h

/-- The loop itself never produces the outcome of a return. -/
theorem whileLoop_ne_returned {N : Type} (ops : NeuronOps N) (T_sim : Nat) :
    ∀ (fuel T_now : Nat) (s s1 : Core N) (r : Bool),
      whileLoop ops T_sim fuel T_now s ≠ .inr (.returned r s1) := by
  intro fuel
  induction fuel with
  | zero => intro T_now s s1 r h; simp [whileLoop] at h
  | succ n ih =>
    intro T_now s s1 r h
    simp only [whileLoop] at h
    split_ifs at h with hT
    cases hb : loopBody ops T_sim s with
    | next T s2 => rw [hb] at h; exact ih T s2 s1 r h
    | exit s2 => rw [hb] at h; simp at h
    | raised s2 => rw [hb] at h; simp at h

/-- C5: when `run_loop` returns with an accumulator of 10 counters, the value returned is
`true` exactly when the target class label is the smallest index at which the accumulator
attains its maximum. -/
theorem readout_first_maximum {N : Type} (ops : NeuronOps N) (fuel T_sim : Nat) (s s1 : Core N)
    (r : Bool) (h : run_loop ops fuel T_sim s = .returned r s1)
    (hlen : s1.Neu_acc.length = 10) :
    r = true ↔ IsFirstMax s1.Neu_acc s.class_label := by
  have hr : r = score s1.Neu_acc s.class_label := by
    unfold run_loop at h
    cases hw : whileLoop ops T_sim fuel 0 s with
    | inl s2 =>
      rw [hw] at h
      dsimp only at h
      split_ifs at h
      simp only [Outcome.returned.injEq] at h
      rw [← h.1, ← h.2]
    | inr o =>
      rw [hw] at h
      dsimp only at h
      subst h
      exact absurd hw (whileLoop_ne_returned ops T_sim fuel 0 s s1 r)
  rw [hr]
  exact score_iff _ _ (by intro h0; rw [h0] at hlen; simp at hlen) (by omega)

/-- C5 at a concrete run: with the accumulator `[0, 1, 4, 0, 3, 0, 4, 0, 0, 2]` the tie
between classes 2 and 6 goes to class 2, so the run returns `true` for target class 2 and
`false` for target class 6. -/
theorem readout_first_maximum_witness :
    run_loop flagOps 1 0 tiedCore = .returned true { tiedCore with N_training_slide := 0 } ∧
    run_loop flagOps 1 0 { tiedCore with class_label := 6 }
      = .returned false { tiedCore with class_label := 6, N_training_slide := 0 } ∧
    IsFirstMax tiedCore.Neu_acc 2 :=
  ⟨rfl, rfl, (readout_first_maximum flagOps 1 0 tiedCore _ true rfl rfl).1 rfl⟩

section TrainingDisabled
variable {N : Type}

theorem Untrained.untrainedRefl (s : Core N) (h : s.enabling_train = false) : Untrained s s :=
  ⟨h, rfl, rfl, rfl, rfl, rfl, rfl, List.Sublist.refl _, List.Sublist.refl _⟩

theorem Untrained.untrainedTrans {s a b : Core N} (h : Untrained s a) (h1 : Untrained a b) :
    Untrained s b :=
  ⟨h1.enabling_train, h1.W_in.trans h.W_in, h1.W_res.trans h.W_res, h1.W_out.trans h.W_out,
   h1.W_fb.trans h.W_fb, h1.W_bias.trans h.W_bias, h1.Event_queue.trans h.Event_queue,
   h1.Event_queue_delay.trans h.Event_queue_delay, h1.S_vec_trace.trans h.S_vec_trace⟩

/-- A fold of steps that show no effect of training shows none. -/
theorem foldl_untrained {ι : Type} (f : Core N → ι → Core N)
    (hf : ∀ a i, a.enabling_train = false → Untrained a (f a i)) (l : List ι) (s : Core N)
    (h : s.enabling_train = false) : Untrained s (l.foldl f s) :=
  foldl_pres (fun a => Untrained s a) f
    (fun a i ha => ha.untrainedTrans (hf a i ha.enabling_train)) l s (Untrained.untrainedRefl s h)

theorem mergeSpikes_untrained (T_now : Nat) (s : Core N) (h : s.enabling_train = false) :
    Untrained s (mergeSpikes T_now s) :=
  ⟨h, rfl, rfl, rfl, rfl, rfl, rfl, List.Sublist.refl _, List.Sublist.refl _⟩

theorem propagateSpike_untrained (ops : NeuronOps N) (s : Core N) (S_now : Spike)
    (h : s.enabling_train = false) : Untrained s (propagateSpike ops s S_now) := by
  unfold propagateSpike
  split_ifs <;> exact ⟨h, rfl, rfl, rfl, rfl, rfl, rfl, List.Sublist.refl _, List.Sublist.refl _⟩

theorem drainDelayed_untrained (T_now : Nat) (s : Core N) (h : s.enabling_train = false) :
    Untrained s (drainDelayed T_now s) := by
  refine ⟨h, rfl, rfl, rfl, rfl, rfl, rfl, ?_, ?_⟩
  · show (drain Event_unit.time T_now s.Event_queue_delay s.Event_vec_now).1.Sublist _
    rw [drain_fst]; exact List.filter_sublist _
  · show (drain Spike.time T_now s.S_vec_trace s.S_vec_trace_now).1.Sublist _
    rw [drain_fst]; exact List.filter_sublist _

theorem preFire_untrained (ops : NeuronOps N) (T_now : Nat) (s : Core N)
    (h : s.enabling_train = false) : Untrained s (preFire ops T_now s) := by
  unfold preFire
  have h1 : Untrained s (leakAll ops T_now { s with train_index := T_now % s.N_out_times }) :=
    ⟨h, rfl, rfl, rfl, rfl, rfl, rfl, List.Sublist.refl _, List.Sublist.refl _⟩
  have h2 := foldl_untrained _ (propagateSpike_untrained ops)
    (leakAll ops T_now { s with train_index := T_now % s.N_out_times }).S_vec_now
    (leakAll ops T_now { s with train_index := T_now % s.N_out_times }) h
  exact (h1.untrainedTrans h2).untrainedTrans (drainDelayed_untrained T_now _ h2.enabling_train)

theorem reservoirStep_untrained (ops : NeuronOps N) (T_now : Nat) (s : Core N) (i : Nat)
    (h : s.enabling_train = false) : Untrained s (reservoirStep ops T_now s i) := by
  unfold reservoirStep
  split
  · exact Untrained.untrainedRefl s h
  · simp only [h, Bool.false_eq_true, if_false]
    split_ifs
    · exact ⟨rfl, rfl, rfl, rfl, rfl, rfl, rfl, List.Sublist.refl _, List.Sublist.refl _⟩
    · exact Untrained.untrainedRefl s h

theorem outputStep_untrained (ops : NeuronOps N) (T_now sig : Nat) (s : Core N) (i : Nat)
    (h : s.enabling_train = false) : Untrained s (outputStep ops T_now sig s i) := by
  unfold outputStep
  split
  · exact Untrained.untrainedRefl s h
  · simp only [h, Bool.false_eq_true, false_and, if_false]
    split_ifs
    · exact ⟨rfl, rfl, rfl, rfl, rfl, rfl, rfl, List.Sublist.refl _, List.Sublist.refl _⟩
    · exact Untrained.untrainedRefl s h

theorem fireAndCredit_untrained (ops : NeuronOps N) (T_now sig : Nat) (s : Core N)
    (h : s.enabling_train = false) : Untrained s (fireAndCredit ops T_now sig s) := by
  unfold fireAndCredit
  have h1 : Untrained s (reservoirSection ops T_now s) :=
    foldl_untrained _ (reservoirStep_untrained ops T_now) _ _ h
  have h2 : Untrained (reservoirSection ops T_now s)
      (outputSection ops T_now sig (reservoirSection ops T_now s)) :=
    foldl_untrained _ (outputStep_untrained ops T_now sig) _ _ h1.enabling_train
  have h3 := h2.enabling_train
  unfold targetSection
  simp only [h3, Bool.false_eq_true, false_and, if_false]
  exact h1.untrainedTrans h2

theorem applyPlasticity_off (sig : Nat) (s : Core N) (h : s.enabling_train = false) :
    applyPlasticity sig s = s := by
  unfold applyPlasticity
  simp [h]

theorem clearTransient_untrained (s : Core N) (h : s.enabling_train = false) :
    Untrained s (clearTransient s) :=
  ⟨h, rfl, rfl, rfl, rfl, rfl, rfl, List.Sublist.refl _, List.Sublist.refl _⟩

theorem tickBody_untrained (ops : NeuronOps N) (T_now : Nat) (s : Core N)
    (h : s.enabling_train = false) : Untrained s (tickBody ops T_now s) := by
  have h1 := preFire_untrained ops T_now s h
  have h2 := fireAndCredit_untrained ops T_now
    (train_signal T_now s.N_training_slide s.N_training_times) _ h1.enabling_train
  have h3 := h1.untrainedTrans h2
  have h4 : tickBody ops T_now s = clearTransient (fireAndCredit ops T_now
      (train_signal T_now s.N_training_slide s.N_training_times) (preFire ops T_now s)) := by
    simp only [tickBody]
    rw [applyPlasticity_off _ _ h3.enabling_train]
  rw [h4]
  exact h3.untrainedTrans (clearTransient_untrained _ h3.enabling_train)

end TrainingDisabled

/-- C6: with `enabling_train` false, the state after any number of iterations of `run_loop`
(returned, raised or still running) has the matrices `W_in`, `W_res`, `W_out`, `W_fb` and
`W_bias` of the initial state, the same immediate credit-event queue, and a delayed
credit-event queue and a trace-spike queue to which no entry has been added. -/
theorem training_disabled_no_effect {N : Type} (ops : NeuronOps N) (fuel T_sim : Nat)
    (s : Core N) (h : s.enabling_train = false) :
    Untrained s (run_loop ops fuel T_sim s).state :=
  run_loop_inv ops T_sim (fun a => Untrained s a)
    (fun T a ha => ha.untrainedTrans (mergeSpikes_untrained T a ha.enabling_train))
    (fun T a ha => ha.untrainedTrans (tickBody_untrained ops T a ha.enabling_train))
    (fun _ _ ha => ⟨ha.enabling_train, ha.W_in, ha.W_res, ha.W_out, ha.W_fb, ha.W_bias,
      ha.Event_queue, ha.Event_queue_delay, ha.S_vec_trace⟩)
    fuel s (Untrained.untrainedRefl s h)

/-- C6 at a concrete run: four ticks with a firing reservoir neuron and a firing output
neuron.  The accumulator counts the firings, the two pending queues only lose their due
entries, and nothing shows an effect of training. -/
theorem training_disabled_no_effect_witness :
    (run_loop flagOps 5 3 untrainedCore).state.Neu_acc = [0, 0, 0, 0, 4, 0, 0, 0, 0, 0] ∧
    (run_loop flagOps 5 3 untrainedCore).state.Event_queue_delay
      = [Event_unit.mk 9 (0, 'r') (0, 'r') true] ∧
    (run_loop flagOps 5 3 untrainedCore).state.S_vec_trace = [Spike.mk 7 (0, 'r')] ∧
    Untrained untrainedCore (run_loop flagOps 5 3 untrainedCore).state :=
  ⟨rfl, rfl, rfl, training_disabled_no_effect flagOps 5 3 untrainedCore rfl⟩

/-- C7: for `N_training_times ≥ 1` and `N_training_slide < N_training_times` the value of
`train_signal` at tick `now` is `(now / 4 + N_training_slide) % N_training_times`; the gate
`train_signal = 0` is open exactly when `N_training_times` divides
`now / 4 + N_training_slide`, and always when `N_training_times = 1`. -/
theorem train_signal_value (now N_training_slide N_training_times : Nat)
    (_h1 : 1 ≤ N_training_times) (_h2 : N_training_slide < N_training_times) :
    train_signal now N_training_slide N_training_times
      = (now / 4 + N_training_slide) % N_training_times ∧
    (train_signal now N_training_slide N_training_times = 0
      ↔ N_training_times ∣ now / 4 + N_training_slide) ∧
    (N_training_times = 1 → train_signal now N_training_slide N_training_times = 0) := by
  have h : train_signal now N_training_slide N_training_times
      = (now / 4 + N_training_slide) % N_training_times := by
    unfold train_signal
    congr 1
    omega
  refine ⟨h, ?_, ?_⟩
  · rw [h]; exact (Nat.dvd_iff_mod_eq_zero ..).symm
  · intro h1; rw [h, h1, Nat.mod_one]

/-- C7 at tick 13 with slot offset 2 of 5: the gate is open. -/
theorem train_signal_value_witness :
    train_signal 13 2 5 = (13 / 4 + 2) % 5 ∧ train_signal 13 2 5 = 0 :=
  ⟨(train_signal_value 13 2 5 (by decide) (by decide)).1,
   (train_signal_value 13 2 5 (by decide) (by decide)).2.1.2 (by decide)⟩

/-- C8: a run of `run_loop` that returns has `N_training_times ≥ 1` and leaves
`N_training_slide` at `(N_training_slide + 1) % N_training_times`, below `N_training_times`,
whatever the number of ticks; inside the loop `N_training_slide` is never written. -/
theorem slide_rotates {N : Type} (ops : NeuronOps N) (fuel T_sim : Nat) (s s1 : Core N)
    (r : Bool) (h : run_loop ops fuel T_sim s = .returned r s1) :
    1 ≤ s.N_training_times ∧
    s1.N_training_slide = (s.N_training_slide + 1) % s.N_training_times ∧
    s1.N_training_slide < s.N_training_times ∧
    ∀ n T, (loopState (whileLoop ops T_sim n T s)).N_training_slide = s.N_training_slide := by
  have hloop : ∀ n T, (loopState (whileLoop ops T_sim n T s)).N_training_slide
      = s.N_training_slide := by
    intro n T
    have := whileLoop_frame ops T_sim n T s
    cases hw : whileLoop ops T_sim n T s with
    | inl s2 => rw [hw] at this; exact this.N_training_slide
    | inr o => rw [hw] at this; exact this.N_training_slide
  unfold run_loop at h
  cases hw : whileLoop ops T_sim fuel 0 s with
  | inl s2 =>
    have hfr := whileLoop_frame ops T_sim fuel 0 s
    rw [hw] at hfr h
    dsimp only at hfr h
    split_ifs at h with hz
    simp only [Outcome.returned.injEq] at h
    have hpos : 0 < s.N_training_times := by
      rw [← hfr.N_training_times]; exact Nat.pos_of_ne_zero hz
    have hs : s1.N_training_slide = (s.N_training_slide + 1) % s.N_training_times := by
      rw [← h.2, ← hfr.N_training_times, ← hfr.N_training_slide]
    exact ⟨hpos, hs, by rw [hs]; exact Nat.mod_lt _ hpos, hloop⟩
  | inr o =>
    rw [hw] at h
    dsimp only at h
    subst h
    exact absurd hw (whileLoop_ne_returned ops T_sim fuel 0 s s1 r)

/-- C8 at a concrete run of two ticks: the slot offset 2 of 3 goes to 0. -/
theorem slide_rotates_witness :
    (∃ r s1, run_loop flagOps 3 1 slideCore = .returned r s1) ∧
    (run_loop flagOps 3 1 slideCore).state.N_training_slide = 0 ∧
    (run_loop flagOps 3 1 slideCore).state.N_training_slide < slideCore.N_training_times :=
  ⟨⟨_, _, rfl⟩, rfl, (slide_rotates flagOps 3 1 slideCore _ _ rfl).2.2.1⟩

section Termination
variable {N : Type}

theorem propagateSpike_queues (ops : NeuronOps N) (s : Core N) (S_now : Spike) :
    spikeQueues (propagateSpike ops s S_now) = spikeQueues s := by
  unfold propagateSpike
  split_ifs <;> rfl

theorem preFire_queues (ops : NeuronOps N) (T_now : Nat) (s : Core N) :
    spikeQueues (preFire ops T_now s) = spikeQueues s := by
  unfold preFire
  show spikeQueues (propagate ops _) = _
  unfold propagate
  rw [foldl_keep spikeQueues _ (propagateSpike_queues ops)]
  rfl

theorem outputStep_queues (ops : NeuronOps N) (T_now sig : Nat) (s : Core N) (i : Nat) :
    spikeQueues (outputStep ops T_now sig s i) = spikeQueues s := by
  unfold outputStep
  split
  · rfl
  · split_ifs <;> rfl

theorem targetStep_queues (ops : NeuronOps N) (T_now : Nat) (s : Core N) (k : Nat) :
    spikeQueues (targetStep ops T_now s k) = spikeQueues s := by
  unfold targetStep
  dsimp only
  split
  · rfl
  · split_ifs <;> rfl

theorem targetSection_queues (ops : NeuronOps N) (T_now sig : Nat) (s : Core N) :
    spikeQueues (targetSection ops T_now sig s) = spikeQueues s := by
  unfold targetSection
  split_ifs
  · exact foldl_keep spikeQueues _ (targetStep_queues ops T_now) _ _
  · rfl

theorem applyEvent_queues (s : Core N) (E_now : Event_unit) :
    spikeQueues (applyEvent s E_now) = spikeQueues s := by
  unfold applyEvent
  dsimp only
  split_ifs <;> rfl

theorem applyPlasticity_queues (sig : Nat) (s : Core N) :
    spikeQueues (applyPlasticity sig s) = spikeQueues s := by
  unfold applyPlasticity
  split_ifs
  · exact foldl_keep spikeQueues _ applyEvent_queues _ _
  · rfl

theorem spikesAfter_of_queues {L d : Nat} {s a : Core N} (h : spikeQueues a = spikeQueues s)
    (hs : SpikesAfter L s ∧ s.t_delay = d) : SpikesAfter L a ∧ a.t_delay = d := by
  unfold spikeQueues at h
  simp only [Prod.mk.injEq] at h
  obtain ⟨h1, h2, h3⟩ := h
  unfold SpikesAfter at *
  rw [h1, h2, h3]
  exact hs

theorem reservoirStep_spikesAfter (ops : NeuronOps N) (T_now L d : Nat) (hL : L ≤ u32 (T_now + d))
    (s : Core N) (i : Nat) (hs : SpikesAfter L s ∧ s.t_delay = d) :
    SpikesAfter L (reservoirStep ops T_now s i) ∧ (reservoirStep ops T_now s i).t_delay = d := by
  obtain ⟨⟨he, hi⟩, hd⟩ := hs
  have hpush : ∀ S ∈ push s.internal_S_queue (Spike.mk (u32 (T_now + s.t_delay)) (i, 'r')),
      L ≤ S.time := by
    intro S hS
    unfold push at hS
    rcases List.mem_append.1 hS with h | h
    · exact hi S h
    · simp only [List.mem_singleton] at h
      rw [h, hd]; exact hL
  unfold reservoirStep
  split
  · exact ⟨⟨he, hi⟩, hd⟩
  · split_ifs <;> first | exact ⟨⟨he, hpush⟩, hd⟩ | exact ⟨⟨he, hi⟩, hd⟩

theorem tickBody_spikesAfter (ops : NeuronOps N) (T_now L : Nat) (s : Core N)
    (hL : L ≤ u32 (T_now + s.t_delay)) (hs : SpikesAfter L s) :
    SpikesAfter L (tickBody ops T_now s) := by
  have h0 : SpikesAfter L s ∧ s.t_delay = s.t_delay := ⟨hs, rfl⟩
  have h1 := spikesAfter_of_queues (preFire_queues ops T_now s) h0
  have h2 : SpikesAfter L (reservoirSection ops T_now (preFire ops T_now s)) ∧
      (reservoirSection ops T_now (preFire ops T_now s)).t_delay = s.t_delay :=
    foldl_pres (fun a : Core N => SpikesAfter L a ∧ a.t_delay = s.t_delay) _
      (reservoirStep_spikesAfter ops T_now L s.t_delay hL) _ _ h1
  have h3 := spikesAfter_of_queues
    (foldl_keep spikeQueues _ (outputStep_queues ops T_now
      (train_signal T_now s.N_training_slide s.N_training_times))
      (List.range (reservoirSection ops T_now (preFire ops T_now s)).Neu_out.length)
      (reservoirSection ops T_now (preFire ops T_now s))) h2
  have h4 := spikesAfter_of_queues (targetSection_queues ops T_now
    (train_signal T_now s.N_training_slide s.N_training_times) _) h3
  have h5 := spikesAfter_of_queues (applyPlasticity_queues
    (train_signal T_now s.N_training_slide s.N_training_times) _) h4
  exact h5.1

theorem mergeSpikes_spikesAfter (T_now : Nat) (s : Core N) :
    SpikesAfter (T_now + 1) (mergeSpikes T_now s) := by
  constructor
  · intro S hS
    have : S ∈ (drain Spike.time T_now s.external_S_queue s.S_vec_now).1 := hS
    rw [drain_fst] at this
    have := (List.mem_filter.1 this).2
    simp at this; omega
  · intro S hS
    have : S ∈ (drain Spike.time T_now s.internal_S_queue
      (drain Spike.time T_now s.external_S_queue s.S_vec_now).2).1 := hS
    rw [drain_fst] at this
    have := (List.mem_filter.1 this).2
    simp at this; omega

theorem headTime_ge (T_sim L : Nat) (q : List Spike) (hq : ∀ S ∈ q, L ≤ S.time)
    (hL : L ≤ u32 (T_sim + 1)) : L ≤ headTime T_sim q := by
  unfold headTime
  cases h : top Spike.time q with
  | none => exact hL
  | some S => exact hq S (top_mem Spike.time h)

theorem nextTick_ge (T_sim L : Nat) (s : Core N) (hs : SpikesAfter L s)
    (hL : L ≤ u32 (T_sim + 1)) : L ≤ nextTick T_sim s := by
  unfold nextTick
  exact le_min (headTime_ge T_sim L _ hs.1 hL) (headTime_ge T_sim L _ hs.2 hL)

end Termination

/-- With a delay of at least one tick and no `uint32_t` overflow, `T_sim + 2 - L` iterations
are enough for the loop to stop when every waiting spike is due at `L` or later. -/
theorem whileLoop_stops {N : Type} (ops : NeuronOps N) (T_sim : Nat) :
    ∀ (fuel L T_now : Nat) (s : Core N), SpikesAfter L s → L ≤ T_sim + 1 → 1 ≤ s.t_delay →
      T_sim + s.t_delay < 2 ^ 32 → T_sim + 2 ≤ fuel + L →
      ∀ T st, whileLoop ops T_sim fuel T_now s ≠ .inr (.running T st) := by
  intro fuel
  induction fuel with
  | zero => intro L T_now s _ hL _ _ hfuel; omega
  | succ n ih =>
    intro L T_now s hs hL hd hov hfuel T st h
    simp only [whileLoop] at h
    split_ifs at h with hT
    cases hb : loopBody ops T_sim s with
    | next T1 s1 =>
      rw [hb] at h
      obtain ⟨hT1, hle, -, -, hs1⟩ := loopBody_next hb
      have hu : u32 (T_sim + 1) = T_sim + 1 := Nat.mod_eq_of_lt (by omega)
      have hge : L ≤ T1 := by
        rw [hT1]; exact nextTick_ge T_sim L s hs (by rw [hu]; exact hL)
      have hfr : Frame s s1 := by
        rw [hs1]; exact (mergeSpikes_frame T1 s).frameTrans (tickBody_frame ops T1 _)
      have hu1 : u32 (T1 + s.t_delay) = T1 + s.t_delay := Nat.mod_eq_of_lt (by omega)
      have hs1a : SpikesAfter (T1 + 1) s1 := by
        rw [hs1]
        refine tickBody_spikesAfter ops T1 (T1 + 1) _ ?_ (mergeSpikes_spikesAfter T1 s)
        show T1 + 1 ≤ u32 (T1 + s.t_delay)
        rw [hu1]; omega
      exact ih (T1 + 1) T1 s1 hs1a (by omega) (by rw [hfr.t_delay]; exact hd)
        (by rw [hfr.t_delay]; exact hov) (by omega) T st h
    | exit s1 => rw [hb] at h; simp at h
    | raised s1 => rw [hb] at h; simp at h

/-- The loop itself never produces the outcome of the modulo of line 539. -/
theorem whileLoop_ne_modulo {N : Type} (ops : NeuronOps N) (T_sim : Nat) :
    ∀ (fuel T_now : Nat) (s s1 : Core N),
      whileLoop ops T_sim fuel T_now s ≠ .inr (.modulo_by_zero s1) := by
  intro fuel
  induction fuel with
  | zero => intro T_now s s1 h; simp [whileLoop] at h
  | succ n ih =>
    intro T_now s s1 h
    simp only [whileLoop] at h
    split_ifs at h with hT
    cases hb : loopBody ops T_sim s with
    | next T s2 => rw [hb] at h; exact ih T s2 s1 h
    | exit s2 => rw [hb] at h; simp at h
    | raised s2 => rw [hb] at h; simp at h

/-- C9 (amended): if `t_delay ≥ 1` and `T_sim + t_delay` fits in a `uint32_t`, the tick loop of
`run_loop` stops within `T_sim + 2` iterations for every stimulus and neuron behaviour, and
with `N_out_times` and `N_training_times` non-zero the run returns a result; an iteration
whose computed next tick exceeds `T_sim` leaves the loop at once. -/
theorem run_loop_terminates {N : Type} (ops : NeuronOps N) (fuel T_sim : Nat) (s : Core N)
    (hd : 1 ≤ s.t_delay) (hov : T_sim + s.t_delay < 2 ^ 32) (hfuel : T_sim + 2 ≤ fuel) :
    (run_loop ops fuel T_sim s).isRunning = false ∧
    (s.N_out_times ≠ 0 → s.N_training_times ≠ 0 →
      ∃ r s1, run_loop ops fuel T_sim s = .returned r s1) ∧
    ∀ a : Core N, T_sim < nextTick T_sim a → loopBody ops T_sim a = .exit a := by
  have hstop := whileLoop_stops ops T_sim fuel 0 0 s
    ⟨fun _ _ => Nat.zero_le _, fun _ _ => Nat.zero_le _⟩ (Nat.zero_le _) hd hov (by omega)
  refine ⟨?_, ?_, ?_⟩
  · unfold run_loop
    cases hw : whileLoop ops T_sim fuel 0 s with
    | inl s1 => dsimp only; split_ifs <;> rfl
    | inr o =>
      cases o with
      | running T st => exact absurd hw (hstop T st)
      | returned r s1 => rfl
      | config_error s1 => rfl
      | modulo_by_zero s1 => rfl
  · intro ho ht
    unfold run_loop
    cases hw : whileLoop ops T_sim fuel 0 s with
    | inl s1 =>
      have hfr := whileLoop_frame ops T_sim fuel 0 s
      rw [hw] at hfr
      dsimp only at hfr ⊢
      rw [if_neg (by rw [hfr.N_training_times]; exact ht)]
      exact ⟨_, _, rfl⟩
    | inr o =>
      cases o with
      | running T st => exact absurd hw (hstop T st)
      | returned r s1 => exact ⟨_, _, rfl⟩
      | config_error s1 => exact absurd hw (whileLoop_no_config_error ops T_sim fuel 0 s s1 ho ht)
      | modulo_by_zero s1 => exact absurd hw (whileLoop_ne_modulo ops T_sim fuel 0 s s1)
  · intro a ha
    unfold loopBody
    dsimp only
    rw [if_pos ha]

/-- C9 (amended) at a concrete run: delay 1, `T_sim = 3`, a reservoir neuron that fires at
every tick; five iterations end the run with a result. -/
theorem run_loop_terminates_witness :
    (run_loop flagOps 5 3 untrainedCore).isRunning = false ∧
    ∃ r s1, run_loop flagOps 5 3 untrainedCore = .returned r s1 :=
  ⟨(run_loop_terminates flagOps 5 3 untrainedCore (by decide) (by decide) (by decide)).1,
   (run_loop_terminates flagOps 5 3 untrainedCore (by decide) (by decide) (by decide)).2.1
     (by decide) (by decide)⟩

theorem zeroDelayLoop_spins : ∀ fuel : Nat,
    whileLoop flagOps 0 fuel 0 zeroDelayLoop = .inr (.running 0 zeroDelayLoop) := by
  intro fuel
  induction fuel with
  | zero => rfl
  | succ n ih =>
    have hb : loopBody flagOps 0 zeroDelayLoop = .next 0 zeroDelayLoop := rfl
    simp only [whileLoop, Nat.le_refl, if_true, hb]
    exact ih

theorem idleCore_spins : ∀ fuel : Nat,
    whileLoop flagOps UINT32_MAX fuel 0 idleCore = .inr (.running 0 idleCore) := by
  intro fuel
  induction fuel with
  | zero => rfl
  | succ n ih =>
    have hb : loopBody flagOps UINT32_MAX idleCore = .next 0 idleCore := rfl
    simp only [whileLoop, Nat.zero_le, if_true, hb]
    exact ih

/-- C9 as stated fails: with `t_delay = 0` a reservoir neuron that keeps firing re-schedules
its own spike at the current tick, and with `T_sim = 2 ^ 32 - 1` the value `T_sim + 1` wraps
to 0, so that no computed tick ever exceeds `T_sim`; in both runs the loop is still running
after any number of iterations. -/
theorem run_loop_never_stops :
    (¬ ∃ fuel, (run_loop flagOps fuel 0 zeroDelayCore).isRunning = false) ∧
    (¬ ∃ fuel, (run_loop flagOps fuel UINT32_MAX idleCore).isRunning = false) := by
  constructor
  · rintro ⟨fuel, h⟩
    cases fuel with
    | zero => exact absurd h (by decide)
    | succ n =>
      have hb : loopBody flagOps 0 zeroDelayCore = .next 0 zeroDelayLoop := rfl
      have hw : whileLoop flagOps 0 (n + 1) 0 zeroDelayCore
          = .inr (.running 0 zeroDelayLoop) := by
        simp only [whileLoop, Nat.le_refl, if_true, hb]
        exact zeroDelayLoop_spins n
      unfold run_loop at h
      rw [hw] at h
      exact absurd h (by decide)
  · rintro ⟨fuel, h⟩
    unfold run_loop at h
    rw [idleCore_spins fuel] at h
    exact absurd h (by decide)

section Drain
variable {N : Type}

/-- Spike propagation leaves the delayed credit-event queue, the trace queue and their two
working lists as they are. -/
theorem propagateSpike_delayed (ops : NeuronOps N) (s : Core N) (S_now : Spike) :
    (fun a : Core N => (a.Event_queue_delay, a.Event_vec_now, a.S_vec_trace, a.S_vec_trace_now))
        (propagateSpike ops s S_now)
      = (s.Event_queue_delay, s.Event_vec_now, s.S_vec_trace, s.S_vec_trace_now) := by
  unfold propagateSpike
  split_ifs <;> rfl

theorem preFire_delayed (ops : NeuronOps N) (T_now : Nat) (s : Core N) :
    (preFire ops T_now s).Event_queue_delay
        = (drain Event_unit.time T_now s.Event_queue_delay s.Event_vec_now).1 ∧
    (preFire ops T_now s).Event_vec_now
        = (drain Event_unit.time T_now s.Event_queue_delay s.Event_vec_now).2 ∧
    (preFire ops T_now s).S_vec_trace
        = (drain Spike.time T_now s.S_vec_trace s.S_vec_trace_now).1 ∧
    (preFire ops T_now s).S_vec_trace_now
        = (drain Spike.time T_now s.S_vec_trace s.S_vec_trace_now).2 := by
  have hk := foldl_keep
    (fun a : Core N => (a.Event_queue_delay, a.Event_vec_now, a.S_vec_trace, a.S_vec_trace_now))
    _ (propagateSpike_delayed ops)
    (leakAll ops T_now { s with train_index := T_now % s.N_out_times }).S_vec_now
    (leakAll ops T_now { s with train_index := T_now % s.N_out_times })
  simp only [Prod.mk.injEq] at hk
  obtain ⟨k1, k2, k3, k4⟩ := hk
  unfold preFire drainDelayed propagate
  dsimp only
  rw [k1, k2, k3, k4]
  exact ⟨rfl, rfl, rfl, rfl⟩

theorem tickBody_cleared (ops : NeuronOps N) (T_now : Nat) (s : Core N) :
    (tickBody ops T_now s).S_vec_now = [] ∧ (tickBody ops T_now s).Event_vec_now = [] ∧
    (tickBody ops T_now s).S_vec_trace_now = [] :=
  ⟨rfl, rfl, rfl⟩

end Drain

/-- C10: in a tick `T_now` that starts with empty working lists (as `reset` and ClearTransient
leave them), after MergeSpikes `S_vec_now` holds, as a multiset, exactly the entries of the
external and internal spike queues with time `≤ T_now`, and both queues keep exactly their
entries with time `> T_now`; the same holds of the delayed credit-event queue with
`Event_vec_now` and of the trace queue with `S_vec_trace_now` after DrainDelayed; and the tick
ends with the three working lists empty again. -/
theorem drain_up_to_tick {N : Type} (ops : NeuronOps N) (T_now : Nat) (s : Core N)
    (hS : s.S_vec_now = []) (hE : s.Event_vec_now = []) (hT : s.S_vec_trace_now = []) :
    ((mergeSpikes T_now s).S_vec_now.Perm
        (s.external_S_queue.filter (fun S => decide (S.time ≤ T_now))
          ++ s.internal_S_queue.filter (fun S => decide (S.time ≤ T_now))) ∧
      (mergeSpikes T_now s).external_S_queue
        = s.external_S_queue.filter (fun S => decide (T_now < S.time)) ∧
      (mergeSpikes T_now s).internal_S_queue
        = s.internal_S_queue.filter (fun S => decide (T_now < S.time))) ∧
    ((preFire ops T_now (mergeSpikes T_now s)).Event_vec_now.Perm
        (s.Event_queue_delay.filter (fun E => decide (E.time ≤ T_now))) ∧
      (preFire ops T_now (mergeSpikes T_now s)).Event_queue_delay
        = s.Event_queue_delay.filter (fun E => decide (T_now < E.time)) ∧
      (preFire ops T_now (mergeSpikes T_now s)).S_vec_trace_now.Perm
        (s.S_vec_trace.filter (fun S => decide (S.time ≤ T_now))) ∧
      (preFire ops T_now (mergeSpikes T_now s)).S_vec_trace
        = s.S_vec_trace.filter (fun S => decide (T_now < S.time))) ∧
    ((tickBody ops T_now (mergeSpikes T_now s)).S_vec_now = [] ∧
      (tickBody ops T_now (mergeSpikes T_now s)).Event_vec_now = [] ∧
      (tickBody ops T_now (mergeSpikes T_now s)).S_vec_trace_now = []) := by
  refine ⟨⟨?_, drain_fst Spike.time _ _ _, drain_fst Spike.time _ _ _⟩, ?_,
    tickBody_cleared ops T_now _⟩
  · show (drain Spike.time T_now s.internal_S_queue
      (drain Spike.time T_now s.external_S_queue s.S_vec_now).2).2.Perm _
    refine (drain_snd Spike.time _ _ _).trans ?_
    refine List.Perm.append_right _ ?_
    have := drain_snd Spike.time T_now s.external_S_queue s.S_vec_now
    rw [hS, List.nil_append] at this
    rw [hS]; exact this
  · obtain ⟨p1, p2, p3, p4⟩ := preFire_delayed ops T_now (mergeSpikes T_now s)
    have m1 : (mergeSpikes T_now s).Event_queue_delay = s.Event_queue_delay := rfl
    have m2 : (mergeSpikes T_now s).Event_vec_now = [] := hE
    have m3 : (mergeSpikes T_now s).S_vec_trace = s.S_vec_trace := rfl
    have m4 : (mergeSpikes T_now s).S_vec_trace_now = [] := hT
    rw [m1, m2] at p1 p2
    rw [m3, m4] at p3 p4
    rw [p1, p2, p3, p4]
    refine ⟨?_, drain_fst _ _ _ _, ?_, drain_fst _ _ _ _⟩
    · simpa using drain_snd Event_unit.time T_now s.Event_queue_delay []
    · simpa using drain_snd Spike.time T_now s.S_vec_trace []

/-- C10 at tick 1 of a state whose queues are not in time order. -/
theorem drain_up_to_tick_witness :
    (mergeSpikes 1 drainCore).S_vec_now
      = [Spike.mk 0 (0, 'i'), Spike.mk 1 (3, 'i'), Spike.mk 1 (0, 'r')] ∧
    (mergeSpikes 1 drainCore).external_S_queue = [Spike.mk 2 (1, 'i')] ∧
    (mergeSpikes 1 drainCore).internal_S_queue = [Spike.mk 4 (0, 'r')] ∧
    (preFire flagOps 1 (mergeSpikes 1 drainCore)).Event_vec_now
      = [Event_unit.mk 1 (0, 'r') (0, 'r') true] ∧
    (preFire flagOps 1 (mergeSpikes 1 drainCore)).S_vec_trace_now
      = [Spike.mk 0 (0, 'r'), Spike.mk 1 (0, 'r')] ∧
    (preFire flagOps 1 (mergeSpikes 1 drainCore)).S_vec_trace = [Spike.mk 7 (0, 'r')] ∧
    (mergeSpikes 1 drainCore).S_vec_now.Perm
      (drainCore.external_S_queue.filter (fun S => decide (S.time ≤ 1))
        ++ drainCore.internal_S_queue.filter (fun S => decide (S.time ≤ 1))) :=
  ⟨rfl, rfl, rfl, rfl, rfl, rfl, (drain_up_to_tick flagOps 1 drainCore rfl rfl rfl).1.1⟩

theorem popAllLoop_nil {α : Type} (key : α → Nat) : ∀ (fuel : Nat) (q : List α),
    q.length ≤ fuel → popAllLoop key fuel q = [] := by
  intro fuel
  induction fuel with
  | zero =>
    intro q hq
    have : q = [] := List.length_eq_zero.1 (Nat.le_zero.1 hq)
    subst this; rfl
  | succ n ih =>
    intro q hq
    cases q with
    | nil => rfl
    | cons x xs =>
      simp only [popAllLoop]
      apply ih
      cases ht : top key (x :: xs) with
      | none => exact absurd ((top_eq_none_iff key _).1 ht) (by simp)
      | some y =>
        have := pop_length key ht
        omega

theorem popAll_nil {α : Type} (key : α → Nat) (q : List α) : popAll key q = [] :=
  popAllLoop_nil key q.length q le_rfl

/-- Queue after a loop of pushes of `g i` for `i` in `l`. -/
theorem foldl_push_external {N : Type} (g : Nat → Spike) : ∀ (l : List Nat) (a : Core N),
    (l.foldl (fun a i => { a with external_S_queue := push a.external_S_queue (g i) })
      a).external_S_queue = a.external_S_queue ++ l.map g := by
  intro l
  induction l with
  | nil => intro a; simp
  | cons i is ih =>
    intro a
    simp only [List.foldl_cons, List.map_cons]
    rw [ih]
    simp [push]

theorem load_spike_train_queue {N : Type} (spike_times neuron_indices : List Nat) (s : Core N) :
    (load_spike_train spike_times neuron_indices s).external_S_queue
      = (List.range spike_times.length).map
          (fun i => stimulusSpike (spike_times.getD i 0) (neuron_indices.getD i 0)) := by
  unfold load_spike_train
  have h := foldl_push_external
    (fun i => stimulusSpike (spike_times.getD i 0) (neuron_indices.getD i 0))
    (List.range spike_times.length)
    ({ s with external_S_queue := popAll Spike.time s.external_S_queue } : Core N)
  rw [popAll_nil, List.nil_append] at h
  rw [popAll_nil]
  exact h

/-- C11: for equally long `spike_times` and `neuron_indices`, after `load_spike_train` the
external spike queue holds one spike per position `i` and nothing else: it has as many entries
as the lists, and entry `i` has time `spike_times[i]` and identity `(neuron_indices[i], 'i')`
when `neuron_indices[i] < 144` and `(neuron_indices[i] - 144, 'b')` otherwise, whatever the
queue held before. -/
theorem load_spike_train_spec {N : Type} (spike_times neuron_indices : List Nat) (s : Core N)
    (_hlen : spike_times.length = neuron_indices.length) :
    (load_spike_train spike_times neuron_indices s).external_S_queue.length
      = spike_times.length ∧
    ∀ i (h1 : i < spike_times.length) (h2 : i < neuron_indices.length),
      (load_spike_train spike_times neuron_indices s).external_S_queue[i]? =
        some (if neuron_indices[i] < 144 then Spike.mk spike_times[i] (neuron_indices[i], 'i')
              else Spike.mk spike_times[i] (neuron_indices[i] - 144, 'b')) := by
  rw [load_spike_train_queue]
  refine ⟨by simp, ?_⟩
  intro i h1 h2
  rw [List.getElem?_map, List.getElem?_range h1]
  simp only [Option.map_some', stimulusSpike]
  rw [List.getD_eq_getElem _ _ h1, List.getD_eq_getElem _ _ h2]

/-- C11 at a concrete stimulus, loaded over a queue that still holds two spikes. -/
theorem load_spike_train_spec_witness :
    (load_spike_train [5, 0, 7] [143, 144, 150] loadedCore).external_S_queue
      = [Spike.mk 5 (143, 'i'), Spike.mk 0 (0, 'b'), Spike.mk 7 (6, 'b')] ∧
    (load_spike_train [5, 0, 7] [143, 144, 150] loadedCore).external_S_queue.length = 3 :=
  ⟨rfl, (load_spike_train_spec [5, 0, 7] [143, 144, 150] loadedCore rfl).1⟩

/-- A run that returns has a non-zero `N_training_times`, which it leaves as it was, and leaves
the class label as it was. -/
theorem run_loop_returned_config {N : Type} (ops : NeuronOps N) (fuel T_sim : Nat)
    (s s1 : Core N) (r : Bool) (h : run_loop ops fuel T_sim s = .returned r s1) :
    s1.N_training_times ≠ 0 ∧ s1.N_training_times = s.N_training_times ∧
      s1.class_label = s.class_label := by
  unfold run_loop at h
  cases hw : whileLoop ops T_sim fuel 0 s with
  | inl s2 =>
    have hfr := whileLoop_frame ops T_sim fuel 0 s
    rw [hw] at hfr h
    dsimp only at hfr h
    split_ifs at h with hz
    simp only [Outcome.returned.injEq] at h
    rw [← h.2]
    exact ⟨hz, hfr.N_training_times, hfr.class_label⟩
  | inr o =>
    rw [hw] at h
    dsimp only at h
    subst h
    exact absurd hw (whileLoop_ne_returned ops T_sim fuel 0 s s1 r)

/-- When the first computed tick exceeds `T_sim`, the run goes from the loop straight to
lines 539-544. -/
theorem run_loop_no_tick {N : Type} (ops : NeuronOps N) (fuel T_sim : Nat) (s : Core N)
    (hnext : T_sim < nextTick T_sim s) (hz : s.N_training_times ≠ 0) :
    run_loop ops (fuel + 1) T_sim s = .returned (score s.Neu_acc s.class_label)
        { s with N_training_slide := (s.N_training_slide + 1) % s.N_training_times } := by
  have hb : loopBody ops T_sim s = .exit s := by
    unfold loopBody
    dsimp only
    rw [if_pos hnext]
  have hw : whileLoop ops T_sim (fuel + 1) 0 s = .inl s := by
    simp only [whileLoop, Nat.zero_le, if_true, hb]
  unfold run_loop
  rw [hw]
  dsimp only
  rw [if_neg hz]

/-- C12: from a state left by a run that returned, `reset` followed by a run with an empty
stimulus and `T_sim = 0` processes no tick (the first iteration leaves the loop), raises no
error, and returns with the accumulator at ten zeros; the predicted class is index 0, so the
value returned is `true` exactly when the target class label is 0. -/
theorem reset_then_empty_run {N : Type} (ops : NeuronOps N) (rebuild : N → N)
    (fuel0 T0 fuel : Nat) (s0 s : Core N) (r0 : Bool)
    (h : run_loop ops fuel0 T0 s0 = .returned r0 s) :
    loopBody ops 0 (load_spike_train [] [] (reset rebuild s))
      = .exit (load_spike_train [] [] (reset rebuild s)) ∧
    ∃ r s2, run_loop ops (fuel + 1) 0 (load_spike_train [] [] (reset rebuild s))
        = .returned r s2 ∧
      s2.Neu_acc = [0, 0, 0, 0, 0, 0, 0, 0, 0, 0] ∧ max_element s2.Neu_acc = 0 ∧
      (r = true ↔ s.class_label = 0) := by
  obtain ⟨hz, -, -⟩ := run_loop_returned_config ops fuel0 T0 s0 s r0 h
  have hq : (load_spike_train [] [] (reset rebuild s)).external_S_queue = [] := by
    rw [load_spike_train_queue]; rfl
  have hi : (load_spike_train [] [] (reset rebuild s)).internal_S_queue = [] :=
    popAll_nil Spike.time s.internal_S_queue
  have hnext : 0 < nextTick 0 (load_spike_train [] [] (reset rebuild s)) := by
    unfold nextTick headTime
    rw [hq, hi]
    decide
  have hz1 : (load_spike_train [] [] (reset rebuild s)).N_training_times ≠ 0 := hz
  have hrun := run_loop_no_tick ops fuel 0 (load_spike_train [] [] (reset rebuild s)) hnext hz1
  refine ⟨?_, _, _, hrun, rfl, rfl, ?_⟩
  · unfold loopBody
    dsimp only
    rw [if_pos hnext]
  · show score (List.replicate 10 0) s.class_label = true ↔ _
    unfold score
    rw [decide_eq_true_iff]
    constructor
    · intro h1; exact h1.symm
    · intro h1; rw [h1]; rfl

/-- C12 at a concrete state: the run of four ticks that leaves the counter of class 4 at 4,
then `reset` and the empty run. -/
theorem reset_then_empty_run_witness :
    run_loop flagOps 5 3 untrainedCore
      = .returned false (run_loop flagOps 5 3 untrainedCore).state ∧
    (run_loop flagOps 5 3 untrainedCore).state.Neu_acc = [0, 0, 0, 0, 4, 0, 0, 0, 0, 0] ∧
    ∃ r s2, run_loop flagOps 1 0
        (load_spike_train [] [] (reset id (run_loop flagOps 5 3 untrainedCore).state))
        = .returned r s2 ∧
      s2.Neu_acc = [0, 0, 0, 0, 0, 0, 0, 0, 0, 0] ∧ max_element s2.Neu_acc = 0 ∧
      (r = true ↔ (run_loop flagOps 5 3 untrainedCore).state.class_label = 0) :=
  ⟨rfl, rfl, (reset_then_empty_run flagOps id 5 3 0 untrainedCore _ false rfl).2⟩

section Matrix
variable {β : Type}

theorem modifyAt_getD_ne (f : β → β) (d : β) : ∀ (n m : Nat) (l : List β), n ≠ m →
    (modifyAt f n l).getD m d = l.getD m d := by
  intro n m l
  induction l generalizing n m with
  | nil => intro _; cases n <;> rfl
  | cons a as ih =>
    intro h
    cases n with
    | zero =>
      cases m with
      | zero => exact absurd rfl h
      | succ k => rfl
    | succ n1 =>
      cases m with
      | zero => rfl
      | succ k =>
        simp only [modifyAt, List.getD_cons_succ]
        exact ih n1 k (fun h1 => h (by rw [h1]))

theorem modifyAt_getD_eq (f : β → β) (d : β) : ∀ (n : Nat) (l : List β), n < l.length →
    (modifyAt f n l).getD n d = f (l.getD n d) := by
  intro n l
  induction l generalizing n with
  | nil => intro h; exact absurd h (Nat.not_lt_zero _)
  | cons a as ih =>
    intro h
    cases n with
    | zero => rfl
    | succ n1 =>
      simp only [modifyAt, List.getD_cons_succ]
      exact ih n1 (Nat.lt_of_succ_lt_succ h)

theorem modifyAt_of_le (f : β → β) : ∀ (n : Nat) (l : List β), l.length ≤ n →
    modifyAt f n l = l := by
  intro n l
  induction l generalizing n with
  | nil => intro _; cases n <;> rfl
  | cons a as ih =>
    intro h
    cases n with
    | zero => exact absurd h (by simp)
    | succ n1 =>
      simp only [modifyAt]
      rw [ih n1 (Nat.le_of_succ_le_succ h)]

/-- The rows other than row `i` are left as they are. -/
theorem modifyEntry_row_ne (f : β → β) (i j i1 : Nat) (W : List (List β)) (h : i ≠ i1) :
    (modifyEntry f i j W).getD i1 [] = W.getD i1 [] :=
  modifyAt_getD_ne _ _ i i1 W h

/-- Every cell other than `(i, j)` is left as it is. -/
theorem entry_modifyEntry_ne (f : β → β) (d : β) (i j i1 j1 : Nat) (W : List (List β))
    (h : ¬ (i = i1 ∧ j = j1)) : entry d (modifyEntry f i j W) i1 j1 = entry d W i1 j1 := by
  unfold entry
  by_cases hi : i = i1
  · subst hi
    have hj : j ≠ j1 := fun hj => h ⟨rfl, hj⟩
    by_cases hlen : i < W.length
    · unfold modifyEntry
      rw [modifyAt_getD_eq _ _ i W hlen]
      exact modifyAt_getD_ne f d j j1 _ hj
    · unfold modifyEntry
      rw [modifyAt_of_le _ i W (Nat.le_of_not_lt hlen)]
  · rw [modifyEntry_row_ne f i j i1 W hi]

/-- The cell `(i, j)`, when it lies inside the matrix, is replaced by its image. -/
theorem entry_modifyEntry_eq (f : β → β) (d : β) (i j : Nat) (W : List (List β))
    (h : HasCell W i j) : entry d (modifyEntry f i j W) i j = f (entry d W i j) := by
  unfold entry modifyEntry
  rw [modifyAt_getD_eq _ _ i W h.1]
  exact modifyAt_getD_eq f d j _ h.2

/-- Outside the matrix nothing is written. -/
theorem modifyEntry_of_not_hasCell (f : β → β) (i j : Nat) (W : List (List β))
    (h : ¬ HasCell W i j) : modifyEntry f i j W = W := by
  unfold modifyEntry
  by_cases hi : i < W.length
  · have hj : (W.getD i []).length ≤ j := Nat.le_of_not_lt (fun hj => h ⟨hi, hj⟩)
    clear h
    induction W generalizing i with
    | nil => exact absurd hi (Nat.not_lt_zero _)
    | cons row rows ih =>
      cases i with
      | zero =>
        simp only [modifyAt]
        rw [modifyAt_of_le f j row hj]
      | succ i1 =>
        simp only [modifyAt]
        rw [ih i1 (Nat.lt_of_succ_lt_succ hi) hj]
  · exact modifyAt_of_le _ i W (Nat.le_of_not_lt hi)

end Matrix

theorem addClamp_eq_min (d hi w : ℚ) : addClamp d hi w = min (w + d) hi := by
  unfold addClamp
  split_ifs with h
  · exact (min_eq_right (le_of_lt h)).symm
  · exact (min_eq_left (not_lt.1 h)).symm

theorem subClamp_eq_max (d lo w : ℚ) : subClamp d lo w = max (w - d) lo := by
  unfold subClamp
  split_ifs with h
  · exact (max_eq_right (le_of_lt h)).symm
  · exact (max_eq_left (not_lt.1 h)).symm

theorem addClamp_eq_clampTo (d lo hi w : ℚ) (hd : 0 ≤ d) (hw : lo ≤ w) (hlh : lo ≤ hi) :
    addClamp d hi w = clampTo lo hi (w + d) := by
  rw [addClamp_eq_min]
  unfold clampTo
  rw [min_comm, max_eq_right]
  exact le_min hlh (by linarith)

theorem subClamp_eq_clampTo (d lo hi w : ℚ) (hd : 0 ≤ d) (hw : w ≤ hi) (_hlh : lo ≤ hi) :
    subClamp d lo w = clampTo lo hi (w - d) := by
  rw [subClamp_eq_max]
  unfold clampTo
  rw [min_eq_right (by linarith : w - d ≤ hi), max_comm]

theorem drainAllLoop_spec {α : Type} (key : α → Nat) : ∀ (fuel : Nat) (q v : List α),
    q.length ≤ fuel →
    (drainAllLoop key fuel q v).1 = [] ∧ (drainAllLoop key fuel q v).2.Perm (v ++ q) := by
  intro fuel
  induction fuel with
  | zero =>
    intro q v hq
    have : q = [] := List.length_eq_zero.1 (Nat.le_zero.1 hq)
    subst this
    simp [drainAllLoop]
  | succ n ih =>
    intro q v hq
    simp only [drainAllLoop]
    cases ht : top key q with
    | none =>
      have : q = [] := (top_eq_none_iff key q).1 ht
      subst this
      simp
    | some x =>
      have hlen := pop_length key ht
      obtain ⟨h1, h2⟩ := ih (pop key q) (v ++ [x]) (by omega)
      refine ⟨h1, h2.trans ?_⟩
      rw [List.append_assoc]
      exact List.Perm.append_left v (pop_perm key ht).symm

theorem drainAll_fst {α : Type} (key : α → Nat) (q v : List α) : (drainAll key q v).1 = [] :=
  (drainAllLoop_spec key q.length q v le_rfl).1

theorem drainAll_snd {α : Type} (key : α → Nat) (q v : List α) :
    (drainAll key q v).2.Perm (v ++ q) :=
  (drainAllLoop_spec key q.length q v le_rfl).2

theorem applyPlasticity_open {N : Type} (s : Core N) (h : s.enabling_train = true) :
    applyPlasticity 0 s
      = (drainAll Event_unit.time s.Event_queue []).2.foldl applyEvent
          { s with Event_queue := [] } := by
  unfold applyPlasticity
  simp only [h, true_and, if_true]
  rw [drainAll_fst]

/-- C20 (amended): one credit event with source `(i, 'r')` and target `(j, 'o')` replaces
`W_out[i][j]` by `min (W_out[i][j] + lr) 1` when its sign is set and by
`max (W_out[i][j] - lr) (-1)` otherwise, which is the two-sided clamp to `[-1, 1]` when
`lr ≥ 0` and the cell was in `[-1, 1]`; with target `(j, 'r')` it does the same to
`W_res[i][j]` with `lr / 10` and the bounds `±1/10`; with any other tags it changes nothing.
Every other cell of `W_out` and `W_res` and all of `W_in`, `W_fb`, `W_bias` are unchanged, and
ApplyPlasticity with the gate open applies each event of the immediate queue once, leaving the
queue empty. -/
theorem plasticity_step {N : Type} (s : Core N) (E : Event_unit) :
    ((applyEvent s E).W_in = s.W_in ∧ (applyEvent s E).W_fb = s.W_fb ∧
      (applyEvent s E).W_bias = s.W_bias) ∧
    (E.spk_id.2 = 'r' → E.neu_id.2 = 'o' →
      (applyEvent s E).W_res = s.W_res ∧
      (applyEvent s E).W_out = modifyEntry
        (fun w => if E.sign = true then min (w + s.lr) 1 else max (w - s.lr) (-1))
        E.spk_id.1 E.neu_id.1 s.W_out ∧
      (HasCell s.W_out E.spk_id.1 E.neu_id.1 →
        entry 0 (applyEvent s E).W_out E.spk_id.1 E.neu_id.1
          = if E.sign = true then min (entry 0 s.W_out E.spk_id.1 E.neu_id.1 + s.lr) 1
            else max (entry 0 s.W_out E.spk_id.1 E.neu_id.1 - s.lr) (-1)) ∧
      (0 ≤ s.lr → -1 ≤ entry 0 s.W_out E.spk_id.1 E.neu_id.1 →
        entry 0 s.W_out E.spk_id.1 E.neu_id.1 ≤ 1 → HasCell s.W_out E.spk_id.1 E.neu_id.1 →
        entry 0 (applyEvent s E).W_out E.spk_id.1 E.neu_id.1
          = if E.sign = true then clampTo (-1) 1 (entry 0 s.W_out E.spk_id.1 E.neu_id.1 + s.lr)
            else clampTo (-1) 1 (entry 0 s.W_out E.spk_id.1 E.neu_id.1 - s.lr)) ∧
      ∀ i1 j1, ¬ (E.spk_id.1 = i1 ∧ E.neu_id.1 = j1) →
        entry 0 (applyEvent s E).W_out i1 j1 = entry 0 s.W_out i1 j1) ∧
    (E.spk_id.2 = 'r' → E.neu_id.2 = 'r' →
      (applyEvent s E).W_out = s.W_out ∧
      (applyEvent s E).W_res = modifyEntry
        (fun w => if E.sign = true then min (w + s.lr * (1 / 10)) (1 / 10)
                  else max (w - s.lr * (1 / 10)) (-(1 / 10)))
        E.spk_id.1 E.neu_id.1 s.W_res ∧
      (HasCell s.W_res E.spk_id.1 E.neu_id.1 →
        entry 0 (applyEvent s E).W_res E.spk_id.1 E.neu_id.1
          = if E.sign = true
            then min (entry 0 s.W_res E.spk_id.1 E.neu_id.1 + s.lr * (1 / 10)) (1 / 10)
            else max (entry 0 s.W_res E.spk_id.1 E.neu_id.1 - s.lr * (1 / 10)) (-(1 / 10))) ∧
      ∀ i1 j1, ¬ (E.spk_id.1 = i1 ∧ E.neu_id.1 = j1) →
        entry 0 (applyEvent s E).W_res i1 j1 = entry 0 s.W_res i1 j1) ∧
    (¬ (E.spk_id.2 = 'r' ∧ (E.neu_id.2 = 'o' ∨ E.neu_id.2 = 'r')) → applyEvent s E = s) ∧
    (s.enabling_train = true →
      applyPlasticity 0 s = (drainAll Event_unit.time s.Event_queue []).2.foldl applyEvent
          { s with Event_queue := [] } ∧
      (drainAll Event_unit.time s.Event_queue []).2.Perm s.Event_queue) := by
  have hfr := applyEvent_frame s E
  refine ⟨⟨hfr.W_in, hfr.W_fb, hfr.W_bias⟩, ?_, ?_, ?_, ?_⟩
  · intro hr ho
    have hres : (applyEvent s E).W_res = s.W_res := by
      unfold applyEvent
      dsimp only
      rw [if_pos ⟨hr, ho⟩]
      split_ifs <;> rfl
    have hout : (applyEvent s E).W_out = modifyEntry
        (fun w => if E.sign = true then min (w + s.lr) 1 else max (w - s.lr) (-1))
        E.spk_id.1 E.neu_id.1 s.W_out := by
      unfold applyEvent
      dsimp only
      rw [if_pos ⟨hr, ho⟩]
      by_cases hs : E.sign = true
      · simp only [hs, if_true]
        congr 1
        funext w
        exact addClamp_eq_min _ _ _
      · simp only [hs, Bool.false_eq_true, if_false]
        congr 1
        funext w
        exact subClamp_eq_max _ _ _
    have hcell : HasCell s.W_out E.spk_id.1 E.neu_id.1 →
        entry 0 (applyEvent s E).W_out E.spk_id.1 E.neu_id.1
          = if E.sign = true then min (entry 0 s.W_out E.spk_id.1 E.neu_id.1 + s.lr) 1
            else max (entry 0 s.W_out E.spk_id.1 E.neu_id.1 - s.lr) (-1) := by
      intro hc
      rw [hout, entry_modifyEntry_eq _ _ _ _ _ hc]
    refine ⟨hres, hout, hcell, ?_, ?_⟩
    · intro hlr hlo hhi hc
      rw [hcell hc]
      by_cases hs : E.sign = true
      · simp only [hs, if_true]
        rw [← addClamp_eq_min, addClamp_eq_clampTo _ (-1) _ _ hlr hlo (by norm_num)]
      · simp only [hs, Bool.false_eq_true, if_false]
        rw [← subClamp_eq_max, subClamp_eq_clampTo _ _ 1 _ hlr hhi (by norm_num)]
    · intro i1 j1 hne
      rw [hout]
      exact entry_modifyEntry_ne _ _ _ _ _ _ _ hne
  · intro hr hrr
    have hno : ¬ (E.spk_id.2 = 'r' ∧ E.neu_id.2 = 'o') := by
      rintro ⟨-, ho⟩
      rw [hrr] at ho
      exact absurd ho (by decide)
    have hout : (applyEvent s E).W_out = s.W_out := by
      unfold applyEvent
      dsimp only
      rw [if_neg hno, if_pos ⟨hr, hrr⟩]
      split_ifs <;> rfl
    have hres : (applyEvent s E).W_res = modifyEntry
        (fun w => if E.sign = true then min (w + s.lr * (1 / 10)) (1 / 10)
                  else max (w - s.lr * (1 / 10)) (-(1 / 10)))
        E.spk_id.1 E.neu_id.1 s.W_res := by
      unfold applyEvent
      dsimp only
      rw [if_neg hno, if_pos ⟨hr, hrr⟩]
      by_cases hs : E.sign = true
      · simp only [hs, if_true]
        congr 1
        funext w
        exact addClamp_eq_min _ _ _
      · simp only [hs, Bool.false_eq_true, if_false]
        congr 1
        funext w
        exact subClamp_eq_max _ _ _
    refine ⟨hout, hres, ?_, ?_⟩
    · intro hc
      rw [hres, entry_modifyEntry_eq _ _ _ _ _ hc]
    · intro i1 j1 hne
      rw [hres]
      exact entry_modifyEntry_ne _ _ _ _ _ _ _ hne
  · intro hno
    unfold applyEvent
    dsimp only
    rw [if_neg (fun h => hno ⟨h.1, Or.inl h.2⟩), if_neg (fun h => hno ⟨h.1, Or.inr h.2⟩)]
  · intro ht
    refine ⟨applyPlasticity_open s ht, ?_⟩
    simpa using drainAll_snd Event_unit.time s.Event_queue []

/-- C20 (amended) at a concrete event: with learning rate 3 the cell `W_out[0][0] = 0` goes to
the bound 1, and the cell `W_out[0][1]` stays as it is. -/
theorem plasticity_step_witness :
    entry 0 (applyEvent bigLrCore (Event_unit.mk 0 (0, 'r') (0, 'o') true)).W_out 0 0
      = min (entry 0 bigLrCore.W_out 0 0 + bigLrCore.lr) 1 ∧
    min (entry 0 bigLrCore.W_out 0 0 + bigLrCore.lr) 1 = 1 ∧
    entry 0 (applyEvent bigLrCore (Event_unit.mk 0 (0, 'r') (0, 'o') true)).W_out 0 1
      = entry 0 bigLrCore.W_out 0 1 :=
  ⟨((plasticity_step bigLrCore (Event_unit.mk 0 (0, 'r') (0, 'o') true)).2.1 rfl rfl).2.2.1
      ⟨by decide, by decide⟩,
    by norm_num [entry, bigLrCore, idleCore],
    ((plasticity_step bigLrCore (Event_unit.mk 0 (0, 'r') (0, 'o') true)).2.1 rfl rfl).2.2.2.2
      0 1 (by decide)⟩

/-- C20 as stated fails: a potentiating event on the cell `W_out[0][0] = -5` with learning rate
1 leaves -4 in the cell, where the two-sided clamp to `[-1, 1]` gives -1. -/
theorem plasticity_step_not_two_sided :
    entry 0 (applyEvent lowCore (Event_unit.mk 0 (0, 'r') (0, 'o') true)).W_out 0 0 = -4 ∧
    clampTo (-1) 1 (entry 0 lowCore.W_out 0 0 + lowCore.lr) = -1 := by
  constructor
  · have h : entry 0 (applyEvent lowCore (Event_unit.mk 0 (0, 'r') (0, 'o') true)).W_out 0 0
        = addClamp 1 1 (-5) := rfl
    rw [h]
    norm_num [addClamp]
  · have h : entry 0 lowCore.W_out 0 0 + lowCore.lr = (-5 : ℚ) + 1 := rfl
    rw [h]
    norm_num [clampTo]

section Commute
variable {β : Type}

theorem modifyAt_comm_ne (f g : β → β) : ∀ (n m : Nat) (l : List β), n ≠ m →
    modifyAt f n (modifyAt g m l) = modifyAt g m (modifyAt f n l) := by
  intro n m l
  induction l generalizing n m with
  | nil => intro _; cases n <;> cases m <;> rfl
  | cons a as ih =>
    intro h
    cases n with
    | zero =>
      cases m with
      | zero => exact absurd rfl h
      | succ k => rfl
    | succ n1 =>
      cases m with
      | zero => rfl
      | succ k =>
        simp only [modifyAt]
        rw [ih n1 k (fun h1 => h (by rw [h1]))]

theorem modifyAt_modifyAt (f g : β → β) : ∀ (n : Nat) (l : List β),
    modifyAt f n (modifyAt g n l) = modifyAt (fun x => f (g x)) n l := by
  intro n l
  induction l generalizing n with
  | nil => cases n <;> rfl
  | cons a as ih =>
    cases n with
    | zero => rfl
    | succ n1 => simp only [modifyAt]; rw [ih n1]

/-- Updates of two different cells can be exchanged. -/
theorem modifyEntry_comm (f g : β → β) (i j i1 j1 : Nat) (W : List (List β))
    (h : ¬ (i = i1 ∧ j = j1)) :
    modifyEntry f i j (modifyEntry g i1 j1 W) = modifyEntry g i1 j1 (modifyEntry f i j W) := by
  unfold modifyEntry
  by_cases hi : i = i1
  · subst hi
    have hj : j ≠ j1 := fun hj => h ⟨rfl, hj⟩
    rw [modifyAt_modifyAt, modifyAt_modifyAt]
    congr 1
    funext row
    exact modifyAt_comm_ne f g j j1 row hj
  · exact modifyAt_comm_ne _ _ i i1 W hi

end Commute

section EventAlgebra
variable {N : Type}

/-- The plasticity step of one event writes `W_out` and `W_res` and nothing else. -/
theorem applyEvent_eq (s : Core N) (E : Event_unit) :
    applyEvent s E
      = { s with W_out := outAfter s.lr E s.W_out, W_res := resAfter s.lr E s.W_res } := by
  unfold applyEvent outAfter resAfter
  dsimp only
  split_ifs <;> rfl

theorem outAfter_comm (lr : ℚ) (x y : Event_unit) (W : List (List ℚ))
    (h : x.spk_id = y.spk_id → x.neu_id = y.neu_id → x.sign = y.sign) :
    outAfter lr y (outAfter lr x W) = outAfter lr x (outAfter lr y W) := by
  by_cases hx : x.spk_id.2 = 'r' ∧ x.neu_id.2 = 'o'
  · by_cases hy : y.spk_id.2 = 'r' ∧ y.neu_id.2 = 'o'
    · by_cases hc : y.spk_id.1 = x.spk_id.1 ∧ y.neu_id.1 = x.neu_id.1
      · have hs : x.sign = y.sign :=
          h (Prod.ext hc.1.symm (hx.1.trans hy.1.symm)) (Prod.ext hc.2.symm (hx.2.trans hy.2.symm))
        simp only [outAfter, if_pos hx, if_pos hy, hs, hc.1, hc.2]
      · simp only [outAfter, if_pos hx, if_pos hy]
        split_ifs <;> exact modifyEntry_comm _ _ _ _ _ _ _ hc
    · simp only [outAfter, if_neg hy]
  · simp only [outAfter, if_neg hx]

theorem resAfter_comm (lr : ℚ) (x y : Event_unit) (W : List (List ℚ))
    (h : x.spk_id = y.spk_id → x.neu_id = y.neu_id → x.sign = y.sign) :
    resAfter lr y (resAfter lr x W) = resAfter lr x (resAfter lr y W) := by
  by_cases hxo : x.spk_id.2 = 'r' ∧ x.neu_id.2 = 'o'
  · simp only [resAfter, if_pos hxo]
  · by_cases hyo : y.spk_id.2 = 'r' ∧ y.neu_id.2 = 'o'
    · simp only [resAfter, if_pos hyo]
    · by_cases hx : x.spk_id.2 = 'r' ∧ x.neu_id.2 = 'r'
      · by_cases hy : y.spk_id.2 = 'r' ∧ y.neu_id.2 = 'r'
        · by_cases hc : y.spk_id.1 = x.spk_id.1 ∧ y.neu_id.1 = x.neu_id.1
          · have hs : x.sign = y.sign :=
              h (Prod.ext hc.1.symm (hx.1.trans hy.1.symm))
                (Prod.ext hc.2.symm (hx.2.trans hy.2.symm))
            simp only [resAfter, if_neg hxo, if_neg hyo, if_pos hx, if_pos hy, hs, hc.1, hc.2]
          · simp only [resAfter, if_neg hxo, if_neg hyo, if_pos hx, if_pos hy]
            split_ifs <;> exact modifyEntry_comm _ _ _ _ _ _ _ hc
        · simp only [resAfter, if_neg hyo, if_neg hy]
      · simp only [resAfter, if_neg hxo, if_neg hx]

theorem applyEvent_comm (z : Core N) (x y : Event_unit)
    (h : x.spk_id = y.spk_id → x.neu_id = y.neu_id → x.sign = y.sign) :
    applyEvent (applyEvent z x) y = applyEvent (applyEvent z y) x := by
  rw [applyEvent_eq (applyEvent z x) y, applyEvent_eq (applyEvent z y) x, applyEvent_eq z x,
    applyEvent_eq z y]
  dsimp only
  rw [outAfter_comm z.lr x y z.W_out h, resAfter_comm z.lr x y z.W_res h]

end EventAlgebra

/-- C13 (amended): if any two events of the drained list that address the same cell (same
source and same target) have the same sign, then applying the list in any permutation gives
the same state, hence the same `W_out` and `W_res`. -/
theorem plasticity_order_independent {N : Type} (s : Core N) (l1 l2 : List Event_unit)
    (hp : l1.Perm l2)
    (hc : ∀ x ∈ l1, ∀ y ∈ l1, x.spk_id = y.spk_id → x.neu_id = y.neu_id → x.sign = y.sign) :
    l1.foldl applyEvent s = l2.foldl applyEvent s :=
  hp.foldl_eq' (fun x hx y hy z => applyEvent_comm z x y (hc x hx y hy)) s

/-- C13 (amended) at a concrete list: a potentiating event on `W_out[0][0]` and a depressing
event on `W_out[0][1]` in both orders. -/
theorem plasticity_order_independent_witness :
    [Event_unit.mk 0 (0, 'r') (0, 'o') true, Event_unit.mk 0 (0, 'r') (1, 'o') false].foldl
        applyEvent edgeCore
      = [Event_unit.mk 0 (0, 'r') (1, 'o') false, Event_unit.mk 0 (0, 'r') (0, 'o') true].foldl
        applyEvent edgeCore :=
  plasticity_order_independent edgeCore _ _ (List.Perm.swap _ _ _) (by decide)

/-- C13 as stated fails: on the cell `W_res[0][0] = 9/100` with learning rate `1/5`, the
potentiating event followed by the depressing one leaves `2/25` (the first step is clamped
to `1/10`), the other order leaves `9/100`. -/
theorem plasticity_order_matters :
    [Event_unit.mk 0 (0, 'r') (0, 'r') true, Event_unit.mk 0 (0, 'r') (0, 'r') false].Perm
      [Event_unit.mk 0 (0, 'r') (0, 'r') false, Event_unit.mk 0 (0, 'r') (0, 'r') true] ∧
    entry 0 ([Event_unit.mk 0 (0, 'r') (0, 'r') true,
        Event_unit.mk 0 (0, 'r') (0, 'r') false].foldl applyEvent edgeCore).W_res 0 0 = 2 / 25 ∧
    entry 0 ([Event_unit.mk 0 (0, 'r') (0, 'r') false,
        Event_unit.mk 0 (0, 'r') (0, 'r') true].foldl applyEvent edgeCore).W_res 0 0
      = 9 / 100 := by
  refine ⟨List.Perm.swap _ _ _, ?_, ?_⟩
  · have h : entry 0 ([Event_unit.mk 0 (0, 'r') (0, 'r') true,
        Event_unit.mk 0 (0, 'r') (0, 'r') false].foldl applyEvent edgeCore).W_res 0 0
        = subClamp (1 / 5 * (1 / 10)) (-(1 / 10))
            (addClamp (1 / 5 * (1 / 10)) (1 / 10) (9 / 100)) := rfl
    rw [h]
    norm_num [addClamp, subClamp]
  · have h : entry 0 ([Event_unit.mk 0 (0, 'r') (0, 'r') false,
        Event_unit.mk 0 (0, 'r') (0, 'r') true].foldl applyEvent edgeCore).W_res 0 0
        = addClamp (1 / 5 * (1 / 10)) (1 / 10)
            (subClamp (1 / 5 * (1 / 10)) (-(1 / 10)) (9 / 100)) := rfl
    rw [h]
    norm_num [addClamp, subClamp]

section AppliedEvents
variable {N : Type}

theorem foldl_applyEvent_weights : ∀ (L : List Event_unit) (a : Core N),
    (L.foldl applyEvent a).lr = a.lr ∧
    (L.foldl applyEvent a).W_out = L.foldl (fun W E => outAfter a.lr E W) a.W_out ∧
    (L.foldl applyEvent a).W_res = L.foldl (fun W E => resAfter a.lr E W) a.W_res := by
  intro L
  induction L with
  | nil => intro a; exact ⟨rfl, rfl, rfl⟩
  | cons E L ih =>
    intro a
    obtain ⟨h1, h2, h3⟩ := ih (applyEvent a E)
    have hlr : (applyEvent a E).lr = a.lr := (applyEvent_frame a E).lr
    have ho : (applyEvent a E).W_out = outAfter a.lr E a.W_out := by rw [applyEvent_eq]
    have hr : (applyEvent a E).W_res = resAfter a.lr E a.W_res := by rw [applyEvent_eq]
    simp only [List.foldl_cons]
    rw [h1, h2, h3, hlr, ho, hr]
    exact ⟨rfl, rfl, rfl⟩

/-- Weights after the tick: the matrices before it under the events the tick applies. -/
theorem tickBody_weights (ops : NeuronOps N) (T_now : Nat) (a : Core N) :
    (tickBody ops T_now a).W_out
      = (tickEvents ops T_now a).foldl (fun W E => outAfter a.lr E W) a.W_out ∧
    (tickBody ops T_now a).W_res
      = (tickEvents ops T_now a).foldl (fun W E => resAfter a.lr E W) a.W_res := by
  have hw := (preFire_sameWeights ops T_now a).weightsTrans
    (fireAndCredit_sameWeights ops T_now
      (train_signal T_now a.N_training_slide a.N_training_times) (preFire ops T_now a))
  have hf := (preFire_frame ops T_now a).frameTrans
    (fireAndCredit_frame ops T_now
      (train_signal T_now a.N_training_slide a.N_training_times) (preFire ops T_now a))
  have hc : ∀ b : Core N, (clearTransient b).W_out = b.W_out ∧ (clearTransient b).W_res = b.W_res :=
    fun _ => ⟨rfl, rfl⟩
  simp only [tickBody, (hc _).1, (hc _).2]
  unfold applyPlasticity tickEvents
  split_ifs with hg
  · dsimp only
    obtain ⟨-, h2, h3⟩ := foldl_applyEvent_weights
      (drainAll Event_unit.time (fireAndCredit ops T_now
        (train_signal T_now a.N_training_slide a.N_training_times)
        (preFire ops T_now a)).Event_queue []).2
      ({ (fireAndCredit ops T_now (train_signal T_now a.N_training_slide a.N_training_times)
            (preFire ops T_now a)) with
          Event_queue := (drainAll Event_unit.time (fireAndCredit ops T_now
            (train_signal T_now a.N_training_slide a.N_training_times)
            (preFire ops T_now a)).Event_queue []).1 } : Core N)
    rw [h2, h3]
    dsimp only
    rw [hw.W_out, hw.W_res, hf.lr]
    exact ⟨rfl, rfl⟩
  · exact ⟨hw.W_out, hw.W_res⟩

/-- Weights in the state the loop hands on: the initial matrices under the applied events. -/
theorem whileLoop_weights (ops : NeuronOps N) (T_sim : Nat) :
    ∀ (fuel T_now : Nat) (s : Core N),
      (loopState (whileLoop ops T_sim fuel T_now s)).W_out
        = (appliedEvents ops T_sim fuel T_now s).foldl (fun W E => outAfter s.lr E W) s.W_out ∧
      (loopState (whileLoop ops T_sim fuel T_now s)).W_res
        = (appliedEvents ops T_sim fuel T_now s).foldl (fun W E => resAfter s.lr E W) s.W_res := by
  intro fuel
  induction fuel with
  | zero => intro T_now s; exact ⟨rfl, rfl⟩
  | succ n ih =>
    intro T_now s
    simp only [whileLoop, appliedEvents]
    split_ifs with hT
    · cases hb : loopBody ops T_sim s with
      | next T s1 =>
        obtain ⟨-, -, -, -, hs1⟩ := loopBody_next hb
        dsimp only
        obtain ⟨i1, i2⟩ := ih T s1
        have hfr : Frame s s1 := by
          rw [hs1]; exact (mergeSpikes_frame T s).frameTrans (tickBody_frame ops T _)
        obtain ⟨t1, t2⟩ := tickBody_weights ops T (mergeSpikes T s)
        rw [← hs1] at t1 t2
        have m1 : (mergeSpikes T s).W_out = s.W_out := rfl
        have m2 : (mergeSpikes T s).W_res = s.W_res := rfl
        have m3 : (mergeSpikes T s).lr = s.lr := rfl
        rw [m1, m3] at t1
        rw [m2, m3] at t2
        rw [i1, i2, List.foldl_append, List.foldl_append, hfr.lr, t1, t2]
        exact ⟨rfl, rfl⟩
      | exit s1 =>
        obtain ⟨hs1, -⟩ := loopBody_exit hb
        subst hs1; exact ⟨rfl, rfl⟩
      | raised s1 =>
        obtain ⟨hs1, -, -⟩ := loopBody_raised hb
        subst hs1; exact ⟨rfl, rfl⟩
    · exact ⟨rfl, rfl⟩

theorem run_loop_state_weights (ops : NeuronOps N) (fuel T_sim : Nat) (s : Core N) :
    (run_loop ops fuel T_sim s).state.W_out
      = (loopState (whileLoop ops T_sim fuel 0 s)).W_out ∧
    (run_loop ops fuel T_sim s).state.W_res
      = (loopState (whileLoop ops T_sim fuel 0 s)).W_res := by
  unfold run_loop
  cases hw : whileLoop ops T_sim fuel 0 s with
  | inl s1 =>
    dsimp only
    split_ifs <;> exact ⟨rfl, rfl⟩
  | inr o => exact ⟨rfl, rfl⟩

end AppliedEvents

section Progress

end Progress

section Propagation
variable {N : Type}

theorem injectRow_getElem? (ops : NeuronOps N) (W : List (List ℚ)) (id_now : Nat) :
    ∀ (ns : List N) (j0 j : Nat),
      (injectRow ops W id_now j0 ns)[j]? = ns[j]?.map (ops.inp (entry 0 W id_now (j0 + j))) := by
  intro ns
  induction ns with
  | nil => intro j0 j; simp [injectRow]
  | cons n ns ih =>
    intro j0 j
    cases j with
    | zero => simp [injectRow]
    | succ k =>
      simp only [injectRow, List.getElem?_cons_succ]
      rw [ih (j0 + 1) k]
      have : j0 + 1 + k = j0 + (k + 1) := by omega
      rw [this]

theorem foldl_propagateSpike (ops : NeuronOps N) (j : Nat) : ∀ (vec : List Spike) (a : Core N),
    (vec.foldl (propagateSpike ops) a).Neu_res[j]?
      = a.Neu_res[j]?.map
          (fun n => (resCurrents a.W_in a.W_res j vec).foldl (fun n w => ops.inp w n) n) ∧
    (vec.foldl (propagateSpike ops) a).Neu_out[j]?
      = a.Neu_out[j]?.map
          (fun n => (outCurrents a.W_out j vec).foldl (fun n w => ops.inp w n) n) := by
  intro vec
  induction vec with
  | nil => intro a; simp [resCurrents, outCurrents]
  | cons S vec ih =>
    intro a
    obtain ⟨h1, h2⟩ := ih (propagateSpike ops a S)
    have hin : (propagateSpike ops a S).W_in = a.W_in := (propagateSpike_frame ops a S).W_in
    have hres : (propagateSpike ops a S).W_res = a.W_res :=
      (propagateSpike_sameWeights ops a S).W_res
    have hout : (propagateSpike ops a S).W_out = a.W_out :=
      (propagateSpike_sameWeights ops a S).W_out
    simp only [List.foldl_cons]
    rw [h1, h2, hin, hres, hout]
    by_cases hr : S.id.2 = 'r'
    · have e1 : (propagateSpike ops a S).Neu_res = injectRow ops a.W_res S.id.1 0 a.Neu_res := by
        unfold propagateSpike; rw [if_pos hr]
      have e2 : (propagateSpike ops a S).Neu_out = injectRow ops a.W_out S.id.1 0 a.Neu_out := by
        unfold propagateSpike; rw [if_pos hr]
      have c1 : resCurrents a.W_in a.W_res j (S :: vec)
          = entry 0 a.W_res S.id.1 j :: resCurrents a.W_in a.W_res j vec := by
        simp only [resCurrents, List.filterMap_cons, if_pos hr]
      have c2 : outCurrents a.W_out j (S :: vec)
          = entry 0 a.W_out S.id.1 j :: outCurrents a.W_out j vec := by
        simp only [outCurrents, List.filterMap_cons, if_pos hr]
      rw [e1, e2, injectRow_getElem?, injectRow_getElem?, c1, c2, Nat.zero_add]
      constructor
      · cases a.Neu_res[j]? <;> rfl
      · cases a.Neu_out[j]? <;> rfl
    · by_cases hi : S.id.2 = 'i'
      · have e1 : (propagateSpike ops a S).Neu_res = injectRow ops a.W_in S.id.1 0 a.Neu_res := by
          unfold propagateSpike; rw [if_neg hr, if_pos hi]
        have e2 : (propagateSpike ops a S).Neu_out = a.Neu_out := by
          unfold propagateSpike; rw [if_neg hr, if_pos hi]
        have c1 : resCurrents a.W_in a.W_res j (S :: vec)
            = entry 0 a.W_in S.id.1 j :: resCurrents a.W_in a.W_res j vec := by
          simp only [resCurrents, List.filterMap_cons, if_neg hr, if_pos hi]
        have c2 : outCurrents a.W_out j (S :: vec) = outCurrents a.W_out j vec := by
          simp only [outCurrents, List.filterMap_cons, if_neg hr]
        rw [e1, e2, injectRow_getElem?, c1, c2, Nat.zero_add]
        constructor
        · cases a.Neu_res[j]? <;> rfl
        · rfl
      · have e : propagateSpike ops a S = a := by
          unfold propagateSpike; rw [if_neg hr, if_neg hi]
        have c1 : resCurrents a.W_in a.W_res j (S :: vec) = resCurrents a.W_in a.W_res j vec := by
          simp only [resCurrents, List.filterMap_cons, if_neg hr, if_neg hi]
        have c2 : outCurrents a.W_out j (S :: vec) = outCurrents a.W_out j vec := by
          simp only [outCurrents, List.filterMap_cons, if_neg hr]
        rw [e, c1, c2]
        exact ⟨rfl, rfl⟩

theorem resCurrents_sum (W_in W_res : List (List ℚ)) (j : Nat) : ∀ vec : List Spike,
    (resCurrents W_in W_res j vec).sum
      = ((vec.filter (fun S => S.id.2 = 'i')).map (fun S => entry 0 W_in S.id.1 j)).sum
        + ((vec.filter (fun S => S.id.2 = 'r')).map (fun S => entry 0 W_res S.id.1 j)).sum := by
  intro vec
  induction vec with
  | nil => simp [resCurrents]
  | cons S vec ih =>
    by_cases hr : S.id.2 = 'r'
    · have hi : ¬ S.id.2 = 'i' := by rw [hr]; decide
      have c1 : resCurrents W_in W_res j (S :: vec)
          = entry 0 W_res S.id.1 j :: resCurrents W_in W_res j vec := by
        simp only [resCurrents, List.filterMap_cons, if_pos hr]
      have f1 : (S :: vec).filter (fun S => decide (S.id.2 = 'i'))
          = vec.filter (fun S => decide (S.id.2 = 'i')) := by
        rw [List.filter_cons, if_neg (by simpa using hi)]
      have f2 : (S :: vec).filter (fun S => decide (S.id.2 = 'r'))
          = S :: vec.filter (fun S => decide (S.id.2 = 'r')) := by
        rw [List.filter_cons, if_pos (by simpa using hr)]
      rw [c1, f1, f2, List.sum_cons, List.map_cons, List.sum_cons, ih]
      ring
    · by_cases hi : S.id.2 = 'i'
      · have c1 : resCurrents W_in W_res j (S :: vec)
            = entry 0 W_in S.id.1 j :: resCurrents W_in W_res j vec := by
          simp only [resCurrents, List.filterMap_cons, if_neg hr, if_pos hi]
        have f1 : (S :: vec).filter (fun S => decide (S.id.2 = 'i'))
            = S :: vec.filter (fun S => decide (S.id.2 = 'i')) := by
          rw [List.filter_cons, if_pos (by simpa using hi)]
        have f2 : (S :: vec).filter (fun S => decide (S.id.2 = 'r'))
            = vec.filter (fun S => decide (S.id.2 = 'r')) := by
          rw [List.filter_cons, if_neg (by simpa using hr)]
        rw [c1, f1, f2, List.sum_cons, List.map_cons, List.sum_cons, ih]
        ring
      · have c1 : resCurrents W_in W_res j (S :: vec) = resCurrents W_in W_res j vec := by
          simp only [resCurrents, List.filterMap_cons, if_neg hr, if_neg hi]
        have f1 : (S :: vec).filter (fun S => decide (S.id.2 = 'i'))
            = vec.filter (fun S => decide (S.id.2 = 'i')) := by
          rw [List.filter_cons, if_neg (by simpa using hi)]
        have f2 : (S :: vec).filter (fun S => decide (S.id.2 = 'r'))
            = vec.filter (fun S => decide (S.id.2 = 'r')) := by
          rw [List.filter_cons, if_neg (by simpa using hr)]
        rw [c1, f1, f2, ih]

theorem outCurrents_sum (W_out : List (List ℚ)) (k : Nat) : ∀ vec : List Spike,
    (outCurrents W_out k vec).sum
      = ((vec.filter (fun S => S.id.2 = 'r')).map (fun S => entry 0 W_out S.id.1 k)).sum := by
  intro vec
  induction vec with
  | nil => simp [outCurrents]
  | cons S vec ih =>
    by_cases hr : S.id.2 = 'r'
    · have c1 : outCurrents W_out k (S :: vec)
          = entry 0 W_out S.id.1 k :: outCurrents W_out k vec := by
        simp only [outCurrents, List.filterMap_cons, if_pos hr]
      have f2 : (S :: vec).filter (fun S => decide (S.id.2 = 'r'))
          = S :: vec.filter (fun S => decide (S.id.2 = 'r')) := by
        rw [List.filter_cons, if_pos (by simpa using hr)]
      rw [c1, f2, List.sum_cons, List.map_cons, List.sum_cons, ih]
    · have c1 : outCurrents W_out k (S :: vec) = outCurrents W_out k vec := by
        simp only [outCurrents, List.filterMap_cons, if_neg hr]
      have f2 : (S :: vec).filter (fun S => decide (S.id.2 = 'r'))
          = vec.filter (fun S => decide (S.id.2 = 'r')) := by
        rw [List.filter_cons, if_neg (by simpa using hr)]
      rw [c1, f2, ih]

end Propagation

/-- C15: spike propagation over the working set `S_vec_now` hands to reservoir neuron `j`, by
calls of `Neuron::in` in the order of the set, one argument per spike tagged input
(`W_in[s][j]`) or reservoir (`W_res[s][j]`), and to output neuron `j` one argument per spike
tagged reservoir (`W_out[s][j]`); the arguments sum to the sum of `W_in[s][j]` over the
input-tagged spikes plus the sum of `W_res[s][j]` over the reservoir-tagged ones, and to the sum
of `W_out[s][j]` over the reservoir-tagged ones; a spike with any other tag injects nothing. -/
theorem spike_propagation {N : Type} (ops : NeuronOps N) (s : Core N) (j : Nat) :
    (propagate ops s).Neu_res[j]? = s.Neu_res[j]?.map
      (fun n => (resCurrents s.W_in s.W_res j s.S_vec_now).foldl (fun n w => ops.inp w n) n) ∧
    (propagate ops s).Neu_out[j]? = s.Neu_out[j]?.map
      (fun n => (outCurrents s.W_out j s.S_vec_now).foldl (fun n w => ops.inp w n) n) ∧
    (resCurrents s.W_in s.W_res j s.S_vec_now).sum
      = ((s.S_vec_now.filter (fun S => S.id.2 = 'i')).map (fun S => entry 0 s.W_in S.id.1 j)).sum
        + ((s.S_vec_now.filter (fun S => S.id.2 = 'r')).map
            (fun S => entry 0 s.W_res S.id.1 j)).sum ∧
    (outCurrents s.W_out j s.S_vec_now).sum
      = ((s.S_vec_now.filter (fun S => S.id.2 = 'r')).map
          (fun S => entry 0 s.W_out S.id.1 j)).sum ∧
    ∀ S : Spike, S.id.2 ≠ 'r' → S.id.2 ≠ 'i' → propagateSpike ops s S = s := by
  obtain ⟨h1, h2⟩ := foldl_propagateSpike ops j s.S_vec_now s
  refine ⟨h1, h2, resCurrents_sum _ _ _ _, outCurrents_sum _ _ _, ?_⟩
  intro S hr hi
  unfold propagateSpike
  rw [if_neg hr, if_neg hi]

/-- C15 at a concrete working set with recording neurons: an input spike, a reservoir spike
from neuron 1, a bias spike and a reservoir spike from neuron 0. -/
theorem spike_propagation_witness :
    (propagate recordOps recordCore).Neu_res = [[1 / 2, 1 / 11, 1 / 5], [1 / 3, 1 / 13, 1 / 7]] ∧
    (propagate recordOps recordCore).Neu_out = [[3, 2]] ∧
    (outCurrents recordCore.W_out 0 recordCore.S_vec_now).sum
      = ((recordCore.S_vec_now.filter (fun S => S.id.2 = 'r')).map
          (fun S => entry 0 recordCore.W_out S.id.1 0)).sum :=
  ⟨rfl, rfl, (spike_propagation recordOps recordCore 0).2.2.2.1⟩

section ReservoirSection
variable {N : Type}

/-- Parts of the state that the reservoir loop reads and does not write. -/
theorem reservoirStep_reads (ops : NeuronOps N) (T_now : Nat) (a : Core N) (i : Nat) :
    (fun b : Core N => (b.S_vec_now, b.t_delay, b.enabling_train)) (reservoirStep ops T_now a i)
      = (a.S_vec_now, a.t_delay, a.enabling_train) := by
  unfold reservoirStep
  split
  · rfl
  · split_ifs <;> rfl

theorem reservoirStep_res_ne (ops : NeuronOps N) (T_now : Nat) (a : Core N) (i j : Nat)
    (hij : i ≠ j) : (reservoirStep ops T_now a i).Neu_res[j]? = a.Neu_res[j]? := by
  unfold reservoirStep
  cases h : a.Neu_res[i]? with
  | none => rfl
  | some nu =>
    dsimp only
    by_cases hf : ops.is_firing nu = true
    · simp only [hf, if_true]
      split_ifs <;> simp [List.getElem?_set_ne hij]
    · simp [hf]

/-- Effect of the body of the reservoir loop for a neuron that fires. -/
theorem reservoirStep_fires (ops : NeuronOps N) (T_now : Nat) (a : Core N) (i : Nat)
    (hf : reservoirFires ops a i = true) :
    (reservoirStep ops T_now a i).internal_S_queue
      = a.internal_S_queue ++ [Spike.mk (u32 (T_now + a.t_delay)) (i, 'r')] ∧
    (reservoirStep ops T_now a i).S_vec_trace = a.S_vec_trace ++ resTrace T_now a i ∧
    (reservoirStep ops T_now a i).Event_queue_delay
      = a.Event_queue_delay ++ resDelayed ops T_now a i ∧
    (reservoirStep ops T_now a i).Neu_res[i]? = a.Neu_res[i]?.map ops.reset := by
  unfold reservoirFires at hf
  unfold reservoirStep resTrace resDelayed reservoirSG
  cases h : a.Neu_res[i]? with
  | none => rw [h] at hf; exact absurd hf Bool.false_ne_true
  | some nu =>
    rw [h] at hf
    dsimp only at hf ⊢
    have hlt : i < a.Neu_res.length := by
      by_contra hc
      rw [List.getElem?_eq_none (Nat.le_of_not_lt hc)] at h
      exact absurd h (by simp)
    simp only [hf, if_true]
    cases ht : a.enabling_train <;> cases hg : ops.get_SG nu <;>
      simp [push, List.getElem?_set_self hlt]

/-- The body of the reservoir loop does nothing for a neuron that does not fire. -/
theorem reservoirStep_quiet (ops : NeuronOps N) (T_now : Nat) (a : Core N) (i : Nat)
    (hf : reservoirFires ops a i = false) : reservoirStep ops T_now a i = a := by
  unfold reservoirFires at hf
  unfold reservoirStep
  cases h : a.Neu_res[i]? with
  | none => rfl
  | some nu =>
    rw [h] at hf
    dsimp only at hf ⊢
    simp [hf]

theorem foldl_reservoirStep (ops : NeuronOps N) (T_now : Nat) (a : Core N) :
    ∀ (l : List Nat) (a1 : Core N), l.Nodup → (∀ i ∈ l, a1.Neu_res[i]? = a.Neu_res[i]?) →
      a1.S_vec_now = a.S_vec_now → a1.t_delay = a.t_delay →
      a1.enabling_train = a.enabling_train →
      (l.foldl (reservoirStep ops T_now) a1).internal_S_queue
        = a1.internal_S_queue ++ (l.filter (reservoirFires ops a)).map
            (fun i => Spike.mk (u32 (T_now + a.t_delay)) (i, 'r')) ∧
      (l.foldl (reservoirStep ops T_now) a1).S_vec_trace
        = a1.S_vec_trace ++ appendAll (resTrace T_now a) (l.filter (reservoirFires ops a)) ∧
      (l.foldl (reservoirStep ops T_now) a1).Event_queue_delay
        = a1.Event_queue_delay
          ++ appendAll (resDelayed ops T_now a) (l.filter (reservoirFires ops a)) ∧
      ∀ j, (l.foldl (reservoirStep ops T_now) a1).Neu_res[j]?
        = if j ∈ l ∧ reservoirFires ops a j = true then a1.Neu_res[j]?.map ops.reset
          else a1.Neu_res[j]? := by
  intro l
  induction l with
  | nil =>
    intro a1 _ _ _ _ _
    simp [appendAll]
  | cons i l ih =>
    intro a1 hnd hres hS hd ht
    obtain ⟨hi, hnd1⟩ := List.nodup_cons.1 hnd
    have hreads := reservoirStep_reads ops T_now a1 i
    simp only [Prod.mk.injEq] at hreads
    obtain ⟨rS, rd, rt⟩ := hreads
    have hresi : a1.Neu_res[i]? = a.Neu_res[i]? := hres i (List.mem_cons_self _ _)
    have hfire : reservoirFires ops a1 i = reservoirFires ops a i := by
      unfold reservoirFires; rw [hresi]
    have htrace : resTrace T_now a1 i = resTrace T_now a i := by
      unfold resTrace; rw [hd, ht]
    have hdel : resDelayed ops T_now a1 i = resDelayed ops T_now a i := by
      unfold resDelayed reservoirSG; rw [hd, ht, hS, hresi]
    obtain ⟨o1, o2, o3, o4⟩ := ih (reservoirStep ops T_now a1 i) hnd1
      (fun j hj => by
        rw [reservoirStep_res_ne ops T_now a1 i j (fun h => hi (h ▸ hj))]
        exact hres j (List.mem_cons_of_mem _ hj))
      (rS.trans hS) (rd.trans hd) (rt.trans ht)
    simp only [List.foldl_cons]
    rw [o1, o2, o3, List.filter_cons]
    by_cases hf : reservoirFires ops a i = true
    · obtain ⟨s1, s2, s3, s4⟩ := reservoirStep_fires ops T_now a1 i (hfire.trans hf)
      rw [s1, s2, s3, htrace, hdel, hd]
      simp only [hf, if_true, List.map_cons, appendAll, List.append_assoc, List.singleton_append,
        true_and]
      intro j
      rw [o4 j]
      by_cases hji : j = i
      · subst hji
        simp only [hi, false_and, if_false, List.mem_cons, true_or, hf, and_self, if_true]
        exact s4
      · have hne := reservoirStep_res_ne ops T_now a1 i j (fun h => hji h.symm)
        rw [hne]
        simp only [List.mem_cons, hji, false_or]
    · have hf0 : reservoirFires ops a i = false := by
        cases h : reservoirFires ops a i
        · rfl
        · exact absurd h hf
      have hq := reservoirStep_quiet ops T_now a1 i (hfire.trans hf0)
      rw [hq]
      simp only [hf0, Bool.false_eq_true, if_false, true_and]
      intro j
      have := o4 j
      rw [hq] at this
      rw [this]
      by_cases hji : j = i
      · subst hji
        simp [hi, hf0]
      · simp only [List.mem_cons, hji, false_or]

end ReservoirSection

theorem reservoirFires_lt {N : Type} (ops : NeuronOps N) (a : Core N) (j : Nat)
    (h : reservoirFires ops a j = true) : j < a.Neu_res.length := by
  unfold reservoirFires at h
  by_contra hc
  rw [List.getElem?_eq_none (Nat.le_of_not_lt hc)] at h
  exact absurd h Bool.false_ne_true

/-- C16: the reservoir section at tick `T_now`, started in state `a`, adds to the internal
spike queue one spike `(T_now + t_delay, (i, 'r'))` for every reservoir neuron `i` found firing,
with or without training, and resets that neuron; with training enabled it adds for each such
neuron the 20 trace spikes `(T_now + t_delay + n + 1, (i, 'r'))`, `n = 0 .. 19`, and, if the
neuron's surrogate-gradient gate is true, one delayed credit event
`(T_now + t_delay, (source, 'r'), (i, 'r'), true)` per reservoir-tagged spike of the working
set; neurons not firing add nothing and are left as they are.  The sums are `uint32_t` sums,
equal to the plain sums when `T_now + t_delay + 20 < 2 ^ 32`. -/
theorem reservoir_section_post {N : Type} (ops : NeuronOps N) (T_now : Nat) (a : Core N) :
    (reservoirSection ops T_now a).internal_S_queue
      = a.internal_S_queue ++ (firingReservoir ops a).map
          (fun i => Spike.mk (u32 (T_now + a.t_delay)) (i, 'r')) ∧
    (reservoirSection ops T_now a).S_vec_trace
      = a.S_vec_trace ++ appendAll
          (fun i => if a.enabling_train = true then
              (List.range 20).map
                (fun n => Spike.mk (u32 (T_now + a.t_delay + n + 1)) (i, 'r'))
            else [])
          (firingReservoir ops a) ∧
    (reservoirSection ops T_now a).Event_queue_delay
      = a.Event_queue_delay ++ appendAll
          (fun i => if a.enabling_train = true ∧ reservoirSG ops a i = true then
              (a.S_vec_now.filter (fun S => S.id.2 = 'r')).map
                (fun S => Event_unit.mk (u32 (T_now + a.t_delay)) (S.id.1, 'r') (i, 'r') true)
            else [])
          (firingReservoir ops a) ∧
    (∀ j, (reservoirSection ops T_now a).Neu_res[j]?
        = if reservoirFires ops a j = true then a.Neu_res[j]?.map ops.reset
          else a.Neu_res[j]?) ∧
    (T_now + a.t_delay + 20 < 2 ^ 32 →
      u32 (T_now + a.t_delay) = T_now + a.t_delay ∧
      ∀ n < 20, u32 (T_now + a.t_delay + n + 1) = T_now + a.t_delay + (n + 1)) := by
  obtain ⟨h1, h2, h3, h4⟩ := foldl_reservoirStep ops T_now a (List.range a.Neu_res.length) a
    (List.nodup_range _) (fun _ _ => rfl) rfl rfl rfl
  refine ⟨h1, h2, h3, ?_, ?_⟩
  · intro j
    have := h4 j
    unfold reservoirSection
    rw [this]
    by_cases hf : reservoirFires ops a j = true
    · rw [if_pos ⟨List.mem_range.2 (reservoirFires_lt ops a j hf), hf⟩, if_pos hf]
    · rw [if_neg (fun h => hf h.2), if_neg hf]
  · intro hov
    refine ⟨Nat.mod_eq_of_lt (by omega), ?_⟩
    intro n hn
    exact Nat.mod_eq_of_lt (by omega)

/-- C16 at a concrete section: tick 5, delay 2, reservoir neuron 1 of three firing with its
surrogate-gradient gate true, training enabled, two reservoir spikes in the working set. -/
theorem reservoir_section_post_witness :
    firingReservoir flagOps reservoirCore = [1] ∧
    (reservoirSection flagOps 5 reservoirCore).internal_S_queue = [Spike.mk 7 (1, 'r')] ∧
    (reservoirSection flagOps 5 reservoirCore).S_vec_trace
      = (List.range 20).map (fun n => Spike.mk (8 + n) (1, 'r')) ∧
    (reservoirSection flagOps 5 reservoirCore).Event_queue_delay
      = [Event_unit.mk 7 (2, 'r') (1, 'r') true, Event_unit.mk 7 (0, 'r') (1, 'r') true] ∧
    (reservoirSection flagOps 5 reservoirCore).internal_S_queue
      = reservoirCore.internal_S_queue ++ (firingReservoir flagOps reservoirCore).map
          (fun i => Spike.mk (u32 (5 + reservoirCore.t_delay)) (i, 'r')) :=
  ⟨rfl, rfl, by decide, rfl, (reservoir_section_post flagOps 5 reservoirCore).1⟩

section OutputSection
variable {N : Type}

theorem outputStep_reads (ops : NeuronOps N) (T_now sig : Nat) (a : Core N) (i : Nat) :
    creditInputs (outputStep ops T_now sig a i) = creditInputs a := by
  unfold outputStep
  split
  · rfl
  · split_ifs <;> rfl

/-- Effect of the body of the output loop for a neuron that fires. -/
theorem outputStep_fires (ops : NeuronOps N) (T_now sig : Nat) (a : Core N) (i : Nat)
    (hf : outputFires ops a i = true) :
    (outputStep ops T_now sig a i).Event_queue
      = a.Event_queue ++ outputEvents ops T_now sig a i ∧
    (outputStep ops T_now sig a i).Neu_out[i]? = a.Neu_out[i]?.map ops.reset := by
  unfold outputFires at hf
  unfold outputStep outputEvents outputSG
  cases h : a.Neu_out[i]? with
  | none => rw [h] at hf; exact absurd hf Bool.false_ne_true
  | some nu =>
    rw [h] at hf
    dsimp only at hf ⊢
    have hlt : i < a.Neu_out.length := by
      by_contra hc
      rw [List.getElem?_eq_none (Nat.le_of_not_lt hc)] at h
      exact absurd h (by simp)
    simp only [hf, if_true]
    by_cases hc : a.enabling_train = true ∧ sig = 0 ∧ i / a.N_out_times ≠ a.class_label
        ∧ i % a.N_out_times = a.train_index
    · rw [if_pos hc, if_pos hc]
      cases hg : ops.get_SG nu <;> simp [List.getElem?_set_self hlt]
    · rw [if_neg hc, if_neg hc]
      simp [List.getElem?_set_self hlt]

/-- The body of the output loop does nothing for a neuron that does not fire. -/
theorem outputStep_quiet (ops : NeuronOps N) (T_now sig : Nat) (a : Core N) (i : Nat)
    (hf : outputFires ops a i = false) : outputStep ops T_now sig a i = a := by
  unfold outputFires at hf
  unfold outputStep
  cases h : a.Neu_out[i]? with
  | none => rfl
  | some nu =>
    rw [h] at hf
    dsimp only at hf ⊢
    simp [hf]

theorem outputEvents_congr (ops : NeuronOps N) (T_now sig : Nat) (a a1 : Core N) (i : Nat)
    (hr : creditInputs a1 = creditInputs a) (hn : a1.Neu_out[i]? = a.Neu_out[i]?) :
    outputEvents ops T_now sig a1 i = outputEvents ops T_now sig a i := by
  unfold creditInputs at hr
  simp only [Prod.mk.injEq] at hr
  obtain ⟨h1, h2, h3, h4, h5, h6, h7, h8⟩ := hr
  unfold outputEvents outputSG
  rw [h1, h2, h3, h4, h5, h6, h7, h8, hn]

theorem foldl_outputStep (ops : NeuronOps N) (T_now sig : Nat) (a : Core N) :
    ∀ (l : List Nat) (a1 : Core N), l.Nodup → (∀ i ∈ l, a1.Neu_out[i]? = a.Neu_out[i]?) →
      creditInputs a1 = creditInputs a →
      (l.foldl (outputStep ops T_now sig) a1).Event_queue
        = a1.Event_queue
          ++ appendAll (outputEvents ops T_now sig a) (l.filter (outputFires ops a)) ∧
      ∀ j, (l.foldl (outputStep ops T_now sig) a1).Neu_out[j]?
        = if j ∈ l ∧ outputFires ops a j = true then a1.Neu_out[j]?.map ops.reset
          else a1.Neu_out[j]? := by
  intro l
  induction l with
  | nil =>
    intro a1 _ _ _
    simp [appendAll]
  | cons i l ih =>
    intro a1 hnd hout hr
    obtain ⟨hi, hnd1⟩ := List.nodup_cons.1 hnd
    have houti : a1.Neu_out[i]? = a.Neu_out[i]? := hout i (List.mem_cons_self _ _)
    have hfire : outputFires ops a1 i = outputFires ops a i := by
      unfold outputFires; rw [houti]
    have hev := outputEvents_congr ops T_now sig a a1 i hr houti
    obtain ⟨o1, o2⟩ := ih (outputStep ops T_now sig a1 i) hnd1
      (fun j hj => by
        rw [outputStep_out_ne ops T_now sig a1 i j (fun h => hi (h ▸ hj))]
        exact hout j (List.mem_cons_of_mem _ hj))
      ((outputStep_reads ops T_now sig a1 i).trans hr)
    simp only [List.foldl_cons]
    rw [o1, List.filter_cons]
    by_cases hf : outputFires ops a i = true
    · obtain ⟨s1, s2⟩ := outputStep_fires ops T_now sig a1 i (hfire.trans hf)
      rw [s1, hev]
      simp only [hf, if_true, appendAll, List.append_assoc, true_and]
      intro j
      rw [o2 j]
      by_cases hji : j = i
      · subst hji
        simp only [hi, false_and, if_false, List.mem_cons, true_or, hf, and_self, if_true]
        exact s2
      · have hne := outputStep_out_ne ops T_now sig a1 i j (fun h => hji h.symm)
        rw [hne]
        simp only [List.mem_cons, hji, false_or]
    · have hf0 : outputFires ops a i = false := by
        cases h : outputFires ops a i
        · rfl
        · exact absurd h hf
      have hq := outputStep_quiet ops T_now sig a1 i (hfire.trans hf0)
      rw [hq]
      simp only [hf0, Bool.false_eq_true, if_false, true_and]
      intro j
      have := o2 j
      rw [hq] at this
      rw [this]
      by_cases hji : j = i
      · subst hji
        simp [hi, hf0]
      · simp only [List.mem_cons, hji, false_or]

theorem outputFires_lt (ops : NeuronOps N) (a : Core N) (j : Nat)
    (h : outputFires ops a j = true) : j < a.Neu_out.length := by
  unfold outputFires at h
  by_contra hc
  rw [List.getElem?_eq_none (Nat.le_of_not_lt hc)] at h
  exact absurd h Bool.false_ne_true

/-- Immediate queue and output neurons after the output section. -/
theorem outputSection_effect (ops : NeuronOps N) (T_now sig : Nat) (a : Core N) :
    (outputSection ops T_now sig a).Event_queue
      = a.Event_queue ++ appendAll (outputEvents ops T_now sig a) (firingOutputs ops a) ∧
    ∀ j, (outputSection ops T_now sig a).Neu_out[j]?
      = if outputFires ops a j = true then a.Neu_out[j]?.map ops.reset else a.Neu_out[j]? := by
  obtain ⟨h1, h2⟩ := foldl_outputStep ops T_now sig a (List.range a.Neu_out.length) a
    (List.nodup_range _) (fun _ _ => rfl) rfl
  refine ⟨h1, ?_⟩
  intro j
  have := h2 j
  unfold outputSection
  rw [this]
  by_cases hf : outputFires ops a j = true
  · rw [if_pos ⟨List.mem_range.2 (outputFires_lt ops a j hf), hf⟩, if_pos hf]
  · rw [if_neg (fun h => hf h.2), if_neg hf]

end OutputSection

section Slot
variable {N : Type}

theorem propagateSpike_train_index (ops : NeuronOps N) (s : Core N) (S_now : Spike) :
    (propagateSpike ops s S_now).train_index = s.train_index := by
  unfold propagateSpike
  split_ifs <;> rfl

theorem preFire_train_index (ops : NeuronOps N) (T_now : Nat) (s : Core N) :
    (preFire ops T_now s).train_index = T_now % s.N_out_times := by
  unfold preFire
  show (propagate ops _).train_index = _
  unfold propagate
  rw [foldl_keep Core.train_index _ (propagateSpike_train_index ops)]
  rfl

theorem reservoirStep_train_index (ops : NeuronOps N) (T_now : Nat) (s : Core N) (i : Nat) :
    (reservoirStep ops T_now s i).train_index = s.train_index := by
  unfold reservoirStep
  split
  · rfl
  · split_ifs <;> rfl

/-- The training slot of the tick, as the firing sections read it. -/
theorem atOutputSection_train_index (ops : NeuronOps N) (T_now : Nat) (s : Core N) :
    (atOutputSection ops T_now s).train_index = T_now % s.N_out_times := by
  unfold atOutputSection reservoirSection
  rw [foldl_keep Core.train_index _ (reservoirStep_train_index ops T_now), preFire_train_index]
  rfl

end Slot

/-- C17 (amended): the output section of tick `T_now`, started in state `a`, appends to the
immediate credit-event queue, for every output neuron `i` found firing with training enabled,
the gate open (`sig = 0`), class `i / N_out_times` other than the target class and slot
`i % N_out_times` equal to the training slot: if the neuron's surrogate-gradient gate is true,
one depression event `(T_now, (source, 'r'), (i, 'o'), false)` per reservoir-tagged spike of
the working set and per reservoir identity of the drained trace list, and in either case the
forwarded feedback events.  A firing neuron failing one of the conditions pushes nothing; every
firing neuron is reset and counted; the training slot is `T_now % N_out_times`. -/
theorem non_target_firing {N : Type} (ops : NeuronOps N) (T_now sig : Nat) (a : Core N) :
    (outputSection ops T_now sig a).Event_queue
      = a.Event_queue ++ appendAll
          (fun i =>
            if a.enabling_train = true ∧ sig = 0 ∧ i / a.N_out_times ≠ a.class_label
                ∧ i % a.N_out_times = a.train_index then
              (if outputSG ops a i = true then
                (a.S_vec_now.filter (fun S => S.id.2 = 'r')).map
                    (fun S => Event_unit.mk T_now (S.id.1, 'r') (i, 'o') false)
                  ++ (a.S_vec_trace_now.filter (fun S => S.id.2 = 'r')).map
                    (fun S => Event_unit.mk T_now (S.id.1, 'r') (i, 'o') false)
              else [])
              ++ feedbackEvents T_now a.W_fb false i a.Event_vec_now
            else [])
          (firingOutputs ops a) ∧
    (∀ j, (outputSection ops T_now sig a).Neu_out[j]?
      = if outputFires ops a j = true then a.Neu_out[j]?.map ops.reset else a.Neu_out[j]?) ∧
    (outputSection ops T_now sig a).Neu_acc
      = (firingOutputs ops a).foldl (fun acc i => modifyAt (· + 1) (i / a.N_out_times) acc)
          a.Neu_acc ∧
    ∀ s : Core N, (atOutputSection ops T_now s).train_index = T_now % s.N_out_times := by
  obtain ⟨h1, h2⟩ := outputSection_effect ops T_now sig a
  exact ⟨h1, h2, outputSection_acc ops T_now sig a, atOutputSection_train_index ops T_now⟩

/-- C17 (amended) at a concrete section: output neuron 3 fires outside the target class 0 with
its surrogate-gradient gate true; the queue receives a depression event for the reservoir
spike of the working set, one for the reservoir identity of the trace list, and the forwarded
event. -/
theorem non_target_firing_witness :
    firingOutputs flagOps creditCore = [3] ∧
    (outputSection flagOps 0 0 creditCore).Event_queue
      = [Event_unit.mk 0 (0, 'r') (3, 'o') false, Event_unit.mk 0 (0, 'r') (3, 'o') false,
         Event_unit.mk 0 (0, 'r') (0, 'r') false] ∧
    (outputSection flagOps 0 0 creditCore).Neu_acc = [0, 0, 0, 1, 0, 0, 0, 0, 0, 0] ∧
    (outputSection flagOps 0 0 creditCore).Neu_acc
      = (firingOutputs flagOps creditCore).foldl
          (fun acc i => modifyAt (· + 1) (i / creditCore.N_out_times) acc) creditCore.Neu_acc :=
  ⟨rfl, rfl, rfl, (non_target_firing flagOps 0 0 creditCore).2.2.1⟩

/-- C17 as stated fails: output neuron 3 fires with training enabled, the gate open, a class
other than the target class and the slot of the tick, and the working set holds a reservoir
spike, but with the neuron's surrogate-gradient gate false no depression event is pushed
for that spike. -/
theorem non_target_firing_needs_gate :
    outputFires noGateOps creditCore 3 = true ∧ NonTargetSlot 0 creditCore 3 ∧
    Spike.mk 0 (0, 'r') ∈ creditCore.S_vec_now ∧
    Event_unit.mk 0 (0, 'r') (3, 'o') false
      ∉ (outputSection noGateOps 0 0 creditCore).Event_queue := by
  refine ⟨rfl, ⟨rfl, rfl, by decide, rfl⟩, by decide, ?_⟩
  have h : (outputSection noGateOps 0 0 creditCore).Event_queue
      = [Event_unit.mk 0 (0, 'r') (0, 'r') false] := rfl
  rw [h]
  decide

section TargetSection
variable {N : Type}

theorem core_queue_nil (a : Core N) : { a with Event_queue := a.Event_queue ++ [] } = a := by
  cases a
  simp

/-- The body of the target-class loop only appends to the immediate queue. -/
theorem targetStep_eq (ops : NeuronOps N) (T_now : Nat) (a : Core N) (k : Nat) :
    targetStep ops T_now a k
      = { a with Event_queue := a.Event_queue ++ targetEvents ops T_now a k } := by
  unfold targetStep targetEvents targetOpen targetSG
  dsimp only
  cases h : a.Neu_out[a.class_label * a.N_out_times + k]? with
  | none => simp only [Bool.false_eq_true, if_false]; exact (core_queue_nil a).symm
  | some nu =>
    dsimp only
    by_cases hc : ops.is_firing nu = false ∧ ops.is_ref T_now nu = false ∧ k = a.train_index
        ∧ ops.is_SG_ref T_now nu = false
    · have hb : (!ops.is_firing nu && !ops.is_ref T_now nu && decide (k = a.train_index)
          && !ops.is_SG_ref T_now nu) = true := by
        obtain ⟨h1, h2, h3, h4⟩ := hc
        simp [h1, h2, h3, h4]
      rw [if_pos hc, if_pos hb]
      by_cases hg : ops.get_SG nu = true
      · simp only [hg, if_true, List.append_assoc]
      · simp only [hg, if_false, List.nil_append, Bool.false_eq_true]
    · have hb : ¬ (!ops.is_firing nu && !ops.is_ref T_now nu && decide (k = a.train_index)
          && !ops.is_SG_ref T_now nu) = true := by
        intro hb
        apply hc
        simp only [Bool.and_eq_true, Bool.not_eq_true', decide_eq_true_eq] at hb
        exact ⟨hb.1.1.1, hb.1.1.2, hb.1.2, hb.2⟩
      rw [if_neg hc, if_neg hb]
      exact (core_queue_nil a).symm

theorem targetOpen_slot (ops : NeuronOps N) (T_now : Nat) (a : Core N) (k : Nat)
    (h : targetOpen ops T_now a k = true) :
    k = a.train_index ∧ ∃ nu, a.Neu_out[a.class_label * a.N_out_times + k]? = some nu ∧
      ops.is_firing nu = false ∧ ops.is_ref T_now nu = false ∧
      ops.is_SG_ref T_now nu = false := by
  unfold targetOpen at h
  cases hn : a.Neu_out[a.class_label * a.N_out_times + k]? with
  | none => rw [hn] at h; exact absurd h Bool.false_ne_true
  | some nu =>
    rw [hn] at h
    simp only [Bool.and_eq_true, Bool.not_eq_true', decide_eq_true_eq] at h
    exact ⟨h.1.2, nu, rfl, h.1.1.1, h.1.1.2, h.2⟩

/-- A replica other than the one of the training slot leaves the state as it is. -/
theorem targetStep_of_ne (ops : NeuronOps N) (T_now : Nat) (a : Core N) (k : Nat)
    (hk : k ≠ a.train_index) : targetStep ops T_now a k = a := by
  rw [targetStep_eq]
  have : targetEvents ops T_now a k = [] := by
    unfold targetEvents
    by_cases h : targetOpen ops T_now a k = true
    · exact absurd (targetOpen_slot ops T_now a k h).1 hk
    · rw [if_neg h]
  rw [this]
  exact core_queue_nil a

theorem foldl_targetStep_skip (ops : NeuronOps N) (T_now : Nat) :
    ∀ (l : List Nat) (a : Core N), (∀ k ∈ l, k ≠ a.train_index) →
      l.foldl (targetStep ops T_now) a = a := by
  intro l
  induction l with
  | nil => intro a _; rfl
  | cons k l ih =>
    intro a h
    rw [List.foldl_cons, targetStep_of_ne ops T_now a k (h k (List.mem_cons_self _ _))]
    exact ih a (fun j hj => h j (List.mem_cons_of_mem _ hj))

theorem foldl_targetStep (ops : NeuronOps N) (T_now : Nat) :
    ∀ (l : List Nat) (a : Core N), l.Nodup →
      l.foldl (targetStep ops T_now) a
        = if a.train_index ∈ l then targetStep ops T_now a a.train_index else a := by
  intro l
  induction l with
  | nil => intro a _; simp
  | cons k l ih =>
    intro a hnd
    rw [List.foldl_cons]
    obtain ⟨hk, hl⟩ := List.nodup_cons.1 hnd
    by_cases hkt : k = a.train_index
    · subst hkt
      rw [if_pos (List.mem_cons_self _ _)]
      apply foldl_targetStep_skip
      intro j hj
      have : (targetStep ops T_now a a.train_index).train_index = a.train_index := by
        rw [targetStep_eq]
      rw [this]
      rintro rfl
      exact hk hj
    · rw [targetStep_of_ne ops T_now a k hkt, ih a hl]
      have : (a.train_index ∈ k :: l) ↔ a.train_index ∈ l := by
        rw [List.mem_cons]
        constructor
        · rintro (h | h)
          · exact absurd h.symm hkt
          · exact h
        · exact Or.inr
      simp only [this]

/-- The target-class section only appends the events of the slot replica to the immediate
queue. -/
theorem targetSection_eq (ops : NeuronOps N) (T_now sig : Nat) (a : Core N) :
    targetSection ops T_now sig a
      = { a with Event_queue := a.Event_queue ++ reinforcementEvents ops T_now sig a } := by
  unfold targetSection reinforcementEvents
  by_cases hc : a.enabling_train = true ∧ sig = 0
  · rw [if_pos hc, foldl_targetStep ops T_now _ a (List.nodup_range _)]
    by_cases hlt : a.train_index < a.N_out_times
    · rw [if_pos (List.mem_range.2 hlt), if_pos ⟨hc.1, hc.2, hlt⟩, targetStep_eq]
    · rw [if_neg (fun h => hlt (List.mem_range.1 h)), if_neg (fun h => hlt h.2.2)]
      exact (core_queue_nil a).symm
  · rw [if_neg hc, if_neg (fun h => hc ⟨h.1, h.2.1⟩)]
    exact (core_queue_nil a).symm

theorem mem_spikeEvents {t : Nat} {neu_id : Nat × Char} {sign : Bool} {vec : List Spike}
    {E : Event_unit} (h : E ∈ spikeEvents t neu_id sign vec) :
    E.time = t ∧ E.neu_id = neu_id ∧ E.sign = sign ∧ E.spk_id.2 = 'r' := by
  unfold spikeEvents at h
  obtain ⟨S, -, rfl⟩ := List.mem_map.1 h
  exact ⟨rfl, rfl, rfl, rfl⟩

theorem mem_feedbackEvents {T_now : Nat} {W_fb : List (List Bool)} {want : Bool} {n : Nat}
    {vec : List Event_unit} {E : Event_unit} (h : E ∈ feedbackEvents T_now W_fb want n vec) :
    ∃ E0 ∈ vec, E = Event_unit.mk T_now E0.spk_id E0.neu_id
      (want == entry false W_fb E0.neu_id.1 n) := by
  unfold feedbackEvents at h
  obtain ⟨E0, h0, rfl⟩ := List.mem_map.1 h
  exact ⟨E0, h0, rfl⟩

/-- The slot index read by the target-class section of tick `T_now`. -/
theorem atTargetSection_train_index (ops : NeuronOps N) (T_now : Nat) (s : Core N) :
    (atTargetSection ops T_now s).train_index = T_now % s.N_out_times := by
  unfold atTargetSection outputSection
  have h := foldl_keep creditInputs _
    (outputStep_reads ops T_now (train_signal T_now s.N_training_slide s.N_training_times))
    (List.range (atOutputSection ops T_now s).Neu_out.length) (atOutputSection ops T_now s)
  have h2 := congrArg (fun p => p.2.2.2.1) h
  exact h2.trans (atOutputSection_train_index ops T_now s)

end TargetSection

theorem feedbackEvents_false (T_now : Nat) (W_fb : List (List Bool)) (n : Nat)
    (vec : List Event_unit) :
    feedbackEvents T_now W_fb false n vec
      = vec.map (fun E => Event_unit.mk T_now E.spk_id E.neu_id (!entry false W_fb E.neu_id.1 n)) := by
  unfold feedbackEvents
  apply List.map_congr_left
  intro E _
  cases entry false W_fb E.neu_id.1 n <;> rfl

theorem feedbackEvents_true (T_now : Nat) (W_fb : List (List Bool)) (n : Nat)
    (vec : List Event_unit) :
    feedbackEvents T_now W_fb true n vec
      = vec.map (fun E => Event_unit.mk T_now E.spk_id E.neu_id (entry false W_fb E.neu_id.1 n)) := by
  unfold feedbackEvents
  apply List.map_congr_left
  intro E _
  cases entry false W_fb E.neu_id.1 n <;> rfl

/-- C18: for a firing output neuron `i` that meets the condition of the non-target branch, the
body of the output loop appends to the immediate queue, after the depression events that the
surrogate-gradient gate guards, one event per entry `E` of `Event_vec_now`, with time `T_now`,
the source and target of `E`, and sign `!W_fb[E.target][i]`; for a replica `k` of the target
class that meets the condition of line 438, the body of the target loop appends, after the
guarded reinforcement events, one event per entry `E` of `Event_vec_now` with time `T_now`,
the source and target of `E`, and sign `W_fb[E.target][class_label * N_out_times + k]`.  The
forwarded events are the same whether the gate is true or false. -/
theorem feedback_forwarding {N : Type} (ops : NeuronOps N) (T_now sig : Nat) (a : Core N)
    (i k : Nat) :
    (outputFires ops a i = true → NonTargetSlot sig a i →
      (outputStep ops T_now sig a i).Event_queue
        = a.Event_queue
          ++ ((if outputSG ops a i = true then
                spikeEvents T_now (i, 'o') false a.S_vec_now
                  ++ spikeEvents T_now (i, 'o') false a.S_vec_trace_now
              else [])
            ++ a.Event_vec_now.map (fun E =>
                Event_unit.mk T_now E.spk_id E.neu_id (!entry false a.W_fb E.neu_id.1 i)))) ∧
    (targetOpen ops T_now a k = true →
      (targetStep ops T_now a k).Event_queue
        = a.Event_queue
          ++ ((if targetSG ops a k = true then
                spikeEvents T_now (a.class_label * a.N_out_times + k, 'o') true a.S_vec_now
                  ++ spikeEvents T_now (a.class_label * a.N_out_times + k, 'o') true
                      a.S_vec_trace_now
              else [])
            ++ a.Event_vec_now.map (fun E =>
                Event_unit.mk T_now E.spk_id E.neu_id
                  (entry false a.W_fb E.neu_id.1 (a.class_label * a.N_out_times + k))))) := by
  constructor
  · intro hf hc
    rw [(outputStep_fires ops T_now sig a i hf).1]
    unfold outputEvents
    have hc1 : a.enabling_train = true ∧ sig = 0 ∧ i / a.N_out_times ≠ a.class_label
        ∧ i % a.N_out_times = a.train_index := hc
    rw [if_pos hc1, feedbackEvents_false]
  · intro ho
    rw [targetStep_eq]
    show a.Event_queue ++ targetEvents ops T_now a k = _
    unfold targetEvents
    rw [if_pos ho, feedbackEvents_true]

/-- C18 at a concrete state whose feedback matrix has `W_fb[0][3] = true` and
`W_fb[0][0] = true`: with the surrogate-gradient gate false, the firing non-target neuron 3
forwards the delayed event with sign `false`, and replica 0 of the target class forwards it
with sign `true`. -/
theorem feedback_forwarding_witness :
    outputFires noGateOps creditCore 3 = true ∧ NonTargetSlot 0 creditCore 3 ∧
    targetOpen noGateOps 0 creditCore 0 = true ∧
    (outputStep noGateOps 0 0 creditCore 3).Event_queue
      = [Event_unit.mk 0 (0, 'r') (0, 'r') false] ∧
    (targetStep noGateOps 0 creditCore 0).Event_queue
      = [Event_unit.mk 0 (0, 'r') (0, 'r') true] ∧
    (outputStep noGateOps 0 0 creditCore 3).Event_queue
      = creditCore.Event_queue
        ++ ((if outputSG noGateOps creditCore 3 = true then
              spikeEvents 0 (3, 'o') false creditCore.S_vec_now
                ++ spikeEvents 0 (3, 'o') false creditCore.S_vec_trace_now
            else [])
          ++ creditCore.Event_vec_now.map (fun E =>
              Event_unit.mk 0 E.spk_id E.neu_id (!entry false creditCore.W_fb E.neu_id.1 3))) :=
  ⟨rfl, ⟨rfl, rfl, by decide, rfl⟩, rfl, rfl, rfl,
    (feedback_forwarding noGateOps 0 0 creditCore 3 0).1 rfl ⟨rfl, rfl, by decide, rfl⟩⟩

section Delayed
variable {N : Type}

theorem preFire_delayedToReservoir (ops : NeuronOps N) (T_now : Nat) (s : Core N)
    (h : DelayedToReservoir s) : DelayedToReservoir (preFire ops T_now s) := by
  obtain ⟨h1, h2, -, -⟩ := preFire_delayed ops T_now s
  constructor
  · intro E hE
    rw [h1, drain_fst] at hE
    exact h.1 E (List.mem_filter.1 hE).1
  · intro E hE
    rw [h2] at hE
    have hp := (drain_snd Event_unit.time T_now s.Event_queue_delay s.Event_vec_now).mem_iff.1 hE
    rcases List.mem_append.1 hp with hv | hq
    · exact h.2 E hv
    · exact h.1 E (List.mem_filter.1 hq).1

theorem reservoirStep_delayedToReservoir (ops : NeuronOps N) (T_now : Nat) (s : Core N)
    (i : Nat) (h : DelayedToReservoir s) : DelayedToReservoir (reservoirStep ops T_now s i) := by
  have hv : (reservoirStep ops T_now s i).Event_vec_now = s.Event_vec_now := by
    unfold reservoirStep
    split
    · rfl
    · split_ifs <;> rfl
  refine ⟨?_, fun E hE => h.2 E (by rw [hv] at hE; exact hE)⟩
  intro E hE
  have hq : E ∈ s.Event_queue_delay ∨
      E ∈ spikeEvents (u32 (T_now + s.t_delay)) (i, 'r') true s.S_vec_now := by
    unfold reservoirStep at hE
    split at hE
    · exact Or.inl hE
    · split_ifs at hE
      · exact List.mem_append.1 hE
      · exact Or.inl hE
      · exact Or.inl hE
      · exact Or.inl hE
  rcases hq with hq | hq
  · exact h.1 E hq
  · rw [(mem_spikeEvents hq).2.1]

theorem outputStep_delayed (ops : NeuronOps N) (T_now sig : Nat) (s : Core N) (i : Nat) :
    (fun a : Core N => (a.Event_queue_delay, a.Event_vec_now)) (outputStep ops T_now sig s i)
      = (s.Event_queue_delay, s.Event_vec_now) := by
  unfold outputStep
  split
  · rfl
  · split_ifs <;> rfl

theorem applyEvent_delayed (s : Core N) (E_now : Event_unit) :
    (fun a : Core N => (a.Event_queue_delay, a.Event_vec_now)) (applyEvent s E_now)
      = (s.Event_queue_delay, s.Event_vec_now) := by
  unfold applyEvent
  dsimp only
  split_ifs <;> rfl

theorem applyPlasticity_delayed (sig : Nat) (s : Core N) :
    (fun a : Core N => (a.Event_queue_delay, a.Event_vec_now)) (applyPlasticity sig s)
      = (s.Event_queue_delay, s.Event_vec_now) := by
  unfold applyPlasticity
  split_ifs
  · dsimp only
    rw [foldl_keep (fun a : Core N => (a.Event_queue_delay, a.Event_vec_now)) applyEvent
      applyEvent_delayed]
  · rfl

theorem delayedToReservoir_of_eq {s a : Core N}
    (h : (a.Event_queue_delay, a.Event_vec_now) = (s.Event_queue_delay, s.Event_vec_now))
    (hs : DelayedToReservoir s) : DelayedToReservoir a := by
  simp only [Prod.mk.injEq] at h
  unfold DelayedToReservoir
  rw [h.1, h.2]
  exact hs

/-- The drained delayed events that the target-class section of a tick reads target
reservoir neurons, if those of the state at the top of the iteration do. -/
theorem atTargetSection_delayedToReservoir (ops : NeuronOps N) (T_now : Nat) (s : Core N)
    (h : DelayedToReservoir s) : DelayedToReservoir (atTargetSection ops T_now s) := by
  have hm : DelayedToReservoir (mergeSpikes T_now s) := h
  have hr : DelayedToReservoir (atOutputSection ops T_now s) := by
    unfold atOutputSection reservoirSection
    exact foldl_pres DelayedToReservoir _
      (fun a i ha => reservoirStep_delayedToReservoir ops T_now a i ha) _ _
      (preFire_delayedToReservoir ops T_now _ hm)
  unfold atTargetSection outputSection
  exact delayedToReservoir_of_eq
    (foldl_keep (fun a : Core N => (a.Event_queue_delay, a.Event_vec_now)) _
      (outputStep_delayed ops T_now _) _ _) hr

theorem tickBody_delayedToReservoir (ops : NeuronOps N) (T_now : Nat) (s : Core N)
    (h : DelayedToReservoir s) : DelayedToReservoir (tickBody ops T_now s) := by
  have hr : DelayedToReservoir (reservoirSection ops T_now (preFire ops T_now s)) := by
    unfold reservoirSection
    exact foldl_pres DelayedToReservoir _
      (fun a i ha => reservoirStep_delayedToReservoir ops T_now a i ha) _ _
      (preFire_delayedToReservoir ops T_now _ h)
  have ho : DelayedToReservoir (outputSection ops T_now
      (train_signal T_now s.N_training_slide s.N_training_times)
      (reservoirSection ops T_now (preFire ops T_now s))) := by
    unfold outputSection
    exact delayedToReservoir_of_eq
      (foldl_keep (fun a : Core N => (a.Event_queue_delay, a.Event_vec_now)) _
        (outputStep_delayed ops T_now _) _ _) hr
  have ht : DelayedToReservoir (fireAndCredit ops T_now
      (train_signal T_now s.N_training_slide s.N_training_times) (preFire ops T_now s)) := by
    unfold fireAndCredit
    rw [targetSection_eq]
    exact ho
  have hp := delayedToReservoir_of_eq (applyPlasticity_delayed
    (train_signal T_now s.N_training_slide s.N_training_times) _) ht
  exact ⟨hp.1, fun E hE => absurd hE (List.not_mem_nil _)⟩

end Delayed

/-- C19: the target-class section of tick `T_now`, started in a state `a` whose drained delayed
events all target reservoir neurons (the only targets the reservoir section gives them), only
appends to the immediate queue; every event it appends has time `T_now`, and one with an
output-layer target has sign `true` and targets the neuron
`class_label * N_out_times + train_index`; it appends something only if training is enabled,
the gate is open and that neuron is not firing, not refractory and not
surrogate-gradient-refractory; with training disabled or the gate closed it leaves the state
as it is; the slot index it reads is `T_now % N_out_times`; and in a run started with delayed
events that target reservoir neurons (or with none), the delayed events target reservoir
neurons after any number of iterations and in the state in which the section starts. -/
theorem target_reinforcement {N : Type} (ops : NeuronOps N) (T_now sig : Nat) (a : Core N)
    (hr : ∀ E ∈ a.Event_vec_now, E.neu_id.2 = 'r') :
    targetSection ops T_now sig a
      = { a with Event_queue := a.Event_queue ++ reinforcementEvents ops T_now sig a } ∧
    (∀ E ∈ reinforcementEvents ops T_now sig a, E.time = T_now ∧
      (E.neu_id.2 = 'o' →
        E.neu_id = (a.class_label * a.N_out_times + a.train_index, 'o') ∧ E.sign = true)) ∧
    (reinforcementEvents ops T_now sig a ≠ [] →
      a.enabling_train = true ∧ sig = 0 ∧
      ∃ nu, a.Neu_out[a.class_label * a.N_out_times + a.train_index]? = some nu ∧
        ops.is_firing nu = false ∧ ops.is_ref T_now nu = false ∧
        ops.is_SG_ref T_now nu = false) ∧
    (¬ (a.enabling_train = true ∧ sig = 0) → targetSection ops T_now sig a = a) ∧
    (∀ s : Core N, (atTargetSection ops T_now s).train_index = T_now % s.N_out_times) ∧
    ∀ s : Core N, DelayedToReservoir s →
      (∀ E ∈ (atTargetSection ops T_now s).Event_vec_now, E.neu_id.2 = 'r') ∧
      ∀ fuel T_sim : Nat, DelayedToReservoir (run_loop ops fuel T_sim s).state := by
  refine ⟨targetSection_eq ops T_now sig a, ?_, ?_, ?_, atTargetSection_train_index ops T_now,
    fun s hs => ⟨(atTargetSection_delayedToReservoir ops T_now s hs).2, fun fuel T_sim =>
      run_loop_inv ops T_sim DelayedToReservoir (fun _ _ h => h)
        (fun T b hb => tickBody_delayedToReservoir ops T b hb) (fun _ _ h => h) fuel s hs⟩⟩
  · intro E hE
    unfold reinforcementEvents at hE
    split_ifs at hE with hc
    · unfold targetEvents at hE
      split_ifs at hE with ho hg
      · rcases List.mem_append.1 hE with h | h
        · have := (List.mem_append.1 h).elim mem_spikeEvents mem_spikeEvents
          exact ⟨this.1, fun _ => ⟨this.2.1, this.2.2.1⟩⟩
        · obtain ⟨E0, h0, rfl⟩ := mem_feedbackEvents h
          refine ⟨rfl, fun ho => ?_⟩
          have h1 : E0.neu_id.2 = 'r' := hr E0 h0
          have h2 : E0.neu_id.2 = 'o' := ho
          rw [h1] at h2
          exact absurd h2 (by decide)
      · rw [List.nil_append] at hE
        obtain ⟨E0, h0, rfl⟩ := mem_feedbackEvents hE
        refine ⟨rfl, fun ho => ?_⟩
        have h1 : E0.neu_id.2 = 'r' := hr E0 h0
        have h2 : E0.neu_id.2 = 'o' := ho
        rw [h1] at h2
        exact absurd h2 (by decide)
      · exact absurd hE (List.not_mem_nil _)
    · exact absurd hE (List.not_mem_nil _)
  · intro hne
    unfold reinforcementEvents at hne
    split_ifs at hne with hc
    · refine ⟨hc.1, hc.2.1, ?_⟩
      by_cases ho : targetOpen ops T_now a a.train_index = true
      · exact (targetOpen_slot ops T_now a a.train_index ho).2
      · exfalso
        apply hne
        unfold targetEvents
        rw [if_neg ho]
    · exact absurd rfl hne
  · intro hc
    unfold targetSection
    rw [if_neg hc]

/-- C19 at a concrete state with target class 0 and training slot 0: replica 0 is not firing,
and the section appends two reinforcement events for it and the forwarded delayed event,
while the firing neuron 3 receives none. -/
theorem target_reinforcement_witness :
    (∀ E ∈ creditCore.Event_vec_now, E.neu_id.2 = 'r') ∧
    (targetSection flagOps 0 0 creditCore).Event_queue
      = [Event_unit.mk 0 (0, 'r') (0, 'o') true, Event_unit.mk 0 (0, 'r') (0, 'o') true,
         Event_unit.mk 0 (0, 'r') (0, 'r') true] ∧
    targetSection flagOps 0 1 creditCore = creditCore ∧
    targetSection flagOps 0 0 creditCore
      = { creditCore with
          Event_queue := creditCore.Event_queue ++ reinforcementEvents flagOps 0 0 creditCore } :=
  ⟨by decide, rfl, rfl, (target_reinforcement flagOps 0 0 creditCore (by decide)).1⟩

section Gate
variable {N : Type}

theorem propagateSpike_event_queue (ops : NeuronOps N) (s : Core N) (S_now : Spike) :
    (propagateSpike ops s S_now).Event_queue = s.Event_queue := by
  unfold propagateSpike
  split_ifs <;> rfl

theorem preFire_event_queue (ops : NeuronOps N) (T_now : Nat) (s : Core N) :
    (preFire ops T_now s).Event_queue = s.Event_queue := by
  unfold preFire
  show (propagate ops _).Event_queue = _
  unfold propagate
  rw [foldl_keep Core.Event_queue _ (propagateSpike_event_queue ops)]
  rfl

theorem reservoirStep_event_queue (ops : NeuronOps N) (T_now : Nat) (s : Core N) (i : Nat) :
    (reservoirStep ops T_now s i).Event_queue = s.Event_queue := by
  unfold reservoirStep
  split
  · rfl
  · split_ifs <;> rfl

theorem reservoirSection_event_queue (ops : NeuronOps N) (T_now : Nat) (s : Core N) :
    (reservoirSection ops T_now s).Event_queue = s.Event_queue := by
  unfold reservoirSection
  exact foldl_keep Core.Event_queue _ (reservoirStep_event_queue ops T_now) _ _

theorem appendAll_nil {α β : Type} (f : α → List β) :
    ∀ l : List α, (∀ x ∈ l, f x = []) → appendAll f l = [] := by
  intro l
  induction l with
  | nil => intro _; rfl
  | cons x xs ih =>
    intro h
    show f x ++ appendAll f xs = []
    rw [h x (List.mem_cons_self _ _), ih (fun y hy => h y (List.mem_cons_of_mem _ hy))]
    rfl

/-- With training disabled or the gate closed the output section pushes no event. -/
theorem outputSection_queue_closed (ops : NeuronOps N) (T_now sig : Nat) (a : Core N)
    (hc : ¬ (a.enabling_train = true ∧ sig = 0)) :
    (outputSection ops T_now sig a).Event_queue = a.Event_queue := by
  rw [(outputSection_effect ops T_now sig a).1, appendAll_nil, List.append_nil]
  intro i _
  unfold outputEvents
  rw [if_neg (fun h => hc ⟨h.1, h.2.1⟩)]

/-- With training disabled or the gate closed the target-class section does nothing. -/
theorem targetSection_closed (ops : NeuronOps N) (T_now sig : Nat) (a : Core N)
    (hc : ¬ (a.enabling_train = true ∧ sig = 0)) : targetSection ops T_now sig a = a := by
  unfold targetSection
  rw [if_neg hc]

theorem outputSection_enabling (ops : NeuronOps N) (T_now sig : Nat) (a : Core N) :
    (outputSection ops T_now sig a).enabling_train = a.enabling_train := by
  unfold outputSection
  have h := foldl_keep creditInputs _ (outputStep_reads ops T_now sig)
    (List.range a.Neu_out.length) a
  exact congrArg (fun p => p.1) h

theorem fireAndCredit_queue_closed (ops : NeuronOps N) (T_now sig : Nat) (a : Core N)
    (hc : ¬ (a.enabling_train = true ∧ sig = 0)) :
    (fireAndCredit ops T_now sig a).Event_queue = a.Event_queue := by
  have he : (reservoirSection ops T_now a).enabling_train = a.enabling_train :=
    (reservoirSection_frame ops T_now a).enabling_train
  have hc1 : ¬ ((reservoirSection ops T_now a).enabling_train = true ∧ sig = 0) := by
    rw [he]; exact hc
  have hc2 : ¬ ((outputSection ops T_now sig (reservoirSection ops T_now a)).enabling_train
      = true ∧ sig = 0) := by
    rw [outputSection_enabling]; exact hc1
  unfold fireAndCredit
  rw [targetSection_closed ops T_now sig _ hc2, outputSection_queue_closed ops T_now sig _ hc1,
    reservoirSection_event_queue]

theorem applyEvent_event_queue (s : Core N) (E_now : Event_unit) :
    (applyEvent s E_now).Event_queue = s.Event_queue := by
  unfold applyEvent
  dsimp only
  split_ifs <;> rfl

/-- A tick that starts with an empty immediate queue ends with an empty one. -/
theorem tickBody_event_queue (ops : NeuronOps N) (T_now : Nat) (s : Core N)
    (hq : s.Event_queue = []) : (tickBody ops T_now s).Event_queue = [] := by
  have hf := (preFire_frame ops T_now s).frameTrans
    (fireAndCredit_frame ops T_now
      (train_signal T_now s.N_training_slide s.N_training_times) (preFire ops T_now s))
  show (applyPlasticity (train_signal T_now s.N_training_slide s.N_training_times)
    (fireAndCredit ops T_now (train_signal T_now s.N_training_slide s.N_training_times)
      (preFire ops T_now s))).Event_queue = []
  unfold applyPlasticity
  split_ifs with hg
  · dsimp only
    rw [foldl_keep Core.Event_queue applyEvent applyEvent_event_queue]
    exact drainAll_fst _ _ _
  · rw [fireAndCredit_queue_closed, preFire_event_queue, hq]
    rw [(preFire_frame ops T_now s).enabling_train]
    rw [hf.enabling_train] at hg
    exact hg

/-- A tick whose gate is closed leaves the three weight matrices as they are. -/
theorem tickBody_closed_weights (ops : NeuronOps N) (T_now : Nat) (s : Core N)
    (hs : train_signal T_now s.N_training_slide s.N_training_times ≠ 0) :
    (tickBody ops T_now s).W_in = s.W_in ∧ (tickBody ops T_now s).W_res = s.W_res ∧
    (tickBody ops T_now s).W_out = s.W_out := by
  have hw := (preFire_sameWeights ops T_now s).weightsTrans
    (fireAndCredit_sameWeights ops T_now
      (train_signal T_now s.N_training_slide s.N_training_times) (preFire ops T_now s))
  refine ⟨(tickBody_frame ops T_now s).W_in, ?_, ?_⟩
  · show (applyPlasticity (train_signal T_now s.N_training_slide s.N_training_times)
      (fireAndCredit ops T_now (train_signal T_now s.N_training_slide s.N_training_times)
        (preFire ops T_now s))).W_res = s.W_res
    unfold applyPlasticity
    rw [if_neg (fun h => hs h.2)]
    exact hw.W_res
  · show (applyPlasticity (train_signal T_now s.N_training_slide s.N_training_times)
      (fireAndCredit ops T_now (train_signal T_now s.N_training_slide s.N_training_times)
        (preFire ops T_now s))).W_out = s.W_out
    unfold applyPlasticity
    rw [if_neg (fun h => hs h.2)]
    exact hw.W_out

end Gate

/-- C21: let `s` be a state at the top of an iteration of the tick loop with the immediate
credit-event queue empty, and `T_now` the tick.  If the phase value `train_signal` of the tick
is not zero, the output section and the target-class section push no event from any state,
the immediate queue is empty after the three firing sections, and the tick leaves `W_in`,
`W_res` and `W_out` as they are.  Whatever the phase value, the immediate queue is empty at
the end of the tick; hence a run started with the queue empty has it empty after any number
of iterations. -/
theorem closed_gate_blocks {N : Type} (ops : NeuronOps N) (T_now : Nat) (s : Core N)
    (hq : s.Event_queue = []) :
    (train_signal T_now s.N_training_slide s.N_training_times ≠ 0 →
      (∀ a : Core N,
        (outputSection ops T_now
            (train_signal T_now s.N_training_slide s.N_training_times) a).Event_queue
          = a.Event_queue ∧
        targetSection ops T_now (train_signal T_now s.N_training_slide s.N_training_times) a
          = a) ∧
      (fireAndCredit ops T_now (train_signal T_now s.N_training_slide s.N_training_times)
          (preFire ops T_now (mergeSpikes T_now s))).Event_queue = [] ∧
      (tickBody ops T_now (mergeSpikes T_now s)).W_in = s.W_in ∧
      (tickBody ops T_now (mergeSpikes T_now s)).W_res = s.W_res ∧
      (tickBody ops T_now (mergeSpikes T_now s)).W_out = s.W_out) ∧
    (tickBody ops T_now (mergeSpikes T_now s)).Event_queue = [] ∧
    ∀ fuel T_sim : Nat, (run_loop ops fuel T_sim s).state.Event_queue = [] := by
  have hm : (mergeSpikes T_now s).Event_queue = [] := hq
  refine ⟨?_, tickBody_event_queue ops T_now _ hm, ?_⟩
  · intro hs
    refine ⟨fun a => ⟨outputSection_queue_closed ops T_now _ a (fun h => hs h.2),
      targetSection_closed ops T_now _ a (fun h => hs h.2)⟩, ?_,
      tickBody_closed_weights ops T_now (mergeSpikes T_now s) hs⟩
    rw [fireAndCredit_queue_closed ops T_now _ _ (fun h => hs h.2), preFire_event_queue]
    exact hm
  · intro fuel T_sim
    exact run_loop_inv ops T_sim (fun a => a.Event_queue = [])
      (fun _ _ h => h) (fun T a h => tickBody_event_queue ops T a h) (fun _ _ h => h) fuel s hq

/-- C21 at a concrete tick: in `gatedCore` the phase value of tick 0 is 1, an output neuron
fires outside the target class in the slot of the tick and the target replica is eligible, yet
the tick pushes no event and leaves the weights as they are. -/
theorem closed_gate_blocks_witness :
    gatedCore.Event_queue = [] ∧
    train_signal 0 gatedCore.N_training_slide gatedCore.N_training_times = 1 ∧
    outputFires flagOps gatedCore 3 = true ∧
    (fireAndCredit flagOps 0 (train_signal 0 gatedCore.N_training_slide
        gatedCore.N_training_times)
      (preFire flagOps 0 (mergeSpikes 0 gatedCore))).Event_queue = [] ∧
    (tickBody flagOps 0 (mergeSpikes 0 gatedCore)).W_out = gatedCore.W_out :=
  ⟨rfl, rfl, rfl,
    ((closed_gate_blocks flagOps 0 gatedCore rfl).1 (by decide)).2.1,
    ((closed_gate_blocks flagOps 0 gatedCore rfl).1 (by decide)).2.2.2.2⟩

section Ticks
variable {N : Type}

theorem processedTicks_next (ops : NeuronOps N) (T_sim fuel T_now T : Nat) (s s1 : Core N)
    (hT : T_now ≤ T_sim) (hb : loopBody ops T_sim s = .next T s1) :
    processedTicks ops T_sim (fuel + 1) T_now s = T :: processedTicks ops T_sim fuel T s1 := by
  simp only [processedTicks, if_pos hT, hb]

theorem processedTicks_stop (ops : NeuronOps N) (T_sim fuel T_now : Nat) (s : Core N)
    (h : ¬ T_now ≤ T_sim ∨ (∀ T s1, loopBody ops T_sim s ≠ .next T s1)) :
    processedTicks ops T_sim (fuel + 1) T_now s = [] := by
  simp only [processedTicks]
  split_ifs with hT
  · cases hb : loopBody ops T_sim s with
    | next T s1 =>
      rcases h with h | h
      · exact absurd hT h
      · exact absurd hb (h T s1)
    | exit s1 => rfl
    | raised s1 => rfl
  · rfl

/-- With a delay of at least one tick, spikes waiting from tick `L` on, and no `uint32_t`
overflow in `T_sim + 1` nor in `T_now + t_delay` for the ticks that are processed, the
processed ticks lie in `[L, T_sim]` and increase strictly. -/
theorem processedTicks_spec (ops : NeuronOps N) (T_sim : Nat) (hov : T_sim + 1 < 2 ^ 32) :
    ∀ (fuel L T_now : Nat) (s : Core N), SpikesAfter L s → L ≤ T_sim + 1 → 1 ≤ s.t_delay →
      (∀ T ∈ processedTicks ops T_sim fuel T_now s, T + s.t_delay < 2 ^ 32) →
      (∀ T ∈ processedTicks ops T_sim fuel T_now s, L ≤ T ∧ T ≤ T_sim) ∧
      (processedTicks ops T_sim fuel T_now s).Pairwise (fun x y => x < y) ∧
      (processedTicks ops T_sim fuel T_now s).length + L ≤ T_sim + 1 := by
  intro fuel
  induction fuel with
  | zero =>
    intro L T_now s _ hL _ _
    refine ⟨fun T hT => absurd hT (List.not_mem_nil _), List.Pairwise.nil, ?_⟩
    show 0 + L ≤ T_sim + 1
    omega
  | succ n ih =>
    intro L T_now s hs hL hd hsum
    by_cases hT : T_now ≤ T_sim
    · cases hb : loopBody ops T_sim s with
      | next T1 s1 =>
        rw [processedTicks_next ops T_sim n T_now T1 s s1 hT hb] at hsum ⊢
        obtain ⟨hT1, hle, -, -, hs1⟩ := loopBody_next hb
        have hu : u32 (T_sim + 1) = T_sim + 1 := Nat.mod_eq_of_lt hov
        have hge : L ≤ T1 := by
          rw [hT1]; exact nextTick_ge T_sim L s hs (by rw [hu]; exact hL)
        have hfr : Frame s s1 := by
          rw [hs1]; exact (mergeSpikes_frame T1 s).frameTrans (tickBody_frame ops T1 _)
        have hlt : T1 + s.t_delay < 2 ^ 32 := hsum T1 (List.mem_cons_self _ _)
        have hu1 : u32 (T1 + s.t_delay) = T1 + s.t_delay := Nat.mod_eq_of_lt hlt
        have hs1a : SpikesAfter (T1 + 1) s1 := by
          rw [hs1]
          refine tickBody_spikesAfter ops T1 (T1 + 1) _ ?_ (mergeSpikes_spikesAfter T1 s)
          show T1 + 1 ≤ u32 (T1 + s.t_delay)
          rw [hu1]; omega
        obtain ⟨i1, i2, i3⟩ := ih (T1 + 1) T1 s1 hs1a (by omega)
          (by rw [hfr.t_delay]; exact hd)
          (fun T hT => by rw [hfr.t_delay]; exact hsum T (List.mem_cons_of_mem _ hT))
        refine ⟨?_, ?_, ?_⟩
        · intro T hT
          rcases List.mem_cons.1 hT with rfl | hT
          · exact ⟨hge, hle⟩
          · have := i1 T hT
            exact ⟨by omega, this.2⟩
        · refine List.Pairwise.cons ?_ i2
          intro T hT
          have := i1 T hT
          omega
        · rw [List.length_cons]; omega
      | exit s1 =>
        rw [processedTicks_stop ops T_sim n T_now s
          (Or.inr (fun T s2 h => by rw [hb] at h; exact Step.noConfusion h))]
        refine ⟨fun T hT => absurd hT (List.not_mem_nil _), List.Pairwise.nil, ?_⟩
        show 0 + L ≤ T_sim + 1
        omega
      | raised s1 =>
        rw [processedTicks_stop ops T_sim n T_now s
          (Or.inr (fun T s2 h => by rw [hb] at h; exact Step.noConfusion h))]
        refine ⟨fun T hT => absurd hT (List.not_mem_nil _), List.Pairwise.nil, ?_⟩
        show 0 + L ≤ T_sim + 1
        omega
    · rw [processedTicks_stop ops T_sim n T_now s (Or.inl hT)]
      refine ⟨fun T hT => absurd hT (List.not_mem_nil _), List.Pairwise.nil, ?_⟩
      show 0 + L ≤ T_sim + 1
      omega

/-- The internal spike queue at the end of a tick: what the drains left, followed by one
spike per reservoir neuron found firing. -/
theorem tickBody_internal (ops : NeuronOps N) (T_now : Nat) (a : Core N) :
    (tickBody ops T_now a).internal_S_queue
      = (preFire ops T_now a).internal_S_queue
        ++ (firingReservoir ops (preFire ops T_now a)).map
            (fun i => Spike.mk (u32 (T_now + a.t_delay)) (i, 'r')) := by
  have h3 : spikeQueues (outputSection ops T_now
      (train_signal T_now a.N_training_slide a.N_training_times)
      (reservoirSection ops T_now (preFire ops T_now a)))
      = spikeQueues (reservoirSection ops T_now (preFire ops T_now a)) :=
    foldl_keep spikeQueues _ (outputStep_queues ops T_now
      (train_signal T_now a.N_training_slide a.N_training_times)) _ _
  have h4 := targetSection_queues ops T_now
    (train_signal T_now a.N_training_slide a.N_training_times)
    (outputSection ops T_now (train_signal T_now a.N_training_slide a.N_training_times)
      (reservoirSection ops T_now (preFire ops T_now a)))
  have h5 := applyPlasticity_queues
    (train_signal T_now a.N_training_slide a.N_training_times)
    (fireAndCredit ops T_now (train_signal T_now a.N_training_slide a.N_training_times)
      (preFire ops T_now a))
  have h6 : spikeQueues (tickBody ops T_now a)
      = spikeQueues (reservoirSection ops T_now (preFire ops T_now a)) :=
    h5.trans (h4.trans h3)
  have h7 : (tickBody ops T_now a).internal_S_queue
      = (reservoirSection ops T_now (preFire ops T_now a)).internal_S_queue :=
    congrArg (fun p => p.2.1) h6
  rw [h7]
  have h8 := (foldl_reservoirStep ops T_now (preFire ops T_now a)
    (List.range (preFire ops T_now a).Neu_res.length) (preFire ops T_now a)
    (List.nodup_range _) (fun _ _ => rfl) rfl rfl rfl).1
  rw [(preFire_frame ops T_now a).t_delay] at h8
  exact h8

theorem headTime_le_of_mem (T_sim : Nat) (q : List Spike) (S : Spike) (h : S ∈ q) :
    headTime T_sim q ≤ S.time := by
  unfold headTime
  cases ht : top Spike.time q with
  | none =>
    rw [(top_eq_none_iff Spike.time q).1 ht] at h
    exact absurd h (List.not_mem_nil _)
  | some S1 => exact top_le Spike.time ht S h

/-- With `t_delay = 0`, an iteration in which a reservoir neuron fires is followed by an
iteration for the same tick. -/
theorem zero_delay_repeats (ops : NeuronOps N) (T_sim : Nat) (hov : T_sim + 1 < 2 ^ 32)
    (s s1 : Core N) (T i : Nat) (hd : s.t_delay = 0)
    (hb : loopBody ops T_sim s = .next T s1)
    (hf : reservoirFires ops (preFire ops T (mergeSpikes T s)) i = true) :
    loopBody ops T_sim s1 = .next T (tickBody ops T (mergeSpikes T s1)) := by
  obtain ⟨-, hle, hn1, hn2, hs1⟩ := loopBody_next hb
  have hfr : Frame s s1 := by
    rw [hs1]; exact (mergeSpikes_frame T s).frameTrans (tickBody_frame ops T _)
  have hmd : (mergeSpikes T s).t_delay = 0 := hd
  have huT : u32 (T + 0) = T := Nat.mod_eq_of_lt (by omega)
  have hmem : Spike.mk T (i, 'r') ∈ s1.internal_S_queue := by
    rw [hs1, tickBody_internal, hmd, huT]
    apply List.mem_append_right
    refine List.mem_map.2 ⟨i, ?_, rfl⟩
    exact List.mem_filter.2 ⟨List.mem_range.2 (reservoirFires_lt ops _ i hf), hf⟩
  have hsa : SpikesAfter T s1 := by
    rw [hs1]
    refine tickBody_spikesAfter ops T T _ ?_ ?_
    · show T ≤ u32 (T + (mergeSpikes T s).t_delay)
      rw [hmd, huT]
    · have h := mergeSpikes_spikesAfter T s
      exact ⟨fun S hS => by have := h.1 S hS; omega, fun S hS => by have := h.2 S hS; omega⟩
  have hu : u32 (T_sim + 1) = T_sim + 1 := Nat.mod_eq_of_lt hov
  have hge : T ≤ nextTick T_sim s1 := nextTick_ge T_sim T s1 hsa (by rw [hu]; omega)
  have hle2 : nextTick T_sim s1 ≤ T := by
    unfold nextTick
    exact le_trans (min_le_right _ _) (headTime_le_of_mem T_sim _ _ hmem)
  have hnt : nextTick T_sim s1 = T := le_antisymm hle2 hge
  have hc1 : (mergeSpikes T s1).N_out_times = s1.N_out_times := rfl
  have hc2 : (mergeSpikes T s1).N_training_times = s1.N_training_times := rfl
  unfold loopBody
  dsimp only
  rw [hnt, if_neg (by omega), hc1, hc2, hfr.N_out_times, hfr.N_training_times,
    if_neg (by rintro (h | h); exact hn1 h; exact hn2 h), if_neg hn2]

end Ticks

/-- C22: let `T_sim + 1` fit in a `uint32_t`.  If `t_delay ≥ 1` and `T_now + t_delay` does not
overflow for the ticks that are processed, the tick values processed by successive iterations
of the tick loop of `run_loop`, started in state `s`, increase strictly, each is `≤ T_sim`,
and at most `T_sim + 1` iterations process a tick.  If `t_delay = 0` and a reservoir neuron
fires in the tick `T` of the first iteration, the second iteration processes the tick `T`
again. -/
theorem ticks_strictly_increasing {N : Type} (ops : NeuronOps N) (fuel T_sim : Nat)
    (s : Core N) (hov : T_sim + 1 < 2 ^ 32) :
    (1 ≤ s.t_delay →
      (∀ T ∈ processedTicks ops T_sim fuel 0 s, T + s.t_delay < 2 ^ 32) →
      (processedTicks ops T_sim fuel 0 s).Pairwise (fun x y => x < y) ∧
      (∀ T ∈ processedTicks ops T_sim fuel 0 s, T ≤ T_sim) ∧
      (processedTicks ops T_sim fuel 0 s).length ≤ T_sim + 1) ∧
    (s.t_delay = 0 → ∀ (T i : Nat) (s1 : Core N), loopBody ops T_sim s = .next T s1 →
      reservoirFires ops (preFire ops T (mergeSpikes T s)) i = true →
      (∃ s2, loopBody ops T_sim s1 = .next T s2) ∧
      processedTicks ops T_sim 2 0 s = [T, T]) := by
  constructor
  · intro hd hsum
    obtain ⟨h1, h2, h3⟩ := processedTicks_spec ops T_sim hov fuel 0 0 s
      ⟨fun _ _ => Nat.zero_le _, fun _ _ => Nat.zero_le _⟩ (Nat.zero_le _) hd hsum
    exact ⟨h2, fun T hT => (h1 T hT).2, h3⟩
  · intro hd T i s1 hb hf
    have h2 := zero_delay_repeats ops T_sim hov s s1 T i hd hb hf
    refine ⟨⟨_, h2⟩, ?_⟩
    rw [processedTicks_next ops T_sim 1 0 T s s1 (Nat.zero_le _) hb,
      processedTicks_next ops T_sim 0 T T s1 _ (loopBody_next hb).2.1 h2]
    rfl

/-- C22 at two concrete runs: with delay 1 and input spikes at ticks 0 and 1 the loop
processes the ticks 0 and 1 in this order; with delay 0 and a reservoir neuron that fires,
tick 0 is processed twice in a row. -/
theorem ticks_strictly_increasing_witness :
    processedTicks flagOps 3 5 0 firingCore = [0, 1] ∧
    (processedTicks flagOps 3 5 0 firingCore).Pairwise (fun x y => x < y) ∧
    loopBody flagOps 0 zeroDelayCore = .next 0 zeroDelayLoop ∧
    reservoirFires flagOps (preFire flagOps 0 (mergeSpikes 0 zeroDelayCore)) 0 = true ∧
    processedTicks flagOps 0 2 0 zeroDelayCore = [0, 0] :=
  ⟨rfl,
    ((ticks_strictly_increasing flagOps 5 3 firingCore (by norm_num)).1 (by decide)
      (fun T hT => by
        have h : processedTicks flagOps 3 5 0 firingCore = [0, 1] := rfl
        rw [h] at hT
        have h1 : firingCore.t_delay = 1 := rfl
        rw [h1]
        simp only [List.mem_cons, List.mem_singleton, List.not_mem_nil, or_false] at hT
        rcases hT with rfl | rfl <;> norm_num)).1,
    rfl, rfl,
    ((ticks_strictly_increasing flagOps 2 0 zeroDelayCore (by norm_num)).2 rfl 0 0
      zeroDelayLoop rfl rfl).2⟩

/-- C23: in the state that the constructor builds from a configuration with `N_out ≥ 10`,
`Neu_acc` has 10 entries, `Neu_out` has `N_out` entries and `N_out_times = N_out / 10`; the
class index `i / N_out_times` is below the length of `Neu_acc` for every output neuron index
`i` exactly when `N_out` is a multiple of 10; and then, for `class_label < 10` and
`k < N_out_times`, the index `class_label * N_out_times + k` is below the length of
`Neu_out`. -/
theorem accumulator_index_bounds {N : Type} (neuron : N) (config : Config) (other : Core N)
    (h10 : 10 ≤ config.N_out) :
    (construct neuron config other).Neu_acc.length = 10 ∧
    (construct neuron config other).Neu_out.length = config.N_out ∧
    (construct neuron config other).N_out_times = config.N_out / 10 ∧
    ((∀ i < (construct neuron config other).Neu_out.length,
        i / (construct neuron config other).N_out_times
          < (construct neuron config other).Neu_acc.length) ↔ 10 ∣ config.N_out) ∧
    (10 ∣ config.N_out → ∀ class_label k : Nat, class_label < 10 →
      k < (construct neuron config other).N_out_times →
      class_label * (construct neuron config other).N_out_times + k
        < (construct neuron config other).Neu_out.length) := by
  have ha : (construct neuron config other).Neu_acc.length = 10 := List.length_replicate _ _
  have ho : (construct neuron config other).Neu_out.length = config.N_out :=
    List.length_replicate _ _
  have ht : (construct neuron config other).N_out_times = config.N_out / 10 := rfl
  have hpos : 0 < config.N_out / 10 := Nat.div_pos h10 (by norm_num)
  refine ⟨ha, ho, ht, ?_, ?_⟩
  · rw [ha, ho, ht]
    constructor
    · intro h
      have h1 := h (config.N_out - 1) (by omega)
      rw [Nat.div_lt_iff_lt_mul hpos] at h1
      omega
    · intro hdvd i hi
      rw [Nat.div_lt_iff_lt_mul hpos]
      omega
  · intro hdvd class_label k hc hk
    rw [ho]
    rw [ht] at hk ⊢
    have h1 : class_label * (config.N_out / 10) ≤ 9 * (config.N_out / 10) :=
      Nat.mul_le_mul_right _ (by omega)
    omega

/-- C23 at two configurations: with `N_out = 20` every class index is in range, with
`N_out = 15` the output neuron 14 has class index 14. -/
theorem accumulator_index_bounds_witness :
    10 ≤ (outConfig 20).N_out ∧
    ((∀ i < (construct false (outConfig 20) idleCore).Neu_out.length,
        i / (construct false (outConfig 20) idleCore).N_out_times
          < (construct false (outConfig 20) idleCore).Neu_acc.length) ↔ 10 ∣ (outConfig 20).N_out) ∧
    (construct false (outConfig 15) idleCore).Neu_out.length = 15 ∧
    14 / (construct false (outConfig 15) idleCore).N_out_times = 14 ∧
    (construct false (outConfig 15) idleCore).Neu_acc.length = 10 :=
  ⟨by decide, (accumulator_index_bounds false (outConfig 20) idleCore (by decide)).2.2.2.1,
    rfl, rfl, rfl⟩

section Double
variable {N : Type}

/-- Exact arithmetic is a rounding. -/
theorem rounding_exact : Rounding (fun x : ℚ => x) :=
  ⟨fun _ _ h => h, fun _ => rfl, fun _ => rfl, rfl⟩

theorem applyEventFl_exact (s : Core N) (E : Event_unit) :
    applyEventFl (fun x => x) s E = applyEvent s E := rfl

theorem tickBodyFl_exact (ops : NeuronOps N) (T_now : Nat) (s : Core N) :
    tickBodyFl (fun x => x) ops T_now s = tickBody ops T_now s := rfl

theorem loopBodyFl_exact (ops : NeuronOps N) (T_sim : Nat) (s : Core N) :
    loopBodyFl (fun x => x) ops T_sim s = loopBody ops T_sim s := rfl

theorem whileLoopFl_exact (ops : NeuronOps N) (T_sim : Nat) :
    ∀ (fuel T_now : Nat) (s : Core N),
      whileLoopFl (fun x => x) ops T_sim fuel T_now s = whileLoop ops T_sim fuel T_now s ∧
      appliedEventsFl (fun x => x) ops T_sim fuel T_now s
        = appliedEvents ops T_sim fuel T_now s := by
  intro fuel
  induction fuel with
  | zero => intro T_now s; exact ⟨rfl, rfl⟩
  | succ n ih =>
    intro T_now s
    simp only [whileLoopFl, whileLoop, appliedEventsFl, appliedEvents, loopBodyFl_exact]
    split_ifs with hT
    · cases hb : loopBody ops T_sim s with
      | next T s1 =>
        dsimp only
        exact ⟨(ih T s1).1, by rw [(ih T s1).2]⟩
      | exit s1 => exact ⟨rfl, rfl⟩
      | raised s1 => exact ⟨rfl, rfl⟩
    · exact ⟨rfl, rfl⟩

/-- With exact arithmetic the run in `double` is `run_loop`. -/
theorem run_loopFl_exact (ops : NeuronOps N) (fuel T_sim : Nat) (s : Core N) :
    run_loopFl (fun x => x) ops fuel T_sim s = run_loop ops fuel T_sim s := by
  unfold run_loopFl run_loop
  rw [(whileLoopFl_exact ops T_sim fuel 0 s).1]

end Double

theorem truncFl_of_nonneg {x : ℚ} (h : 0 ≤ x) : truncFl x = ((⌊x⌋ : ℤ) : ℚ) := by
  unfold truncFl
  rw [if_pos h]

/-- Under truncation a learning rate of `1/2` is absorbed: the potentiating update leaves the
cell value 0 as it is, although 0 is below the bound 1. -/
theorem small_lr_absorbed : outCellFl truncFl (1 / 2) true 0 = 0 := by
  have h : truncFl (0 + 1 / 2) = 0 := by
    rw [truncFl_of_nonneg (by norm_num)]
    have : ⌊(0 + 1 / 2 : ℚ)⌋ = 0 := by
      rw [Int.floor_eq_iff]
      constructor <;> norm_num
    rw [this]
    norm_num
  show addClampFl truncFl (1 / 2) 1 0 = 0
  unfold addClampFl
  rw [h]
  norm_num



end Speakmin
